import Mathlib

/-!
Requirement machine: the rule builder and the completion driver.

A shallow embedding of `lib/AST/RequirementMachine/RequirementMachine.cpp`:
the `RuleBuilder` that lowers generic requirements and protocol declarations
to rewrite rules, the `RequirementMachine` that seeds a rewrite system with
them and drives completion, and the host type-system model both read.

Conventions of the embedding:

* declarations (`ProtocolDecl`, `ClassDecl`) are dense identifiers; what the
  source reads from a declaration is a field of `RewriteContext`;
* the mutable `RuleBuilder` object is a record passed through every member
  function; the `SmallVector` output argument of
  `getConcreteSubstitutionSchema` is passed in and returned;
* in the rule builder a failed `assert` and a null dereference are the result
  `none`; the `while` loop of `collectRulesFromReferencedProtocols` takes fuel
  and gives `none` when the fuel runs out;
* the rewrite system and the property map are called, not defined, by the
  source file: their member functions are the fields of `RewriteEngine`, over
  an abstract state;
* a member function of the machine ends in an `Outcome`: it returns, it calls
  `abort()`, it violates its contract (a failed `assert`, an undefined access),
  or the fuel of its loop runs out;
* what is written to the debug stream under `Dump` is not part of the state;
  the assertion that `RequirementMachine::dump` makes before it writes is part
  of the outcome.
-/

namespace RequirementMachine

/-! ## Host type system -/

/-- Identity of a protocol declaration (`const ProtocolDecl *`). -/
abbrev ProtocolDecl := Nat

/-- Identity of a class declaration (`ClassDecl *`). -/
abbrev ClassDecl := Nat

/-- An identifier: the name of an associated type or of a member type. -/
abbrev Identifier := Nat

/-- Modelled from the spec: the canonical types of the host type system, whose
declaration is not part of the source file. A type parameter is a generic
parameter `τ_d_i` or a member type `X.Name` of a type parameter; every other
type is a constructor applied to component types. Class types are told apart
because a superclass requirement reads the class declaration. -/
inductive CanType where
  | genericTypeParam (depth index : Nat)
  | dependentMember (base : CanType) (name : Identifier)
  | classType (decl : ClassDecl) (args : List CanType)
  | structural (head : Nat) (children : List CanType)
  deriving Repr

namespace CanType

mutual
/-- Structural equality test on types. -/
def beq : CanType → CanType → Bool
  | .genericTypeParam d i, .genericTypeParam e j => d == e && i == j
  | .dependentMember b n, .dependentMember c m => beq b c && n == m
  | .classType d xs, .classType e ys => d == e && beqList xs ys
  | .structural d xs, .structural e ys => d == e && beqList xs ys
  | _, _ => false
/-- Structural equality test on lists of types. -/
def beqList : List CanType → List CanType → Bool
  | [], [] => true
  | x :: xs, y :: ys => beq x y && beqList xs ys
  | _, _ => false
end

mutual
theorem canType_beq_refl : ∀ t : CanType, beq t t = true
  | .genericTypeParam d i => by simp [beq]
  | .dependentMember b n => by simp [beq, canType_beq_refl b]
  | .classType d xs => by simp [beq, canType_beqList_refl xs]
  | .structural d xs => by simp [beq, canType_beqList_refl xs]
theorem canType_beqList_refl : ∀ ts : List CanType, beqList ts ts = true
  | [] => by simp [beqList]
  | x :: xs => by simp [beqList, canType_beq_refl x, canType_beqList_refl xs]
end

mutual
theorem canType_eq_of_beq : ∀ s t : CanType, beq s t = true → s = t
  | .genericTypeParam d i, t => by
    cases t <;> simp [beq]
  | .dependentMember b n, t => by
    cases t with
    | dependentMember c m =>
      simp only [beq, Bool.and_eq_true, beq_iff_eq]
      rintro ⟨h1, h2⟩
      rw [canType_eq_of_beq b c h1, h2]
    | _ => simp [beq]
  | .classType d xs, t => by
    cases t with
    | classType e ys =>
      simp only [beq, Bool.and_eq_true, beq_iff_eq]
      rintro ⟨h1, h2⟩
      rw [canType_eqList_of_beq xs ys h2, h1]
    | _ => simp [beq]
  | .structural d xs, t => by
    cases t with
    | structural e ys =>
      simp only [beq, Bool.and_eq_true, beq_iff_eq]
      rintro ⟨h1, h2⟩
      rw [canType_eqList_of_beq xs ys h2, h1]
    | _ => simp [beq]
theorem canType_eqList_of_beq : ∀ ss ts : List CanType, beqList ss ts = true → ss = ts
  | [], ts => by
    cases ts <;> simp [beqList]
  | x :: xs, ts => by
    cases ts with
    | nil => simp [beqList]
    | cons y ys =>
      simp only [beqList, Bool.and_eq_true]
      rintro ⟨h1, h2⟩
      rw [canType_eq_of_beq x y h1, canType_eqList_of_beq xs ys h2]
end

instance : DecidableEq CanType := fun s t =>
  if h : beq s t = true then isTrue (canType_eq_of_beq s t h)
  else isFalse (fun e => h (e ▸ canType_beq_refl s))

/-- Modelled from the spec: `TypeBase::isTypeParameter`, absent from the source
file. A generic parameter, or a member type whose base is a type parameter. -/
def isTypeParameter : CanType → Bool
  | .genericTypeParam _ _ => true
  | .dependentMember b _ => isTypeParameter b
  | .classType _ _ => false
  | .structural _ _ => false

mutual
/-- Modelled from the spec: `TypeBase::hasTypeParameter`, absent from the source
file. Whether a generic parameter occurs anywhere in the type. -/
def hasTypeParameter : CanType → Bool
  | .genericTypeParam _ _ => true
  | .dependentMember b _ => hasTypeParameter b
  | .classType _ xs => anyHasTypeParameter xs
  | .structural _ xs => anyHasTypeParameter xs
/-- Whether a generic parameter occurs in one of the listed types. -/
def anyHasTypeParameter : List CanType → Bool
  | [] => false
  | x :: xs => hasTypeParameter x || anyHasTypeParameter xs
end

/-- Modelled from the spec: `TypeBase::getClassOrBoundGenericClass`, absent from
the source file. The class declaration of a class type, null otherwise. -/
def getClassOrBoundGenericClass : CanType → Option ClassDecl
  | .classType d _ => some d
  | _ => none

end CanType

/-- Modelled from the spec: the kinds of layout constraint of the host type
system (`LayoutConstraintKind`), declared outside the source file. -/
inductive LayoutConstraintKind where
  | UnknownLayout
  | TrivialOfExactSize
  | TrivialOfAtMostSize
  | Trivial
  | Class
  | NativeClass
  | RefCountedObject
  | NativeRefCountedObject
  deriving DecidableEq, Repr

/-- Modelled from the spec: a layout constraint, a kind with the size and
alignment that the sized kinds carry (zero otherwise). -/
structure LayoutConstraint where
  kind : LayoutConstraintKind
  sizeInBits : Nat
  alignment : Nat
  deriving DecidableEq, Repr

/-- Modelled from the spec: `LayoutConstraint::getLayoutConstraint(kind, ctx)`,
the constraint of an unsized kind. -/
def LayoutConstraint.getLayoutConstraint (kind : LayoutConstraintKind) : LayoutConstraint :=
  { kind := kind, sizeInBits := 0, alignment := 0 }

/-- Modelled from the spec: an associated type declaration; the rule builder
reads its name only. -/
structure AssociatedTypeDecl where
  getName : Identifier
  deriving DecidableEq, Repr

/-- Modelled from the spec: a generic requirement of the host type system. A
requirement has a kind and a subject (first) type; a conformance requirement
carries a protocol, a superclass requirement a class type (its declaration and
generic arguments), a layout requirement a layout constraint, and a same-type
requirement a second type that is a type parameter or a concrete type. -/
inductive Requirement where
  | Conformance (first : CanType) (proto : ProtocolDecl)
  | Superclass (first : CanType) (decl : ClassDecl) (args : List CanType)
  | Layout (first : CanType) (layout : LayoutConstraint)
  | SameType (first : CanType) (second : CanType)
  deriving DecidableEq, Repr

/-- The subject type of a requirement (`Requirement::getFirstType`). -/
def Requirement.getFirstType : Requirement → CanType
  | .Conformance t _ => t
  | .Superclass t _ _ => t
  | .Layout t _ => t
  | .SameType t _ => t

/-- Modelled from the spec: a structural requirement of a protocol, a
requirement together with the source location it was written at. -/
structure StructuralRequirement where
  req : Requirement
  loc : Nat
  deriving DecidableEq, Repr

/-! ## Symbols, terms and rules -/

/-- Modelled from the spec: the symbols of the rewrite system
(`Symbol::Kind`), declared outside the source file. The substitutions of a
superclass or concrete type symbol are terms, that is lists of symbols. -/
inductive Symbol where
  | GenericParam (depth index : Nat)
  | Protocol (proto : ProtocolDecl)
  | AssociatedType (protos : List ProtocolDecl) (name : Identifier)
  | Name (name : Identifier)
  | Layout (layout : LayoutConstraint)
  | Superclass (type : CanType) (substitutions : List (List Symbol))
  | ConcreteType (type : CanType) (substitutions : List (List Symbol))
  deriving Repr

/-- An immutable term: a sequence of symbols. -/
abbrev Term := List Symbol

/-- A term under construction; `MutableTerm::add` appends a symbol. -/
abbrev MutableTerm := List Symbol

/-- A rule as the rule builder stores it: a pair of terms. -/
abbrev RulePair := MutableTerm × MutableTerm

namespace Symbol

mutual
/-- Structural equality test on symbols. -/
def beq : Symbol → Symbol → Bool
  | .GenericParam d i, .GenericParam e j => d == e && i == j
  | .Protocol p, .Protocol q => p == q
  | .AssociatedType ps n, .AssociatedType qs m => ps == qs && n == m
  | .Name n, .Name m => n == m
  | .Layout l, .Layout k => l == k
  | .Superclass t xs, .Superclass u ys => (t == u) && beqTerms xs ys
  | .ConcreteType t xs, .ConcreteType u ys => (t == u) && beqTerms xs ys
  | _, _ => false
/-- Structural equality test on terms. -/
def beqTerm : List Symbol → List Symbol → Bool
  | [], [] => true
  | x :: xs, y :: ys => beq x y && beqTerm xs ys
  | _, _ => false
/-- Structural equality test on lists of terms. -/
def beqTerms : List (List Symbol) → List (List Symbol) → Bool
  | [], [] => true
  | x :: xs, y :: ys => beqTerm x y && beqTerms xs ys
  | _, _ => false
end

mutual
theorem symbol_beq_refl : ∀ s : Symbol, beq s s = true
  | .GenericParam d i => by simp [beq]
  | .Protocol p => by simp [beq]
  | .AssociatedType ps n => by simp [beq]
  | .Name n => by simp [beq]
  | .Layout l => by simp [beq]
  | .Superclass t xs => by simp [beq, symbol_beqTerms_refl xs]
  | .ConcreteType t xs => by simp [beq, symbol_beqTerms_refl xs]
theorem symbol_beqTerm_refl : ∀ t : List Symbol, beqTerm t t = true
  | [] => by simp [beqTerm]
  | x :: xs => by simp [beqTerm, symbol_beq_refl x, symbol_beqTerm_refl xs]
theorem symbol_beqTerms_refl : ∀ ts : List (List Symbol), beqTerms ts ts = true
  | [] => by simp [beqTerms]
  | x :: xs => by simp [beqTerms, symbol_beqTerm_refl x, symbol_beqTerms_refl xs]
end

mutual
theorem symbol_eq_of_beq : ∀ s t : Symbol, beq s t = true → s = t
  | .GenericParam d i, t => by
    cases t <;> simp [beq]
  | .Protocol p, t => by
    cases t <;> simp [beq]
  | .AssociatedType ps n, t => by
    cases t <;> simp [beq]
  | .Name n, t => by
    cases t <;> simp [beq]
  | .Layout l, t => by
    cases t <;> simp [beq]
  | .Superclass a xs, t => by
    cases t with
    | Superclass c ys =>
      simp only [beq, Bool.and_eq_true, beq_iff_eq]
      rintro ⟨h1, h2⟩
      rw [symbol_eqTerms_of_beq xs ys h2, h1]
    | _ => simp [beq]
  | .ConcreteType a xs, t => by
    cases t with
    | ConcreteType c ys =>
      simp only [beq, Bool.and_eq_true, beq_iff_eq]
      rintro ⟨h1, h2⟩
      rw [symbol_eqTerms_of_beq xs ys h2, h1]
    | _ => simp [beq]
theorem symbol_eqTerm_of_beq : ∀ s t : List Symbol, beqTerm s t = true → s = t
  | [], ts => by
    cases ts <;> simp [beqTerm]
  | x :: xs, ts => by
    cases ts with
    | nil => simp [beqTerm]
    | cons y ys =>
      simp only [beqTerm, Bool.and_eq_true]
      rintro ⟨h1, h2⟩
      rw [symbol_eq_of_beq x y h1, symbol_eqTerm_of_beq xs ys h2]
theorem symbol_eqTerms_of_beq : ∀ s t : List (List Symbol), beqTerms s t = true → s = t
  | [], ts => by
    cases ts <;> simp [beqTerms]
  | x :: xs, ts => by
    cases ts with
    | nil => simp [beqTerms]
    | cons y ys =>
      simp only [beqTerms, Bool.and_eq_true]
      rintro ⟨h1, h2⟩
      rw [symbol_eqTerm_of_beq x y h1, symbol_eqTerms_of_beq xs ys h2]
end

instance : DecidableEq Symbol := fun s t =>
  if h : beq s t = true then isTrue (symbol_eq_of_beq s t h)
  else isFalse (fun e => h (e ▸ symbol_beq_refl s))

/-- The symbol `[P]` (`Symbol::forProtocol`). -/
def forProtocol (proto : ProtocolDecl) : Symbol := .Protocol proto

/-- The symbol of a bare name (`Symbol::forName`). -/
def forName (name : Identifier) : Symbol := .Name name

/-- The symbol `[P:A]` (`Symbol::forAssociatedType` with one protocol). -/
def forAssociatedType (proto : ProtocolDecl) (name : Identifier) : Symbol :=
  .AssociatedType [proto] name

/-- The symbol `[layout: L]` (`Symbol::forLayout`). -/
def forLayout (layout : LayoutConstraint) : Symbol := .Layout layout

/-- The symbol `[superclass: C]` (`Symbol::forSuperclass`). -/
def forSuperclass (type : CanType) (substitutions : List Term) : Symbol :=
  .Superclass type substitutions

/-- The symbol `[concrete: C]` (`Symbol::forConcreteType`). -/
def forConcreteType (type : CanType) (substitutions : List Term) : Symbol :=
  .ConcreteType type substitutions

end Symbol

/-! ## The rewrite context and the host declarations -/

/-- What the rule builder reads from the rewrite context and from the
declarations of the host type system. None of these functions is defined in the
source file, so each is a parameter of the embedding. -/
structure RewriteContext where
  /-- `RewriteContext::getMutableTermForType(type, proto)`: the term of a type
  parameter, rooted in a generic parameter when `proto` is null and in the
  protocol otherwise. -/
  getMutableTermForType : CanType → Option ProtocolDecl → MutableTerm
  /-- `RewriteContext::getInheritedProtocols(proto)`. -/
  getInheritedProtocols : ProtocolDecl → List ProtocolDecl
  /-- `ProtocolDecl::getProtocolDependencies()`. -/
  getProtocolDependencies : ProtocolDecl → List ProtocolDecl
  /-- `ProtocolDecl::getAssociatedTypeMembers()`. -/
  getAssociatedTypeMembers : ProtocolDecl → List AssociatedTypeDecl
  /-- `ProtocolDecl::getStructuralRequirements()`. -/
  getStructuralRequirements : ProtocolDecl → List StructuralRequirement
  /-- `ProtocolDecl::getRequirementSignature()`. -/
  getRequirementSignature : ProtocolDecl → List Requirement
  /-- `Requirement::getCanonical()`. -/
  getCanonical : Requirement → Requirement
  /-- `ClassDecl::usesObjCObjectModel()`. -/
  usesObjCObjectModel : ClassDecl → Bool

/-- The immutable term of a type parameter (`RewriteContext::getTermForType`):
the symbols of `getMutableTermForType`. -/
def RewriteContext.getTermForType (ctx : RewriteContext) (type : CanType)
    (proto : Option ProtocolDecl) : Term :=
  ctx.getMutableTermForType type proto

namespace CanType

mutual
/-- Modelled from the spec: `Type::transformRec(fn)`, absent from the source
file. The callback is tried on the type first; when it answers, its answer
replaces the type and the components are not visited; otherwise the components
are transformed from left to right. The state `σ` is what the callback
captures by reference. -/
def transformRec {σ : Type} (fn : CanType → σ → Option (CanType × σ)) :
    CanType → σ → CanType × σ
  | .genericTypeParam d i, s =>
    match fn (.genericTypeParam d i) s with
    | some r => r
    | none => (.genericTypeParam d i, s)
  | .dependentMember b n, s =>
    match fn (.dependentMember b n) s with
    | some r => r
    | none =>
      let r := transformRec fn b s
      (.dependentMember r.1 n, r.2)
  | .classType d xs, s =>
    match fn (.classType d xs) s with
    | some r => r
    | none =>
      let r := transformRecList fn xs s
      (.classType d r.1, r.2)
  | .structural d xs, s =>
    match fn (.structural d xs) s with
    | some r => r
    | none =>
      let r := transformRecList fn xs s
      (.structural d r.1, r.2)
/-- The components of a type, transformed from left to right. -/
def transformRecList {σ : Type} (fn : CanType → σ → Option (CanType × σ)) :
    List CanType → σ → List CanType × σ
  | [], s => ([], s)
  | x :: xs, s =>
    let r := transformRec fn x s
    let rs := transformRecList fn xs r.2
    (r.1 :: rs.1, rs.2)
end

end CanType

/-! ## The rule builder -/

/-- The map `llvm::DenseMap<const ProtocolDecl *, bool>`, as the list of its
entries; every key occurs once. -/
abbrev DenseMap := List (ProtocolDecl × Bool)

namespace DenseMap

/-- The value stored under a key, if any. -/
def find (m : DenseMap) (key : ProtocolDecl) : Option Bool :=
  List.lookup key m

/-- Number of entries under a key (`DenseMap::count`): 0 or 1. -/
def count (m : DenseMap) (key : ProtocolDecl) : Nat :=
  if (m.find key).isSome then 1 else 0

/-- The slot of a key (`DenseMap::FindAndConstruct`, behind `operator[]`): a
missing key is inserted with the default value `false`. -/
def findAndConstruct (m : DenseMap) (key : ProtocolDecl) : DenseMap :=
  if (m.find key).isSome then m else m ++ [(key, false)]

/-- Reading `m[key]`: the value in the slot. -/
def get (m : DenseMap) (key : ProtocolDecl) : Bool :=
  ((m.findAndConstruct key).find key).getD false

/-- Writing `m[key] = value`: the slot is found or made, then assigned. -/
def set (m : DenseMap) (key : ProtocolDecl) (value : Bool) : DenseMap :=
  (m.findAndConstruct key).map (fun e => if e.1 == key then (key, value) else e)

/-- The keys of the map. -/
def keys (m : DenseMap) : List ProtocolDecl := m.map Prod.fst

end DenseMap

/-- The state of a `RuleBuilder`. -/
structure RuleBuilder where
  Dump : Bool
  ProtocolMap : DenseMap
  Protocols : List ProtocolDecl
  PermanentRules : List RulePair
  RequirementRules : List RulePair
  deriving DecidableEq, Repr

namespace RuleBuilder

/-- The constructor `RuleBuilder(ctx, dump)`: a fresh builder. -/
def init (dump : Bool) : RuleBuilder :=
  { Dump := dump, ProtocolMap := [], Protocols := [], PermanentRules := [],
    RequirementRules := [] }

/-- The callback that `getConcreteSubstitutionSchema` passes to `transformRec`
(source lines 99 to 109). -/
def schemaCallback (ctx : RewriteContext) (proto : Option ProtocolDecl)
    (t : CanType) (result : List Term) : Option (CanType × List Term) :=
  if !t.isTypeParameter then none
  else
    let index := result.length
    let result := result ++ [ctx.getTermForType t proto]
    some (CanType.genericTypeParam 0 index, result)

/-- `RuleBuilder::getConcreteSubstitutionSchema` (source lines 90 to 110). The
result is the schema type and the output list; `none` is the failed assertion
on a type parameter. -/
def getConcreteSubstitutionSchema (ctx : RewriteContext) (concreteType : CanType)
    (proto : Option ProtocolDecl) (result : List Term) : Option (CanType × List Term) :=
  if concreteType.isTypeParameter then none
  else if !concreteType.hasTypeParameter then some (concreteType, result)
  else some (CanType.transformRec (schemaCallback ctx proto) concreteType result)

/-- `RuleBuilder::addProtocol` (source lines 285 to 292). -/
def addProtocol (proto : ProtocolDecl) (initialComponent : Bool) (b : RuleBuilder) :
    RuleBuilder :=
  if b.ProtocolMap.count proto > 0 then b
  else
    { b with
      ProtocolMap := b.ProtocolMap.set proto initialComponent
      Protocols := b.Protocols ++ [proto] }

/-- `RuleBuilder::addAssociatedType` (source lines 143 to 153). -/
def addAssociatedType (type : AssociatedTypeDecl) (proto : ProtocolDecl) (b : RuleBuilder) :
    RuleBuilder :=
  let lhs : MutableTerm := [Symbol.forProtocol proto, Symbol.forName type.getName]
  let rhs : MutableTerm := [Symbol.forAssociatedType proto type.getName]
  { b with PermanentRules := b.PermanentRules ++ [(lhs, rhs)] }

/-- `RuleBuilder::addRequirement` (source lines 164 to 282). The result is
`none` when the schema assertion fails or the superclass type has no class
declaration. -/
def addRequirement (ctx : RewriteContext) (req : Requirement) (proto : Option ProtocolDecl)
    (b : RuleBuilder) : Option RuleBuilder :=
  let subjectType := req.getFirstType
  let subjectTerm := ctx.getMutableTermForType subjectType proto
  match req with
  | .Conformance _ reqProto =>
    let constraintTerm := subjectTerm ++ [Symbol.forProtocol reqProto]
    some { b with RequirementRules := b.RequirementRules ++ [(subjectTerm, constraintTerm)] }
  | .Superclass _ decl args =>
    match getConcreteSubstitutionSchema ctx (CanType.classType decl args) proto [] with
    | none => none
    | some (otherType, substitutions) =>
      let superclassSymbol := Symbol.forSuperclass otherType substitutions
      match otherType.getClassOrBoundGenericClass with
      | none => none
      | some classDecl =>
        let layout := LayoutConstraint.getLayoutConstraint
          (if ctx.usesObjCObjectModel classDecl then LayoutConstraintKind.Class
           else LayoutConstraintKind.NativeClass)
        let layoutSymbol := Symbol.forLayout layout
        let layoutSubjectTerm : MutableTerm := [superclassSymbol]
        let layoutConstraintTerm := layoutSubjectTerm ++ [layoutSymbol]
        let constraintTerm := subjectTerm ++ [superclassSymbol]
        some { b with
          PermanentRules := b.PermanentRules ++ [(layoutConstraintTerm, layoutSubjectTerm)]
          RequirementRules := b.RequirementRules ++ [(subjectTerm, constraintTerm)] }
  | .Layout _ layout =>
    let constraintTerm := subjectTerm ++ [Symbol.forLayout layout]
    some { b with RequirementRules := b.RequirementRules ++ [(subjectTerm, constraintTerm)] }
  | .SameType _ otherType =>
    if !otherType.isTypeParameter then
      match getConcreteSubstitutionSchema ctx otherType proto [] with
      | none => none
      | some (otherType, substitutions) =>
        let constraintTerm := subjectTerm ++ [Symbol.forConcreteType otherType substitutions]
        some { b with RequirementRules := b.RequirementRules ++ [(subjectTerm, constraintTerm)] }
    else
      let constraintTerm := ctx.getMutableTermForType otherType proto
      some { b with RequirementRules := b.RequirementRules ++ [(subjectTerm, constraintTerm)] }

/-- The first loop of `collectRulesFromReferencedProtocols` (source lines 295
to 301), entered with the index `i`: the protocol at the index registers its
dependencies as non-initial, until the index reaches the end of the list. -/
def discoverProtocols (ctx : RewriteContext) : Nat → Nat → RuleBuilder → Option RuleBuilder
  | 0, _, _ => none
  | fuel + 1, i, b =>
    if h : i < b.Protocols.length then
      let proto := b.Protocols[i]
      discoverProtocols ctx fuel (i + 1)
        ((ctx.getProtocolDependencies proto).foldl (fun b depProto => addProtocol depProto false b) b)
    else some b

/-- The body of the second loop of `collectRulesFromReferencedProtocols`
(source lines 305 to 343) for one protocol. -/
def addProtocolRules (ctx : RewriteContext) (proto : ProtocolDecl) (b : RuleBuilder) :
    Option RuleBuilder :=
  let lhs : MutableTerm := [Symbol.forProtocol proto, Symbol.forProtocol proto]
  let rhs : MutableTerm := [Symbol.forProtocol proto]
  let b := { b with PermanentRules := b.PermanentRules ++ [(lhs, rhs)] }
  let b := (ctx.getAssociatedTypeMembers proto).foldl
    (fun b assocType => addAssociatedType assocType proto b) b
  let b := (ctx.getInheritedProtocols proto).foldl
    (fun b inheritedProto => (ctx.getAssociatedTypeMembers inheritedProto).foldl
      (fun b assocType => addAssociatedType assocType proto b) b) b
  let flag := b.ProtocolMap.get proto
  let b := { b with ProtocolMap := b.ProtocolMap.findAndConstruct proto }
  if flag then
    (ctx.getStructuralRequirements proto).foldlM
      (fun b req => addRequirement ctx (ctx.getCanonical req.req) (some proto) b) b
  else
    (ctx.getRequirementSignature proto).foldlM
      (fun b req => addRequirement ctx (ctx.getCanonical req) (some proto) b) b

/-- `RuleBuilder::collectRulesFromReferencedProtocols` (source lines 294 to
345): the discovery loop from index 0, then the rules of every protocol of the
list in order. -/
def collectRulesFromReferencedProtocols (ctx : RewriteContext) (fuel : Nat) (b : RuleBuilder) :
    Option RuleBuilder :=
  match discoverProtocols ctx fuel 0 b with
  | none => none
  | some b => b.Protocols.foldlM (fun b proto => addProtocolRules ctx proto b) b

/-- The first loop of `addRequirements` (source lines 114 to 118): the protocol
of every conformance requirement is registered as non-initial. -/
def registerConformanceProtocols (requirements : List Requirement) (b : RuleBuilder) :
    RuleBuilder :=
  requirements.foldl
    (fun b req =>
      match req with
      | .Conformance _ proto => addProtocol proto false b
      | _ => b) b

/-- `RuleBuilder::addRequirements` (source lines 112 to 125). -/
def addRequirements (ctx : RewriteContext) (fuel : Nat) (requirements : List Requirement)
    (b : RuleBuilder) : Option RuleBuilder :=
  let b := registerConformanceProtocols requirements b
  match collectRulesFromReferencedProtocols ctx fuel b with
  | none => none
  | some b => requirements.foldlM (fun b req => addRequirement ctx req none b) b

/-- `RuleBuilder::addProtocols` (source lines 127 to 135). -/
def addProtocols (ctx : RewriteContext) (fuel : Nat) (protos : List ProtocolDecl)
    (b : RuleBuilder) : Option RuleBuilder :=
  let b := protos.foldl (fun b proto => addProtocol proto true b) b
  collectRulesFromReferencedProtocols ctx fuel b

end RuleBuilder

/-! ## The requirement machine -/

set_option linter.dupNamespace false

/-- The status of a completion phase (`CompletionResult`). -/
inductive CompletionResult where
  | Success
  | MaxIterations
  | MaxDepth
  deriving DecidableEq, Repr

/-- The validity policy passed to `verifyRewriteRules`
(`RewriteSystem::ValidityPolicy`). -/
inductive ValidityPolicy where
  | AllowInvalidRequirements
  | DisallowInvalidRequirements
  deriving DecidableEq, Repr

/-- Modelled from the spec: the rewrite system and the property map built on
it, which the source file only calls. `σ` is their joint state; each member
function the machine calls is a parameter. The two completion phases return
their status with a count (steps taken, rules added). -/
structure RewriteEngine (σ : Type) where
  /-- `RewriteSystem::initialize(recordLoops, permanentRules, requirementRules)`. -/
  initializeSystem : Bool → List RulePair → List RulePair → σ → σ
  /-- `RewriteSystem::computeConfluentCompletion(stepLimit, depthLimit)`. -/
  computeConfluentCompletion : Nat → Nat → σ → (CompletionResult × Nat) × σ
  /-- `RewriteSystem::verifyRewriteRules(policy)`. -/
  verifyRewriteRules : ValidityPolicy → σ → σ
  /-- `PropertyMap::buildPropertyMap(stepLimit, depthLimit)`. -/
  buildPropertyMap : Nat → Nat → σ → (CompletionResult × Nat) × σ
  /-- `RewriteSystem::simplify(term)`, the simplified term. -/
  simplify : σ → MutableTerm → MutableTerm

/-- Modelled from the spec: a generic parameter type `τ_d_i`. -/
structure GenericTypeParamType where
  depth : Nat
  index : Nat
  deriving DecidableEq, Repr

/-- Modelled from the spec: a generic signature, its generic parameters and
its requirements. -/
structure GenericSignature where
  getGenericParams : List GenericTypeParamType
  getRequirements : List Requirement
  deriving DecidableEq, Repr

/-- Modelled from the spec: the frontend counters that the machine increments
when statistics are collected. -/
structure FrontendCounters where
  NumRequirementMachines : Nat
  NumRequirementMachineCompletionSteps : Nat
  NumRequirementMachineUnifiedConcreteTerms : Nat
  deriving DecidableEq, Repr

/-- The state of a `RequirementMachine`; `System` stands for the rewrite system
together with the property map, `Stats` is null when no statistics are kept. -/
structure RequirementMachine (σ : Type) where
  System : σ
  Sig : Option GenericSignature
  Params : List GenericTypeParamType
  Protos : List ProtocolDecl
  Dump : Bool
  Complete : Bool
  RequirementMachineStepLimit : Nat
  RequirementMachineDepthLimit : Nat
  Stats : Option FrontendCounters

/-- How a member function of the machine ends: it returns, it calls `abort()`,
it violates its contract (a failed `assert` or an undefined access), or the
model runs out of fuel while a loop is still running. Each carries the state
reached. -/
inductive Outcome (α : Type) where
  | returned (value : α)
  | aborted (value : α)
  | violated (value : α)
  | outOfFuel (value : α)

/-- The state an outcome carries. -/
def Outcome.value {α : Type} : Outcome α → α
  | .returned v => v
  | .aborted v => v
  | .violated v => v
  | .outOfFuel v => v

/-- Whether the function returned. -/
def Outcome.isReturned {α : Type} : Outcome α → Bool
  | .returned _ => true
  | _ => false

/-- Whether the function called `abort()`. -/
def Outcome.isAborted {α : Type} : Outcome α → Bool
  | .aborted _ => true
  | _ => false

/-- Whether the function violated its contract. -/
def Outcome.isViolated {α : Type} : Outcome α → Bool
  | .violated _ => true
  | _ => false

/-- How one pass through the body of the loop of `computeCompletion` ends: the
loop goes on, the loop is left by `break`, or `abort()` is called. -/
inductive RoundResult (α : Type) where
  | again (value : α)
  | exit (value : α)
  | abort (value : α)

/-- The state a round leaves. -/
def RoundResult.value {α : Type} : RoundResult α → α
  | .again v => v
  | .exit v => v
  | .abort v => v

namespace RequirementMachine

/-- The constructor `RequirementMachine(ctx)`: the flags, limits and statistics
come from the context, the machine is not complete. -/
def init {σ : Type} (system : σ) (dump : Bool) (stepLimit depthLimit : Nat)
    (stats : Option FrontendCounters) : RequirementMachine σ :=
  { System := system, Sig := none, Params := [], Protos := [], Dump := dump,
    Complete := false, RequirementMachineStepLimit := stepLimit,
    RequirementMachineDepthLimit := depthLimit, Stats := stats }

/-- Modelled from the spec: `RequirementMachine::getGenericParams`, declared
outside the source file: the generic parameters recorded in `Params`. -/
def getGenericParams {σ : Type} (m : RequirementMachine σ) : List GenericTypeParamType :=
  m.Params

/-- The lambda `checkCompletionResult` (source lines 604 to 621): whether the
status lets the caller go on; `false` is the call of `abort()`. -/
def checkCompletionResult : CompletionResult → Bool
  | .Success => true
  | .MaxIterations => false
  | .MaxDepth => false

/-- `RequirementMachine::dump` (source lines 427 to 455). What it writes is not
part of the state, so the outcome carries nothing. A machine with a signature
is described by it, a machine without one by its generic parameters when it has
any, and otherwise the function asserts that the machine has protocols. -/
def dump {σ : Type} (m : RequirementMachine σ) : Outcome Unit :=
  if m.Sig.isSome then .returned ()
  else if !m.Params.isEmpty then .returned ()
  else if m.Protos.isEmpty then .violated ()
  else .returned ()

/-- The statements `dump(llvm::errs()); abort();` of `verify` (source lines 359
to 360 and 421 to 422): `abort()` is called once `dump` has returned. -/
def dumpAndAbort {σ : Type} (m : RequirementMachine σ) : Outcome Unit :=
  match dump m with
  | .returned _ => .aborted ()
  | other => other

/-- The body of the `while (true)` loop of `computeCompletion` (source lines
593 to 645). -/
def completionRound {σ : Type} (E : RewriteEngine σ) (policy : ValidityPolicy)
    (m : RequirementMachine σ) : RoundResult (RequirementMachine σ) :=
  let result := E.computeConfluentCompletion m.RequirementMachineStepLimit
    m.RequirementMachineDepthLimit m.System
  let m := { m with
    System := result.2
    Stats := m.Stats.map (fun c =>
      { c with NumRequirementMachineCompletionSteps :=
          c.NumRequirementMachineCompletionSteps + result.1.2 }) }
  if !checkCompletionResult result.1.1 then .abort m
  else
    let m := { m with System := E.verifyRewriteRules policy m.System }
    let result := E.buildPropertyMap m.RequirementMachineStepLimit
      m.RequirementMachineDepthLimit m.System
    let m := { m with
      System := result.2
      Stats := m.Stats.map (fun c =>
        { c with NumRequirementMachineUnifiedConcreteTerms :=
            c.NumRequirementMachineUnifiedConcreteTerms + result.1.2 }) }
    if !checkCompletionResult result.1.1 then .abort m
    else if result.1.2 == 0 then .exit m
    else .again m

/-- `RequirementMachine::computeCompletion` (source lines 591 to 654): the
rounds of the loop, then the call of `dump` when `Dump` is set, then the
assertion that the machine is not complete and the assignment of `Complete`. -/
def computeCompletion {σ : Type} (E : RewriteEngine σ) (policy : ValidityPolicy) :
    Nat → RequirementMachine σ → Outcome (RequirementMachine σ)
  | 0, m => .outOfFuel m
  | fuel + 1, m =>
    match completionRound E policy m with
    | .again m => computeCompletion E policy fuel m
    | .abort m => .aborted m
    | .exit m =>
      match (if m.Dump then dump m else Outcome.returned ()) with
      | .returned _ =>
        if m.Complete then .violated m
        else .returned { m with Complete := true }
      | _ => .violated m

/-- The increment of `NumRequirementMachines` at the start of every entry
point, made when statistics are kept. -/
def countMachine (stats : Option FrontendCounters) : Option FrontendCounters :=
  stats.map (fun c => { c with NumRequirementMachines := c.NumRequirementMachines + 1 })

/-- `RequirementMachine::initWithGenericSignature` (source lines 473 to 507).
The rule builder runs with its own fuel; when it does not return, neither does
the entry point. -/
def initWithGenericSignature {σ : Type} (E : RewriteEngine σ) (ctx : RewriteContext)
    (builderFuel fuel : Nat) (sig : GenericSignature) (m : RequirementMachine σ) :
    Outcome (RequirementMachine σ) :=
  let m := { m with
    Sig := some sig
    Params := m.Params ++ sig.getGenericParams
    Stats := countMachine m.Stats }
  match RuleBuilder.addRequirements ctx builderFuel sig.getRequirements
      (RuleBuilder.init m.Dump) with
  | none => .outOfFuel m
  | some builder =>
    let m := { m with
      System := E.initializeSystem false builder.PermanentRules builder.RequirementRules m.System }
    computeCompletion E ValidityPolicy.DisallowInvalidRequirements fuel m

/-- `RequirementMachine::initWithProtocols` (source lines 515 to 548). -/
def initWithProtocols {σ : Type} (E : RewriteEngine σ) (ctx : RewriteContext)
    (builderFuel fuel : Nat) (protos : List ProtocolDecl) (m : RequirementMachine σ) :
    Outcome (RequirementMachine σ) :=
  let m := { m with
    Protos := protos
    Stats := countMachine m.Stats }
  match RuleBuilder.addProtocols ctx builderFuel protos (RuleBuilder.init m.Dump) with
  | none => .outOfFuel m
  | some builder =>
    let m := { m with
      System := E.initializeSystem true builder.PermanentRules builder.RequirementRules m.System }
    computeCompletion E ValidityPolicy.AllowInvalidRequirements fuel m

/-- `RequirementMachine::initWithAbstractRequirements` (source lines 552 to
587). -/
def initWithAbstractRequirements {σ : Type} (E : RewriteEngine σ) (ctx : RewriteContext)
    (builderFuel fuel : Nat) (genericParams : List GenericTypeParamType)
    (requirements : List Requirement) (m : RequirementMachine σ) :
    Outcome (RequirementMachine σ) :=
  let m := { m with
    Params := m.Params ++ genericParams
    Stats := countMachine m.Stats }
  match RuleBuilder.addRequirements ctx builderFuel requirements (RuleBuilder.init m.Dump) with
  | none => .outOfFuel m
  | some builder =>
    let m := { m with
      System := E.initializeSystem true builder.PermanentRules builder.RequirementRules m.System }
    computeCompletion E ValidityPolicy.AllowInvalidRequirements fuel m

/-- The second `switch` of the loop of `verify` (source lines 390 to 408): a
name is kept, an associated type becomes its name, any other symbol is a bad
interior symbol. -/
def eraseInterior (symbol : Symbol) (erased : MutableTerm) : Outcome MutableTerm :=
  match symbol with
  | .Name _ => if erased.isEmpty then .violated erased else .returned (erased ++ [symbol])
  | .AssociatedType _ name => .returned (erased ++ [Symbol.forName name])
  | _ => .aborted erased

/-- The body of the loop of `verify` (source lines 369 to 408). On an empty
`erased` a protocol or generic parameter symbol is kept and the loop continues;
an associated type symbol adds the symbol of its first protocol and then falls
to the second `switch`; any other symbol is a bad initial symbol. -/
def eraseSymbol (symbol : Symbol) (erased : MutableTerm) : Outcome MutableTerm :=
  if erased.isEmpty then
    match symbol with
    | .Protocol _ => .returned (erased ++ [symbol])
    | .GenericParam _ _ => .returned (erased ++ [symbol])
    | .AssociatedType protos _ =>
      match protos with
      | [] => .violated erased
      | p :: _ => eraseInterior symbol (erased ++ [Symbol.forProtocol p])
    | _ => .aborted erased
  else eraseInterior symbol erased

/-- The loop of `verify` over the symbols of the term (source lines 368 to
409). -/
def eraseTerm : List Symbol → MutableTerm → Outcome MutableTerm
  | [], erased => .returned erased
  | symbol :: rest, erased =>
    match eraseSymbol symbol erased with
    | .returned erased => eraseTerm rest erased
    | other => other

/-- The check on the first symbol of `verify` (source lines 351 to 362):
whether it is a generic parameter symbol whose generic parameter is not found
among the generic parameters of the machine. -/
def isBadGenericParam {σ : Type} (m : RequirementMachine σ) (first : Symbol) : Bool :=
  match first with
  | .GenericParam depth index =>
    !(m.getGenericParams.contains { depth := depth, index := index })
  | _ => false

/-- `RequirementMachine::verify` in a debug build (source lines 347 to 425).
The state is not changed, so the outcome carries nothing. An empty term, whose
first symbol the function reads, is a violation. A bad generic parameter and a
failed verification call `dump` before `abort()`; a bad initial or interior
symbol calls `abort()` alone. -/
def verify {σ : Type} (E : RewriteEngine σ) (m : RequirementMachine σ) (term : MutableTerm) :
    Outcome Unit :=
  match term with
  | [] => .violated ()
  | first :: _ =>
    if isBadGenericParam m first then dumpAndAbort m
    else
      match eraseTerm term [] with
      | .returned erased =>
        let simplified := E.simplify m.System erased
        if simplified != term then dumpAndAbort m else .returned ()
      | .aborted _ => .aborted ()
      | .violated _ => .violated ()
      | .outOfFuel _ => .outOfFuel ()

end RequirementMachine

/-! ## Specification-side definitions -/

namespace CanType

mutual
/-- The maximal type-parameter subterms of a type in traversal order: the type
itself when it is a type parameter, otherwise those of its components from
left to right. This follows the wording of the specification. -/
def maximalTypeParameters : CanType → List CanType
  | .genericTypeParam d i => [.genericTypeParam d i]
  | .dependentMember b n =>
    if isTypeParameter b then [.dependentMember b n] else maximalTypeParameters b
  | .classType _ xs => maximalTypeParametersList xs
  | .structural _ xs => maximalTypeParametersList xs
/-- The maximal type-parameter subterms of a list of types. -/
def maximalTypeParametersList : List CanType → List CanType
  | [] => []
  | x :: xs => maximalTypeParameters x ++ maximalTypeParametersList xs
end

mutual
/-- The type with its maximal type-parameter subterms replaced, in traversal
order, by the depth-0 placeholders of indices `k`, `k + 1`, and so on. This
follows the wording of the specification. -/
def replaceTypeParameters (k : Nat) : CanType → CanType
  | .genericTypeParam _ _ => .genericTypeParam 0 k
  | .dependentMember b n =>
    if isTypeParameter b then .genericTypeParam 0 k
    else .dependentMember (replaceTypeParameters k b) n
  | .classType d xs => .classType d (replaceTypeParametersList k xs)
  | .structural d xs => .structural d (replaceTypeParametersList k xs)
/-- The listed types with their maximal type-parameter subterms replaced, the
numbering running on from one type to the next. -/
def replaceTypeParametersList (k : Nat) : List CanType → List CanType
  | [] => []
  | x :: xs =>
    replaceTypeParameters k x ::
      replaceTypeParametersList (k + (maximalTypeParameters x).length) xs
end

end CanType

namespace CanType

mutual
/-- Two types are structurally identical up to which type parameters fill
their maximal type-parameter positions: both are type parameters, or neither is
and they have the same constructor with components related in the same way. -/
def sameShape : CanType → CanType → Bool
  | .genericTypeParam _ _, t => isTypeParameter t
  | .dependentMember b n, t =>
    if isTypeParameter b then isTypeParameter t
    else
      match t with
      | .dependentMember c m => !isTypeParameter c && n == m && sameShape b c
      | _ => false
  | .classType d xs, t =>
    match t with
    | .classType e ys => d == e && sameShapeList xs ys
    | _ => false
  | .structural d xs, t =>
    match t with
    | .structural e ys => d == e && sameShapeList xs ys
    | _ => false
/-- Lists of types of the same length, related componentwise by `sameShape`. -/
def sameShapeList : List CanType → List CanType → Bool
  | [], ts => ts.isEmpty
  | x :: xs, ts =>
    match ts with
    | y :: ys => sameShape x y && sameShapeList xs ys
    | [] => false
end

end CanType

/-! ## Specification-side definitions: rules and the protocol graph -/

/-- The rule that the translation table of the specification gives for a
requirement, as the pair of the subject term and the constraint term. -/
def requirementRule (ctx : RewriteContext) (proto : Option ProtocolDecl) :
    Requirement → RulePair
  | .Conformance t p =>
    (ctx.getMutableTermForType t proto,
      ctx.getMutableTermForType t proto ++ [Symbol.Protocol p])
  | .Superclass t d args =>
    (ctx.getMutableTermForType t proto,
      ctx.getMutableTermForType t proto ++
        [Symbol.Superclass (CanType.replaceTypeParameters 0 (.classType d args))
          ((CanType.maximalTypeParameters (.classType d args)).map
            (fun p => ctx.getTermForType p proto))])
  | .Layout t l =>
    (ctx.getMutableTermForType t proto,
      ctx.getMutableTermForType t proto ++ [Symbol.Layout l])
  | .SameType t u =>
    if u.isTypeParameter then
      (ctx.getMutableTermForType t proto, ctx.getMutableTermForType u proto)
    else
      (ctx.getMutableTermForType t proto,
        ctx.getMutableTermForType t proto ++
          [Symbol.ConcreteType (CanType.replaceTypeParameters 0 u)
            ((CanType.maximalTypeParameters u).map (fun p => ctx.getTermForType p proto))])

/-- The permanent rules that the translation table gives for a requirement: the
layout rule of a superclass requirement, nothing for the other kinds. -/
def requirementPermanentRules (ctx : RewriteContext) (proto : Option ProtocolDecl) :
    Requirement → List RulePair
  | .Superclass _ d args =>
    [([Symbol.Superclass (CanType.replaceTypeParameters 0 (.classType d args))
          ((CanType.maximalTypeParameters (.classType d args)).map
            (fun p => ctx.getTermForType p proto)),
        Symbol.Layout (LayoutConstraint.getLayoutConstraint
          (if ctx.usesObjCObjectModel d then LayoutConstraintKind.Class
           else LayoutConstraintKind.NativeClass))],
      [Symbol.Superclass (CanType.replaceTypeParameters 0 (.classType d args))
          ((CanType.maximalTypeParameters (.classType d args)).map
            (fun p => ctx.getTermForType p proto))])]
  | _ => []

/-- The self-reflexivity rule `[P].[P] => [P]` of a protocol. -/
def selfRule (proto : ProtocolDecl) : RulePair :=
  ([Symbol.Protocol proto, Symbol.Protocol proto], [Symbol.Protocol proto])

/-- The rule `[P].A => [P:A]` that introduces an associated type. -/
def associatedTypeRule (proto : ProtocolDecl) (type : AssociatedTypeDecl) : RulePair :=
  ([Symbol.Protocol proto, Symbol.Name type.getName],
    [Symbol.AssociatedType [proto] type.getName])

/-- The requirements a protocol contributes: its structural requirements when
it belongs to the initial component, its requirement signature otherwise, in
canonical form. -/
def protocolRequirements (ctx : RewriteContext) (initial : Bool) (proto : ProtocolDecl) :
    List Requirement :=
  if initial then (ctx.getStructuralRequirements proto).map (fun r => ctx.getCanonical r.req)
  else (ctx.getRequirementSignature proto).map ctx.getCanonical

/-- The requirement-derived rules of a protocol. -/
def protocolRequirementRules (ctx : RewriteContext) (initial : Bool) (proto : ProtocolDecl) :
    List RulePair :=
  (protocolRequirements ctx initial proto).map (requirementRule ctx (some proto))

/-- The permanent rules of a protocol: the self-reflexivity rule, the rules of
its own associated types, the rules of the associated types of the protocols it
inherits from, and the layout rules of its superclass requirements. -/
def protocolPermanentRules (ctx : RewriteContext) (initial : Bool) (proto : ProtocolDecl) :
    List RulePair :=
  selfRule proto ::
    ((ctx.getAssociatedTypeMembers proto).map (associatedTypeRule proto) ++
      (ctx.getInheritedProtocols proto).flatMap
        (fun q => (ctx.getAssociatedTypeMembers q).map (associatedTypeRule proto)) ++
      (protocolRequirements ctx initial proto).flatMap
        (requirementPermanentRules ctx (some proto)))

/-- A protocol is reachable from the seeds by zero or more
`getProtocolDependencies` steps. -/
def Reachable (ctx : RewriteContext) (seeds : List ProtocolDecl) (p : ProtocolDecl) : Prop :=
  ∃ s ∈ seeds, Relation.ReflTransGen (fun a c => c ∈ ctx.getProtocolDependencies a) s p

/-- The protocols of the conformance requirements of a list, in order. -/
def conformanceProtocols : List Requirement → List ProtocolDecl
  | [] => []
  | .Conformance _ p :: rest => p :: conformanceProtocols rest
  | _ :: rest => conformanceProtocols rest

/-- The elements of a list in order of first occurrence. -/
def firstOccurrences : List ProtocolDecl → List ProtocolDecl
  | [] => []
  | p :: rest => p :: (firstOccurrences rest).filter (fun q => q != p)

namespace RuleBuilder

/-- The map and the visitation list agree: no protocol is listed twice, and the
listed protocols are the keys of the map. -/
def WellFormed (b : RuleBuilder) : Prop :=
  b.Protocols.Nodup ∧ ∀ p, p ∈ b.Protocols ↔ (b.ProtocolMap.find p).isSome = true

/-- The operations of a rule builder. -/
inductive Operation where
  | addRequirements (requirements : List Requirement)
  | addProtocols (protos : List ProtocolDecl)
  | addProtocol (proto : ProtocolDecl) (initialComponent : Bool)
  | collectRulesFromReferencedProtocols

/-- One operation applied to a builder. -/
def Operation.run (ctx : RewriteContext) (fuel : Nat) : Operation → RuleBuilder →
    Option RuleBuilder
  | .addRequirements requirements, b => RuleBuilder.addRequirements ctx fuel requirements b
  | .addProtocols protos, b => RuleBuilder.addProtocols ctx fuel protos b
  | .addProtocol proto initialComponent, b => some (RuleBuilder.addProtocol proto initialComponent b)
  | .collectRulesFromReferencedProtocols, b =>
    RuleBuilder.collectRulesFromReferencedProtocols ctx fuel b

/-- Whether an operation runs `collectRulesFromReferencedProtocols`. -/
def Operation.collects : Operation → Bool
  | .addProtocol _ _ => false
  | _ => true

/-- A sequence of operations applied in order. -/
def runOperations (ctx : RewriteContext) (fuel : Nat) (ops : List Operation) (b : RuleBuilder) :
    Option RuleBuilder :=
  ops.foldlM (fun b op => op.run ctx fuel b) b

end RuleBuilder

namespace RuleBuilder

/-- The invariant of the discovery loop at index `i`: the builder is well
formed, every listed protocol is reachable from the seeds, every seed is
listed, and the dependencies of the protocols before the index are listed. -/
def DiscoveryInvariant (ctx : RewriteContext) (seeds : List ProtocolDecl) (i : Nat)
    (b : RuleBuilder) : Prop :=
  b.WellFormed ∧ i ≤ b.Protocols.length ∧
    (∀ p ∈ b.Protocols, Reachable ctx seeds p) ∧
    (∀ s ∈ seeds, s ∈ b.Protocols) ∧
    (∀ p ∈ b.Protocols.take i, ∀ d ∈ ctx.getProtocolDependencies p, d ∈ b.Protocols)

end RuleBuilder

/-- A protocol is reached from a seed by a path of exactly `n`
`getProtocolDependencies` steps. -/
inductive PathFromSeeds (ctx : RewriteContext) (seeds : List ProtocolDecl) :
    Nat → ProtocolDecl → Prop where
  | seed {s : ProtocolDecl} : s ∈ seeds → PathFromSeeds ctx seeds 0 s
  | step {n : Nat} {p q : ProtocolDecl} :
    PathFromSeeds ctx seeds n p → q ∈ ctx.getProtocolDependencies p →
      PathFromSeeds ctx seeds (n + 1) q

/-- The dependency distance of a protocol from the seed set is `n`: the length
of the shortest `getProtocolDependencies` path from a seed. -/
def IsDistance (ctx : RewriteContext) (seeds : List ProtocolDecl) (p : ProtocolDecl)
    (n : Nat) : Prop :=
  PathFromSeeds ctx seeds n p ∧ ∀ m, m < n → ¬ PathFromSeeds ctx seeds m p

/-- The first protocol is not farther from the seed set than the second. -/
def DistanceLe (ctx : RewriteContext) (seeds : List ProtocolDecl) (p q : ProtocolDecl) : Prop :=
  ∀ a c, IsDistance ctx seeds p a → IsDistance ctx seeds q c → a ≤ c

/-- The breadth-first invariant of the discovery loop at index `i` of the
visitation list: the list is in non-decreasing order of distance, and when a
protocol stands at the index, no listed protocol is more than one step farther
than it and every protocol that is not farther than it is listed. -/
def BreadthFirstInvariant (ctx : RewriteContext) (seeds : List ProtocolDecl) (i : Nat)
    (l : List ProtocolDecl) : Prop :=
  l.Pairwise (DistanceLe ctx seeds) ∧
    ∀ (h : i < l.length) (m : Nat), IsDistance ctx seeds l[i] m →
      (∀ x ∈ l, ∀ a, IsDistance ctx seeds x a → a ≤ m + 1) ∧
        (∀ v a, IsDistance ctx seeds v a → a ≤ m → v ∈ l)

/-! ## Specification-side definitions: rounds of completion and erased terms -/

/-- The status that confluence completion reports on a system. -/
def completionStatus {σ : Type} (E : RewriteEngine σ) (stepLimit depthLimit : Nat) (s : σ) :
    CompletionResult :=
  (E.computeConfluentCompletion stepLimit depthLimit s).1.1

/-- The system after confluence completion alone. -/
def completedSystem {σ : Type} (E : RewriteEngine σ) (stepLimit depthLimit : Nat) (s : σ) : σ :=
  (E.computeConfluentCompletion stepLimit depthLimit s).2

/-- The result of the property-map build of a round that starts on a system:
confluence completion, then `verifyRewriteRules`, then `buildPropertyMap`. -/
def propertyMapResult {σ : Type} (E : RewriteEngine σ) (policy : ValidityPolicy)
    (stepLimit depthLimit : Nat) (s : σ) : (CompletionResult × Nat) × σ :=
  E.buildPropertyMap stepLimit depthLimit
    (E.verifyRewriteRules policy (completedSystem E stepLimit depthLimit s))

/-- The status that the property-map build of a round reports. -/
def propertyMapStatus {σ : Type} (E : RewriteEngine σ) (policy : ValidityPolicy)
    (stepLimit depthLimit : Nat) (s : σ) : CompletionResult :=
  (propertyMapResult E policy stepLimit depthLimit s).1.1

/-- The number of rules that the property-map build of a round reports as
added. -/
def roundAdded {σ : Type} (E : RewriteEngine σ) (policy : ValidityPolicy)
    (stepLimit depthLimit : Nat) (s : σ) : Nat :=
  (propertyMapResult E policy stepLimit depthLimit s).1.2

/-- The system after one full round. -/
def roundSystem {σ : Type} (E : RewriteEngine σ) (policy : ValidityPolicy)
    (stepLimit depthLimit : Nat) (s : σ) : σ :=
  (propertyMapResult E policy stepLimit depthLimit s).2

/-- The system after `k` full rounds. -/
def systemAfter {σ : Type} (E : RewriteEngine σ) (policy : ValidityPolicy)
    (stepLimit depthLimit : Nat) (k : Nat) (s : σ) : σ :=
  (roundSystem E policy stepLimit depthLimit)^[k] s

/-- Whether a round that starts on a system asks for another one: both phases
report `Success` and the property-map build reports added rules. -/
def RoundContinues {σ : Type} (E : RewriteEngine σ) (policy : ValidityPolicy)
    (stepLimit depthLimit : Nat) (s : σ) : Prop :=
  completionStatus E stepLimit depthLimit s = CompletionResult.Success ∧
    propertyMapStatus E policy stepLimit depthLimit s = CompletionResult.Success ∧
    roundAdded E policy stepLimit depthLimit s ≠ 0

/-- The symbol that stands for an interior symbol in the erased form: an
associated type becomes its name, any other symbol is kept. -/
def eraseInteriorSymbol : Symbol → Symbol
  | .AssociatedType _ name => Symbol.Name name
  | s => s

/-- Whether a symbol may stand in the interior of a term: a name or an
associated type. -/
def isInteriorSymbol : Symbol → Bool
  | .Name _ => true
  | .AssociatedType _ _ => true
  | _ => false

/-- The erased form of a term as `verify` builds it: a root protocol or generic
parameter symbol is kept, a root associated type symbol becomes the symbol of
its first protocol followed by its name, and interior symbols are erased one by
one. -/
def erasedForm : List Symbol → List Symbol
  | [] => []
  | .AssociatedType (p :: _) name :: rest =>
    Symbol.Protocol p :: Symbol.Name name :: rest.map eraseInteriorSymbol
  | first :: rest => first :: rest.map eraseInteriorSymbol

/-- Whether `verify` accepts a symbol at the root of a term: a protocol symbol,
a generic parameter symbol, or an associated type symbol with a protocol. -/
def isErasableRoot : Symbol → Bool
  | .Protocol _ => true
  | .GenericParam _ _ => true
  | .AssociatedType (_ :: _) _ => true
  | _ => false

/-! ## Specification-side definitions: substitution into a schema -/

namespace CanType

mutual
/-- The type with every generic parameter of depth 0 and index `i` replaced by
the `i`-th type of the list; a generic parameter without a type in the list is
kept. The types put in are not visited again. -/
def substitutePlaceholders (params : List CanType) : CanType → CanType
  | .genericTypeParam d i =>
    if d = 0 then params.getD i (.genericTypeParam d i) else .genericTypeParam d i
  | .dependentMember b n => .dependentMember (substitutePlaceholders params b) n
  | .classType d xs => .classType d (substitutePlaceholdersList params xs)
  | .structural d xs => .structural d (substitutePlaceholdersList params xs)
/-- The substitution applied to each type of a list. -/
def substitutePlaceholdersList (params : List CanType) : List CanType → List CanType
  | [] => []
  | x :: xs => substitutePlaceholders params x :: substitutePlaceholdersList params xs
end

mutual
/-- The subterms of a type, the type itself first. -/
def subterms : CanType → List CanType
  | .genericTypeParam d i => [.genericTypeParam d i]
  | .dependentMember b n => .dependentMember b n :: subterms b
  | .classType d xs => .classType d xs :: subtermsList xs
  | .structural d xs => .structural d xs :: subtermsList xs
/-- The subterms of the types of a list. -/
def subtermsList : List CanType → List CanType
  | [] => []
  | x :: xs => subterms x ++ subtermsList xs
end

end CanType

namespace RuleBuilder

/-- The invariant on the visitation list and the map: no protocol is listed
twice, and the listed protocols are exactly the keys of `ProtocolMap`. -/
def ProtocolsAreKeys (b : RuleBuilder) : Prop :=
  b.Protocols.Nodup ∧ ∀ p, p ∈ b.Protocols ↔ p ∈ b.ProtocolMap.keys

end RuleBuilder

/-! ## Worked examples: a context -/

/-- The term of a type parameter in the example context: the root symbol is the
generic parameter, or the protocol when one is given, followed by one name
symbol per member step. -/
def exampleTerm : CanType → Option ProtocolDecl → MutableTerm
  | .genericTypeParam d i, none => [Symbol.GenericParam d i]
  | .genericTypeParam _ _, some p => [Symbol.Protocol p]
  | .dependentMember b n, proto => exampleTerm b proto ++ [Symbol.Name n]
  | _, _ => []

/-- An example context. Protocol 0 has no dependencies, no associated types and
no requirements; protocol 1 depends on protocol 2; protocol 2 declares the
associated type 5, has a layout requirement in its requirement signature and a
different one among its structural requirements; class 1 is the only class
with the foreign object model. -/
def exampleContext : RewriteContext where
  getMutableTermForType := exampleTerm
  getInheritedProtocols := fun _ => []
  getProtocolDependencies := fun p => if p = 1 then [2] else []
  getAssociatedTypeMembers := fun p => if p = 2 then [{ getName := 5 }] else []
  getStructuralRequirements := fun p =>
    if p = 2 then
      [{ req := .Layout (.genericTypeParam 0 0)
            (LayoutConstraint.getLayoutConstraint .NativeClass), loc := 0 }]
    else []
  getRequirementSignature := fun p =>
    if p = 2 then
      [.Layout (.genericTypeParam 0 0) (LayoutConstraint.getLayoutConstraint .Class)]
    else []
  getCanonical := fun req => req
  usesObjCObjectModel := fun d => d == 1

/-- The example context with inheritance added: protocol 1 inherits from
protocol 2, which declares the associated type 5. -/
def inheritingContext : RewriteContext :=
  { exampleContext with getInheritedProtocols := fun p => if p = 1 then [2] else [] }

/-- The example context with a branching dependency graph: protocol 10 depends
on 11 and 12, protocol 11 on 13, protocol 12 on 14 and 13. -/
def branchingContext : RewriteContext :=
  { exampleContext with
    getProtocolDependencies := fun p =>
      if p = 10 then [11, 12] else if p = 11 then [13] else if p = 12 then [14, 13] else [] }

/-! ## Worked examples: an engine -/

/-- A call made on the rewrite system or on the property map. -/
inductive EngineCall where
  | initializeSystem (recordLoops : Bool) (permanentRules requirementRules : List RulePair)
  | computeConfluentCompletion (stepLimit depthLimit : Nat)
  | verifyRewriteRules (policy : ValidityPolicy)
  | buildPropertyMap (stepLimit depthLimit : Nat)
  deriving DecidableEq, Repr

/-- The state of the example engine: the calls made so far, and the results
that the completion phases still have to report, in order. -/
structure ScriptedSystem where
  calls : List EngineCall
  script : List (CompletionResult × Nat)
  deriving DecidableEq, Repr

/-- The next scripted result; when the script is used up a phase reports
`Success` with one step taken or one rule added. -/
def ScriptedSystem.next (s : ScriptedSystem) : CompletionResult × Nat :=
  s.script.headD (CompletionResult.Success, 1)

/-- An example engine: every call is recorded, the completion phases report the
scripted results, and simplification applies the rule `[2].5 => [2:5]` at the
front of a term. -/
def scriptedEngine : RewriteEngine ScriptedSystem where
  initializeSystem := fun recordLoops permanentRules requirementRules s =>
    { s with calls := s.calls ++
        [EngineCall.initializeSystem recordLoops permanentRules requirementRules] }
  computeConfluentCompletion := fun stepLimit depthLimit s =>
    (s.next,
      { calls := s.calls ++ [EngineCall.computeConfluentCompletion stepLimit depthLimit]
        script := s.script.tail })
  verifyRewriteRules := fun policy s =>
    { s with calls := s.calls ++ [EngineCall.verifyRewriteRules policy] }
  buildPropertyMap := fun stepLimit depthLimit s =>
    (s.next,
      { calls := s.calls ++ [EngineCall.buildPropertyMap stepLimit depthLimit]
        script := s.script.tail })
  simplify := fun _ term =>
    match term with
    | Symbol.Protocol 2 :: Symbol.Name 5 :: rest => Symbol.AssociatedType [2] 5 :: rest
    | _ => term

/-- A fresh machine on the example engine with the given script, step limit 100
and depth limit 10, without statistics. -/
def scriptedMachine (script : List (CompletionResult × Nat)) : RequirementMachine ScriptedSystem :=
  RequirementMachine.init { calls := [], script := script } false 100 10 none

/-! ## Lemmas on the schema -/

namespace CanType

theorem hasTypeParameter_of_isTypeParameter :
    ∀ t : CanType, isTypeParameter t = true → hasTypeParameter t = true
  | .genericTypeParam _ _, _ => by simp [hasTypeParameter]
  | .dependentMember b _, h => by
    simp only [isTypeParameter] at h
    simp [hasTypeParameter, hasTypeParameter_of_isTypeParameter b h]
  | .classType _ _, h => by simp [isTypeParameter] at h
  | .structural _ _, h => by simp [isTypeParameter] at h

mutual
theorem maximalTypeParameters_eq_nil :
    ∀ t : CanType, hasTypeParameter t = false → maximalTypeParameters t = []
  | .genericTypeParam _ _, h => by simp [hasTypeParameter] at h
  | .dependentMember b n, h => by
    simp only [hasTypeParameter] at h
    have hb : isTypeParameter b = false := by
      cases hq : isTypeParameter b
      · rfl
      · rw [hasTypeParameter_of_isTypeParameter b hq] at h
        exact absurd h (by decide)
    simp [maximalTypeParameters, hb, maximalTypeParameters_eq_nil b h]
  | .classType _ xs, h => by
    simp only [hasTypeParameter] at h
    simp [maximalTypeParameters, maximalTypeParametersList_eq_nil xs h]
  | .structural _ xs, h => by
    simp only [hasTypeParameter] at h
    simp [maximalTypeParameters, maximalTypeParametersList_eq_nil xs h]
theorem maximalTypeParametersList_eq_nil :
    ∀ ts : List CanType, anyHasTypeParameter ts = false → maximalTypeParametersList ts = []
  | [], _ => by simp [maximalTypeParametersList]
  | x :: xs, h => by
    simp only [anyHasTypeParameter, Bool.or_eq_false_iff] at h
    simp [maximalTypeParametersList, maximalTypeParameters_eq_nil x h.1,
      maximalTypeParametersList_eq_nil xs h.2]
end

mutual
theorem replaceTypeParameters_eq_self :
    ∀ (k : Nat) (t : CanType), hasTypeParameter t = false → replaceTypeParameters k t = t
  | _, .genericTypeParam _ _, h => by simp [hasTypeParameter] at h
  | k, .dependentMember b n, h => by
    simp only [hasTypeParameter] at h
    have hb : isTypeParameter b = false := by
      cases hq : isTypeParameter b
      · rfl
      · rw [hasTypeParameter_of_isTypeParameter b hq] at h
        exact absurd h (by decide)
    simp [replaceTypeParameters, hb, replaceTypeParameters_eq_self k b h]
  | k, .classType _ xs, h => by
    simp only [hasTypeParameter] at h
    simp [replaceTypeParameters, replaceTypeParametersList_eq_self k xs h]
  | k, .structural _ xs, h => by
    simp only [hasTypeParameter] at h
    simp [replaceTypeParameters, replaceTypeParametersList_eq_self k xs h]
theorem replaceTypeParametersList_eq_self :
    ∀ (k : Nat) (ts : List CanType), anyHasTypeParameter ts = false →
      replaceTypeParametersList k ts = ts
  | _, [], _ => by simp [replaceTypeParametersList]
  | k, x :: xs, h => by
    simp only [anyHasTypeParameter, Bool.or_eq_false_iff] at h
    simp [replaceTypeParametersList, replaceTypeParameters_eq_self k x h.1,
      replaceTypeParametersList_eq_self _ xs h.2]
end

end CanType

namespace RuleBuilder

open CanType

mutual
theorem transformRec_schemaCallback (ctx : RewriteContext) (proto : Option ProtocolDecl) :
    ∀ (t : CanType) (result : List Term),
      transformRec (schemaCallback ctx proto) t result =
        (replaceTypeParameters result.length t,
          result ++ (maximalTypeParameters t).map (fun p => ctx.getTermForType p proto))
  | .genericTypeParam d i, result => by
    simp [transformRec, schemaCallback, isTypeParameter, replaceTypeParameters,
      maximalTypeParameters]
  | .dependentMember b n, result => by
    cases hb : isTypeParameter b
    · simp [transformRec, schemaCallback, isTypeParameter, replaceTypeParameters,
        maximalTypeParameters, hb, transformRec_schemaCallback ctx proto b result]
    · simp [transformRec, schemaCallback, isTypeParameter, replaceTypeParameters,
        maximalTypeParameters, hb]
  | .classType d xs, result => by
    simp [transformRec, schemaCallback, isTypeParameter, replaceTypeParameters,
      maximalTypeParameters, transformRecList_schemaCallback ctx proto xs result]
  | .structural d xs, result => by
    simp [transformRec, schemaCallback, isTypeParameter, replaceTypeParameters,
      maximalTypeParameters, transformRecList_schemaCallback ctx proto xs result]
theorem transformRecList_schemaCallback (ctx : RewriteContext) (proto : Option ProtocolDecl) :
    ∀ (ts : List CanType) (result : List Term),
      transformRecList (schemaCallback ctx proto) ts result =
        (replaceTypeParametersList result.length ts,
          result ++ (maximalTypeParametersList ts).map (fun p => ctx.getTermForType p proto))
  | [], result => by
    simp [transformRecList, replaceTypeParametersList, maximalTypeParametersList]
  | x :: xs, result => by
    simp [transformRecList, replaceTypeParametersList, maximalTypeParametersList,
      transformRec_schemaCallback ctx proto x result,
      transformRecList_schemaCallback ctx proto xs]
end

theorem getConcreteSubstitutionSchema_eq (ctx : RewriteContext) (c : CanType)
    (proto : Option ProtocolDecl) (result : List Term) (hc : c.isTypeParameter = false) :
    getConcreteSubstitutionSchema ctx c proto result =
      some (replaceTypeParameters result.length c,
        result ++ (maximalTypeParameters c).map (fun p => ctx.getTermForType p proto)) := by
  unfold getConcreteSubstitutionSchema
  rw [hc]
  cases hp : hasTypeParameter c
  · simp [replaceTypeParameters_eq_self _ c hp, maximalTypeParameters_eq_nil c hp]
  · simp [transformRec_schemaCallback]

end RuleBuilder

namespace CanType

theorem maximalTypeParameters_of_isTypeParameter (t : CanType)
    (h : isTypeParameter t = true) : maximalTypeParameters t = [t] := by
  cases t with
  | genericTypeParam d i => simp [maximalTypeParameters]
  | dependentMember b n =>
    simp only [isTypeParameter] at h
    simp [maximalTypeParameters, h]
  | classType d xs => simp [isTypeParameter] at h
  | structural d xs => simp [isTypeParameter] at h

theorem replaceTypeParameters_of_isTypeParameter (k : Nat) (t : CanType)
    (h : isTypeParameter t = true) : replaceTypeParameters k t = .genericTypeParam 0 k := by
  cases t with
  | genericTypeParam d i => simp [replaceTypeParameters]
  | dependentMember b n =>
    simp only [isTypeParameter] at h
    simp [replaceTypeParameters, h]
  | classType d xs => simp [isTypeParameter] at h
  | structural d xs => simp [isTypeParameter] at h

mutual
theorem isTypeParameter_of_mem_maximal :
    ∀ (t p : CanType), p ∈ maximalTypeParameters t → isTypeParameter p = true
  | .genericTypeParam d i, p, h => by
    simp only [maximalTypeParameters, List.mem_singleton] at h
    simp [h, isTypeParameter]
  | .dependentMember b n, p, h => by
    cases hb : isTypeParameter b
    · simp only [maximalTypeParameters, hb] at h
      exact isTypeParameter_of_mem_maximal b p (by simpa using h)
    · simp only [maximalTypeParameters, hb, if_true, List.mem_singleton] at h
      simp [h, isTypeParameter, hb]
  | .classType d xs, p, h => by
    simp only [maximalTypeParameters] at h
    exact isTypeParameter_of_mem_maximalList xs p h
  | .structural d xs, p, h => by
    simp only [maximalTypeParameters] at h
    exact isTypeParameter_of_mem_maximalList xs p h
theorem isTypeParameter_of_mem_maximalList :
    ∀ (ts : List CanType) (p : CanType), p ∈ maximalTypeParametersList ts →
      isTypeParameter p = true
  | [], p, h => by simp [maximalTypeParametersList] at h
  | x :: xs, p, h => by
    simp only [maximalTypeParametersList, List.mem_append] at h
    rcases h with h | h
    · exact isTypeParameter_of_mem_maximal x p h
    · exact isTypeParameter_of_mem_maximalList xs p h
end

mutual
theorem sameShape_schema :
    ∀ (s t : CanType), sameShape s t = true →
      (maximalTypeParameters s).length = (maximalTypeParameters t).length ∧
        ∀ k, replaceTypeParameters k s = replaceTypeParameters k t
  | .genericTypeParam d i, t, h => by
    simp only [sameShape] at h
    simp [maximalTypeParameters, replaceTypeParameters,
      maximalTypeParameters_of_isTypeParameter t h,
      replaceTypeParameters_of_isTypeParameter _ t h]
  | .dependentMember b n, t, h => by
    cases hb : isTypeParameter b
    · simp only [sameShape, hb] at h
      cases t with
      | dependentMember c m =>
        simp only [Bool.false_eq_true, if_false, Bool.and_eq_true, Bool.not_eq_true',
          beq_iff_eq] at h
        obtain ⟨⟨hc, hnm⟩, hs⟩ := h
        have ih := sameShape_schema b c hs
        simp [maximalTypeParameters, replaceTypeParameters, hb, hc, hnm, ih.1, ih.2]
      | genericTypeParam _ _ => simp at h
      | classType _ _ => simp at h
      | structural _ _ => simp at h
    · simp only [sameShape, hb, if_true] at h
      simp [maximalTypeParameters, replaceTypeParameters, hb,
        maximalTypeParameters_of_isTypeParameter t h,
        replaceTypeParameters_of_isTypeParameter _ t h]
  | .classType d xs, t, h => by
    cases t with
    | classType e ys =>
      simp only [sameShape, Bool.and_eq_true, beq_iff_eq] at h
      have ih := sameShapeList_schema xs ys h.2
      simp [maximalTypeParameters, replaceTypeParameters, h.1, ih.1, ih.2]
    | genericTypeParam _ _ => simp [sameShape] at h
    | dependentMember _ _ => simp [sameShape] at h
    | structural _ _ => simp [sameShape] at h
  | .structural d xs, t, h => by
    cases t with
    | structural e ys =>
      simp only [sameShape, Bool.and_eq_true, beq_iff_eq] at h
      have ih := sameShapeList_schema xs ys h.2
      simp [maximalTypeParameters, replaceTypeParameters, h.1, ih.1, ih.2]
    | genericTypeParam _ _ => simp [sameShape] at h
    | dependentMember _ _ => simp [sameShape] at h
    | classType _ _ => simp [sameShape] at h
theorem sameShapeList_schema :
    ∀ (ss ts : List CanType), sameShapeList ss ts = true →
      (maximalTypeParametersList ss).length = (maximalTypeParametersList ts).length ∧
        ∀ k, replaceTypeParametersList k ss = replaceTypeParametersList k ts
  | [], ts, h => by
    cases ts with
    | nil => simp
    | cons y ys => simp [sameShapeList] at h
  | x :: xs, ts, h => by
    cases ts with
    | nil => simp [sameShapeList] at h
    | cons y ys =>
      simp only [sameShapeList, Bool.and_eq_true] at h
      have ih1 := sameShape_schema x y h.1
      have ih2 := sameShapeList_schema xs ys h.2
      simp [maximalTypeParametersList, replaceTypeParametersList, ih1.1, ih1.2, ih2.1, ih2.2]
end

end CanType

/-! ## Lemmas on the protocol map -/

namespace DenseMap

theorem find_nil (q : ProtocolDecl) : find [] q = none := rfl

theorem find_cons (m : DenseMap) (k q : ProtocolDecl) (v : Bool) :
    find ((k, v) :: m) q = if q = k then some v else find m q := by
  unfold find
  rw [List.lookup_cons]
  by_cases h : q = k
  · simp [h]
  · have : (q == k) = false := by simpa using h
    simp [h, this]

theorem find_append_singleton (m : DenseMap) (k q : ProtocolDecl) (v : Bool) :
    find (m ++ [(k, v)]) q =
      match find m q with
      | some x => some x
      | none => if q = k then some v else none := by
  induction m with
  | nil => simp [find_cons, find_nil]
  | cons e m ih =>
    obtain ⟨a, x⟩ := e
    rw [List.cons_append, find_cons, find_cons]
    by_cases h : q = a
    · simp [h]
    · simp [h, ih]

theorem find_map_assign (m : DenseMap) (k q : ProtocolDecl) (v : Bool) :
    find (m.map (fun e => if e.1 == k then (k, v) else e)) q =
      if q = k then (find m q).map (fun _ => v) else find m q := by
  induction m with
  | nil => simp [find_nil]
  | cons e m ih =>
    obtain ⟨a, x⟩ := e
    by_cases hak : a = k
    · subst hak
      simp only [List.map_cons, beq_self_eq_true, if_true, find_cons, ih]
      by_cases h : q = a
      · simp [h]
      · simp [h]
    · have hb : (a == k) = false := by simpa using hak
      simp only [List.map_cons, hb, Bool.false_eq_true, if_false, find_cons, ih]
      by_cases h : q = a
      · have hqk : ¬ q = k := by rw [h]; exact hak
        simp [h, hak]
      · simp [h]

theorem find_findAndConstruct (m : DenseMap) (k q : ProtocolDecl) :
    find (findAndConstruct m k) q =
      match find m q with
      | some x => some x
      | none => if q = k then some false else none := by
  unfold findAndConstruct
  cases hk : find m k with
  | some x =>
    simp only [Option.isSome_some, if_true]
    cases hq : find m q with
    | some y => rfl
    | none =>
      have : ¬ q = k := by
        intro e
        rw [e, hk] at hq
        cases hq
      simp [this]
  | none =>
    simp only [Option.isSome_none, Bool.false_eq_true, if_false]
    exact find_append_singleton m k q false

theorem find_set (m : DenseMap) (k q : ProtocolDecl) (v : Bool) :
    find (set m k v) q = if q = k then some v else find m q := by
  unfold set
  rw [find_map_assign, find_findAndConstruct]
  by_cases h : q = k
  · subst h
    cases hq : find m q <;> simp
  · cases hq : find m q <;> simp [h]

theorem get_eq (m : DenseMap) (q : ProtocolDecl) : get m q = (find m q).getD false := by
  unfold get
  rw [find_findAndConstruct]
  cases hq : find m q <;> simp

theorem get_findAndConstruct (m : DenseMap) (k q : ProtocolDecl) :
    get (findAndConstruct m k) q = get m q := by
  rw [get_eq, get_eq, find_findAndConstruct]
  cases hq : find m q with
  | some x => rfl
  | none =>
    by_cases h : q = k <;> simp [h]

theorem findAndConstruct_of_isSome (m : DenseMap) (k : ProtocolDecl)
    (h : (find m k).isSome = true) : findAndConstruct m k = m := by
  simp [findAndConstruct, h]

theorem count_pos_iff (m : DenseMap) (k : ProtocolDecl) :
    count m k > 0 ↔ (find m k).isSome = true := by
  unfold count
  cases h : (find m k).isSome <;> simp

end DenseMap

/-! ## Lemmas on registration -/

theorem mem_firstOccurrences (l : List ProtocolDecl) (q : ProtocolDecl) :
    q ∈ firstOccurrences l ↔ q ∈ l := by
  induction l with
  | nil => simp [firstOccurrences]
  | cons p rest ih =>
    simp only [firstOccurrences, List.mem_cons, List.mem_filter, ih, bne_iff_ne, ne_eq]
    by_cases h : q = p <;> simp [h]

theorem nodup_firstOccurrences (l : List ProtocolDecl) : (firstOccurrences l).Nodup := by
  induction l with
  | nil => simp [firstOccurrences]
  | cons p rest ih =>
    simp only [firstOccurrences, List.nodup_cons, List.mem_filter, bne_self_eq_false,
      Bool.false_eq_true, and_false, not_false_eq_true, true_and]
    exact ih.filter _

namespace RuleBuilder

theorem addProtocol_of_registered (proto : ProtocolDecl) (flag : Bool) (b : RuleBuilder)
    (h : (b.ProtocolMap.find proto).isSome = true) : addProtocol proto flag b = b := by
  unfold addProtocol
  rw [if_pos ((DenseMap.count_pos_iff _ _).2 h)]

theorem addProtocol_of_not_registered (proto : ProtocolDecl) (flag : Bool) (b : RuleBuilder)
    (h : (b.ProtocolMap.find proto).isSome = false) :
    addProtocol proto flag b =
      { b with
        ProtocolMap := b.ProtocolMap.set proto flag
        Protocols := b.Protocols ++ [proto] } := by
  unfold addProtocol
  rw [if_neg]
  rw [DenseMap.count_pos_iff, h]
  simp

theorem addProtocol_rules (proto : ProtocolDecl) (flag : Bool) (b : RuleBuilder) :
    (addProtocol proto flag b).PermanentRules = b.PermanentRules ∧
      (addProtocol proto flag b).RequirementRules = b.RequirementRules ∧
      (addProtocol proto flag b).Dump = b.Dump := by
  cases h : (b.ProtocolMap.find proto).isSome
  · rw [addProtocol_of_not_registered proto flag b h]
    exact ⟨rfl, rfl, rfl⟩
  · rw [addProtocol_of_registered proto flag b h]
    exact ⟨rfl, rfl, rfl⟩

theorem addProtocol_find (proto : ProtocolDecl) (flag : Bool) (b : RuleBuilder)
    (q : ProtocolDecl) :
    (addProtocol proto flag b).ProtocolMap.find q =
      match b.ProtocolMap.find q with
      | some x => some x
      | none => if q = proto then some flag else none := by
  cases h : (b.ProtocolMap.find proto).isSome
  · rw [addProtocol_of_not_registered proto flag b h]
    simp only [DenseMap.find_set]
    by_cases hq : q = proto
    · subst hq
      cases hf : b.ProtocolMap.find q with
      | none => simp
      | some x => rw [hf] at h; simp at h
    · cases hf : b.ProtocolMap.find q <;> simp [hq]
  · rw [addProtocol_of_registered proto flag b h]
    cases hf : b.ProtocolMap.find q with
    | some x => rfl
    | none =>
      have : ¬ q = proto := by
        intro e
        rw [e] at hf
        rw [hf] at h
        simp at h
      simp [this]

theorem addProtocol_protocols (proto : ProtocolDecl) (flag : Bool) (b : RuleBuilder)
    (hb : b.WellFormed) :
    (addProtocol proto flag b).Protocols =
      b.Protocols ++ (if proto ∈ b.Protocols then [] else [proto]) := by
  cases h : (b.ProtocolMap.find proto).isSome
  · rw [addProtocol_of_not_registered proto flag b h]
    have : proto ∉ b.Protocols := by
      rw [hb.2 proto, h]
      simp
    simp [this]
  · rw [addProtocol_of_registered proto flag b h]
    have : proto ∈ b.Protocols := (hb.2 proto).2 h
    simp [this]

theorem addProtocol_wellFormed (proto : ProtocolDecl) (flag : Bool) (b : RuleBuilder)
    (hb : b.WellFormed) : (addProtocol proto flag b).WellFormed := by
  cases h : (b.ProtocolMap.find proto).isSome
  · have hn : proto ∉ b.Protocols := by
      rw [hb.2 proto, h]
      simp
    constructor
    · rw [addProtocol_protocols proto flag b hb, if_neg hn]
      exact List.Nodup.append hb.1 (List.nodup_singleton _) (by simpa using hn)
    · intro q
      rw [addProtocol_protocols proto flag b hb, if_neg hn, addProtocol_find]
      simp only [List.mem_append, List.mem_singleton, hb.2 q]
      cases hf : b.ProtocolMap.find q with
      | some x => simp
      | none => by_cases hq : q = proto <;> simp [hq]
  · rw [addProtocol_of_registered proto flag b h]
    exact hb

theorem init_wellFormed (dump : Bool) : (init dump).WellFormed := by
  constructor
  · simp [init]
  · intro p
    simp [init, DenseMap.find_nil]

/-- The registrations of a list of protocols with their flags, in order. -/
theorem foldl_addProtocol_wellFormed (ps : List (ProtocolDecl × Bool)) :
    ∀ b : RuleBuilder, b.WellFormed →
      (ps.foldl (fun b s => addProtocol s.1 s.2 b) b).WellFormed := by
  induction ps with
  | nil => intro b hb; exact hb
  | cons s rest ih =>
    intro b hb
    exact ih _ (addProtocol_wellFormed s.1 s.2 b hb)

theorem foldl_addProtocol_rules (ps : List (ProtocolDecl × Bool)) :
    ∀ b : RuleBuilder,
      (ps.foldl (fun b s => addProtocol s.1 s.2 b) b).PermanentRules = b.PermanentRules ∧
      (ps.foldl (fun b s => addProtocol s.1 s.2 b) b).RequirementRules = b.RequirementRules ∧
      (ps.foldl (fun b s => addProtocol s.1 s.2 b) b).Dump = b.Dump := by
  induction ps with
  | nil => intro b; exact ⟨rfl, rfl, rfl⟩
  | cons s rest ih =>
    intro b
    have h1 := ih (addProtocol s.1 s.2 b)
    have h2 := addProtocol_rules s.1 s.2 b
    simp only [List.foldl_cons]
    exact ⟨h1.1.trans h2.1, h1.2.1.trans h2.2.1, h1.2.2.trans h2.2.2⟩

theorem foldl_addProtocol_find (ps : List (ProtocolDecl × Bool)) :
    ∀ (b : RuleBuilder) (q : ProtocolDecl),
      (ps.foldl (fun b s => addProtocol s.1 s.2 b) b).ProtocolMap.find q =
        match b.ProtocolMap.find q with
        | some x => some x
        | none => DenseMap.find ps q := by
  induction ps with
  | nil =>
    intro b q
    cases hf : b.ProtocolMap.find q <;> simp [DenseMap.find_nil, hf]
  | cons s rest ih =>
    intro b q
    obtain ⟨p, f⟩ := s
    simp only [List.foldl_cons]
    rw [ih, addProtocol_find, DenseMap.find_cons]
    cases hf : b.ProtocolMap.find q with
    | some x => rfl
    | none => by_cases hq : q = p <;> simp [hq]

theorem foldl_addProtocol_protocols (ps : List (ProtocolDecl × Bool)) :
    ∀ b : RuleBuilder, b.WellFormed →
      (ps.foldl (fun b s => addProtocol s.1 s.2 b) b).Protocols =
        b.Protocols ++
          (firstOccurrences (ps.map Prod.fst)).filter (fun q => decide (q ∉ b.Protocols)) := by
  induction ps with
  | nil => intro b _; simp [firstOccurrences]
  | cons s rest ih =>
    intro b hb
    simp only [List.foldl_cons, List.map_cons, firstOccurrences]
    rw [ih _ (addProtocol_wellFormed s.1 s.2 b hb), addProtocol_protocols s.1 s.2 b hb]
    by_cases hs : s.1 ∈ b.Protocols
    · simp only [hs, if_true, List.append_nil]
      rw [List.filter_cons_of_neg (by simpa using hs), List.filter_filter]
      congr 1
      apply List.filter_congr
      intro q _
      by_cases hq : q ∈ b.Protocols
      · simp [hq]
      · have : q ≠ s.1 := fun e => hq (e ▸ hs)
        simp [hq, this]
    · simp only [hs, if_false]
      rw [List.filter_cons_of_pos (by simpa using hs), List.filter_filter, List.append_assoc]
      congr 1
      simp only [List.singleton_append]
      congr 1
      apply List.filter_congr
      intro q _
      by_cases hq : q ∈ b.Protocols
      · simp [hq]
      · by_cases hqs : q = s.1 <;> simp [hq, hqs]

theorem foldl_addProtocol_mem (ps : List (ProtocolDecl × Bool)) (b : RuleBuilder)
    (hb : b.WellFormed) (q : ProtocolDecl) :
    q ∈ (ps.foldl (fun b s => addProtocol s.1 s.2 b) b).Protocols ↔
      q ∈ b.Protocols ∨ q ∈ ps.map Prod.fst := by
  rw [foldl_addProtocol_protocols ps b hb]
  simp only [List.mem_append, List.mem_filter, mem_firstOccurrences, decide_eq_true_eq]
  by_cases hq : q ∈ b.Protocols <;> simp [hq]

end RuleBuilder

/-! ## Lemmas on the discovery loop -/

theorem DenseMap.find_map_const (ds : List ProtocolDecl) (flag : Bool) (q : ProtocolDecl) :
    DenseMap.find (ds.map (fun d => (d, flag))) q = if q ∈ ds then some flag else none := by
  induction ds with
  | nil => simp [DenseMap.find_nil]
  | cons d rest ih =>
    rw [List.map_cons, DenseMap.find_cons, ih]
    by_cases h : q = d <;> simp [h]

namespace RuleBuilder

theorem foldl_addProtocol_const (ds : List ProtocolDecl) (flag : Bool) (b : RuleBuilder) :
    ds.foldl (fun b d => addProtocol d flag b) b =
      (ds.map (fun d => (d, flag))).foldl (fun b s => addProtocol s.1 s.2 b) b := by
  rw [List.foldl_map]

theorem reachable_seed (ctx : RewriteContext) (seeds : List ProtocolDecl) (s : ProtocolDecl)
    (hs : s ∈ seeds) : Reachable ctx seeds s :=
  ⟨s, hs, Relation.ReflTransGen.refl⟩

theorem reachable_step (ctx : RewriteContext) (seeds : List ProtocolDecl) (p d : ProtocolDecl)
    (hp : Reachable ctx seeds p) (hd : d ∈ ctx.getProtocolDependencies p) :
    Reachable ctx seeds d := by
  obtain ⟨s, hs, hr⟩ := hp
  exact ⟨s, hs, Relation.ReflTransGen.tail hr hd⟩

theorem reachable_mem_of_closed (ctx : RewriteContext) (seeds l : List ProtocolDecl)
    (hseeds : ∀ s ∈ seeds, s ∈ l)
    (hclosed : ∀ p ∈ l, ∀ d ∈ ctx.getProtocolDependencies p, d ∈ l)
    (p : ProtocolDecl) (hp : Reachable ctx seeds p) : p ∈ l := by
  obtain ⟨s, hs, hr⟩ := hp
  induction hr with
  | refl => exact hseeds s hs
  | tail _ hd ih => exact hclosed _ ih _ hd

theorem discoverProtocols_fuel_succ (ctx : RewriteContext) :
    ∀ (fuel i : Nat) (b b1 : RuleBuilder),
      discoverProtocols ctx fuel i b = some b1 →
        discoverProtocols ctx (fuel + 1) i b = some b1 := by
  intro fuel
  induction fuel with
  | zero => intro i b b1 h; simp [discoverProtocols] at h
  | succ n ih =>
    intro i b b1 h
    rw [discoverProtocols] at h
    rw [discoverProtocols]
    split
    · rename_i hi
      rw [dif_pos hi] at h
      exact ih _ _ _ h
    · rename_i hi
      rw [dif_neg hi] at h
      exact h

theorem discoverProtocols_fuel_le (ctx : RewriteContext) (fuel fuel1 i : Nat)
    (b b1 : RuleBuilder) (hle : fuel ≤ fuel1)
    (h : discoverProtocols ctx fuel i b = some b1) :
    discoverProtocols ctx fuel1 i b = some b1 := by
  induction hle with
  | refl => exact h
  | step _ ih => exact discoverProtocols_fuel_succ ctx _ _ _ _ ih

theorem discoveryInvariant_step (ctx : RewriteContext) (seeds : List ProtocolDecl) (i : Nat)
    (b : RuleBuilder) (hinv : DiscoveryInvariant ctx seeds i b) (hi : i < b.Protocols.length) :
    DiscoveryInvariant ctx seeds (i + 1)
      ((ctx.getProtocolDependencies b.Protocols[i]).foldl
        (fun b depProto => addProtocol depProto false b) b) := by
  obtain ⟨hwf, _, hreach, hseeds, hdone⟩ := hinv
  rw [foldl_addProtocol_const]
  have hmem := foldl_addProtocol_mem
    ((ctx.getProtocolDependencies b.Protocols[i]).map (fun d => (d, false))) b hwf
  have hprot := foldl_addProtocol_protocols
    ((ctx.getProtocolDependencies b.Protocols[i]).map (fun d => (d, false))) b hwf
  simp only [List.map_map, Function.comp_def, List.map_id_fun', id_eq] at hmem hprot
  refine ⟨foldl_addProtocol_wellFormed _ b hwf, ?_, ?_, ?_, ?_⟩
  · rw [hprot, List.length_append]
    omega
  · intro p hp
    rcases (hmem p).1 hp with h | h
    · exact hreach p h
    · exact reachable_step ctx seeds _ p (hreach _ (List.getElem_mem hi)) (by simpa using h)
  · intro s hs
    exact (hmem s).2 (Or.inl (hseeds s hs))
  · intro p hp d hd
    rw [hprot, List.take_append_of_le_length (by omega), ← List.take_concat_get _ _ hi] at hp
    simp only [List.concat_eq_append, List.mem_append, List.mem_singleton] at hp
    rcases hp with hp | hp
    · exact (hmem d).2 (Or.inl (hdone p hp d hd))
    · subst hp
      exact (hmem d).2 (Or.inr (by simpa using hd))

theorem discoverProtocols_terminates (ctx : RewriteContext) (seeds univ : List ProtocolDecl)
    (hseeds : ∀ s ∈ seeds, s ∈ univ)
    (hclosed : ∀ p ∈ univ, ∀ d ∈ ctx.getProtocolDependencies p, d ∈ univ) :
    ∀ (fuel i : Nat) (b : RuleBuilder), DiscoveryInvariant ctx seeds i b →
      univ.length + 1 ≤ fuel + i →
      ∃ b1, discoverProtocols ctx fuel i b = some b1 ∧
        DiscoveryInvariant ctx seeds b1.Protocols.length b1 := by
  intro fuel
  induction fuel with
  | zero =>
    intro i b hinv hfuel
    have hsub : b.Protocols ⊆ univ := fun p hp =>
      reachable_mem_of_closed ctx seeds univ hseeds hclosed p (hinv.2.2.1 p hp)
    have hlen := (List.subperm_of_subset hinv.1.1 hsub).length_le
    have := hinv.2.1
    omega
  | succ n ih =>
    intro i b hinv hfuel
    rw [discoverProtocols]
    by_cases hi : i < b.Protocols.length
    · rw [dif_pos hi]
      exact ih (i + 1) _ (discoveryInvariant_step ctx seeds i b hinv hi) (by omega)
    · rw [dif_neg hi]
      have hieq : i = b.Protocols.length := by
        have := hinv.2.1
        omega
      exact ⟨b, rfl, hieq ▸ hinv⟩

theorem discoveryInvariant_final (ctx : RewriteContext) (seeds : List ProtocolDecl)
    (b : RuleBuilder) (hinv : DiscoveryInvariant ctx seeds b.Protocols.length b)
    (p : ProtocolDecl) : p ∈ b.Protocols ↔ Reachable ctx seeds p := by
  constructor
  · exact hinv.2.2.1 p
  · intro hp
    refine reachable_mem_of_closed ctx seeds b.Protocols hinv.2.2.2.1 ?_ p hp
    intro q hq d hd
    exact hinv.2.2.2.2 q (by simpa using hq) d hd

/-- What the discovery loop leaves untouched, and how it extends the list and
the map. -/
theorem discoverProtocols_frame (ctx : RewriteContext) :
    ∀ (fuel i : Nat) (b b1 : RuleBuilder), b.WellFormed →
      discoverProtocols ctx fuel i b = some b1 →
      b1.WellFormed ∧ b1.PermanentRules = b.PermanentRules ∧
        b1.RequirementRules = b.RequirementRules ∧ b1.Dump = b.Dump ∧
        (∃ rest, b1.Protocols = b.Protocols ++ rest) ∧
        ∀ q, b1.ProtocolMap.find q =
          match b.ProtocolMap.find q with
          | some x => some x
          | none => if q ∈ b1.Protocols then some false else none := by
  intro fuel
  induction fuel with
  | zero => intro i b b1 _ h; simp [discoverProtocols] at h
  | succ n ih =>
    intro i b b1 hwf h
    rw [discoverProtocols] at h
    by_cases hi : i < b.Protocols.length
    · rw [dif_pos hi] at h
      dsimp only at h
      rw [foldl_addProtocol_const] at h
      have hwf2 := foldl_addProtocol_wellFormed
        ((ctx.getProtocolDependencies b.Protocols[i]).map (fun d => (d, false))) b hwf
      have hr := foldl_addProtocol_rules
        ((ctx.getProtocolDependencies b.Protocols[i]).map (fun d => (d, false))) b
      have hp := foldl_addProtocol_protocols
        ((ctx.getProtocolDependencies b.Protocols[i]).map (fun d => (d, false))) b hwf
      have hm := foldl_addProtocol_mem
        ((ctx.getProtocolDependencies b.Protocols[i]).map (fun d => (d, false))) b hwf
      have hf := foldl_addProtocol_find
        ((ctx.getProtocolDependencies b.Protocols[i]).map (fun d => (d, false))) b
      obtain ⟨h1, h2, h3, h4, ⟨rest, h5⟩, h6⟩ := ih _ _ _ hwf2 h
      refine ⟨h1, h2.trans hr.1, h3.trans hr.2.1, h4.trans hr.2.2, ?_, ?_⟩
      · rw [h5, hp, List.append_assoc]
        exact ⟨_, rfl⟩
      · intro q
        rw [h6 q, hf q, DenseMap.find_map_const]
        cases hq : b.ProtocolMap.find q with
        | some x => rfl
        | none =>
          by_cases hd : q ∈ ctx.getProtocolDependencies b.Protocols[i]
          · have hq1 : q ∈ b1.Protocols := by
              rw [h5]
              exact List.mem_append_left _ ((hm q).2 (Or.inr (by simpa using hd)))
            simp [hd, hq1]
          · simp [hd]
    · rw [dif_neg hi] at h
      cases h
      refine ⟨hwf, rfl, rfl, rfl, ⟨[], by simp⟩, ?_⟩
      intro q
      cases hq : b.ProtocolMap.find q with
      | some x => rfl
      | none =>
        have : q ∉ b.Protocols := by
          rw [hwf.2 q, hq]
          simp
        simp [this]

end RuleBuilder

/-! ## Lemmas on rule emission -/

namespace RuleBuilder

open CanType

theorem addRequirement_eq (ctx : RewriteContext) (req : Requirement)
    (proto : Option ProtocolDecl) (b : RuleBuilder) :
    addRequirement ctx req proto b =
      some { b with
        PermanentRules := b.PermanentRules ++ requirementPermanentRules ctx proto req
        RequirementRules := b.RequirementRules ++ [requirementRule ctx proto req] } := by
  cases req with
  | Conformance t p =>
    simp [addRequirement, requirementPermanentRules, requirementRule, Requirement.getFirstType,
      Symbol.forProtocol]
  | Layout t l =>
    simp [addRequirement, requirementPermanentRules, requirementRule, Requirement.getFirstType,
      Symbol.forLayout]
  | Superclass t d args =>
    have hs := getConcreteSubstitutionSchema_eq ctx (.classType d args) proto []
      (by simp [isTypeParameter])
    simp only [addRequirement, hs, replaceTypeParameters, getClassOrBoundGenericClass]
    simp [requirementPermanentRules, requirementRule, Requirement.getFirstType,
      Symbol.forSuperclass, Symbol.forLayout, replaceTypeParameters]
  | SameType t u =>
    cases hu : u.isTypeParameter
    · have hs := getConcreteSubstitutionSchema_eq ctx u proto [] hu
      simp [addRequirement, hu, hs, requirementPermanentRules, requirementRule,
        Requirement.getFirstType, Symbol.forConcreteType]
    · simp [addRequirement, hu, requirementPermanentRules, requirementRule,
        Requirement.getFirstType]

theorem foldlM_addRequirement {α : Type} (ctx : RewriteContext) (proto : Option ProtocolDecl)
    (g : α → Requirement) (l : List α) :
    ∀ b : RuleBuilder,
      l.foldlM (fun b x => addRequirement ctx (g x) proto b) b =
        some { b with
          PermanentRules :=
            b.PermanentRules ++ (l.map g).flatMap (requirementPermanentRules ctx proto)
          RequirementRules := b.RequirementRules ++ (l.map g).map (requirementRule ctx proto) } := by
  induction l with
  | nil => intro b; simp
  | cons x rest ih =>
    intro b
    rw [List.foldlM_cons, addRequirement_eq]
    simp only [Option.bind_eq_bind, Option.some_bind, ih]
    simp [List.flatMap_cons, List.append_assoc]

theorem foldl_addAssociatedType (proto : ProtocolDecl) (l : List AssociatedTypeDecl) :
    ∀ b : RuleBuilder,
      l.foldl (fun b assocType => addAssociatedType assocType proto b) b =
        { b with PermanentRules := b.PermanentRules ++ l.map (associatedTypeRule proto) } := by
  induction l with
  | nil => intro b; simp
  | cons x rest ih =>
    intro b
    rw [List.foldl_cons, ih]
    simp [addAssociatedType, associatedTypeRule, Symbol.forProtocol, Symbol.forName,
      Symbol.forAssociatedType]

theorem foldl_inherited_addAssociatedType (ctx : RewriteContext) (proto : ProtocolDecl)
    (l : List ProtocolDecl) :
    ∀ b : RuleBuilder,
      l.foldl (fun b inheritedProto =>
          (ctx.getAssociatedTypeMembers inheritedProto).foldl
            (fun b assocType => addAssociatedType assocType proto b) b) b =
        { b with
          PermanentRules := b.PermanentRules ++
            l.flatMap (fun q => (ctx.getAssociatedTypeMembers q).map (associatedTypeRule proto)) } := by
  induction l with
  | nil => intro b; simp
  | cons x rest ih =>
    intro b
    rw [List.foldl_cons, ih, foldl_addAssociatedType]
    simp [List.flatMap_cons, List.append_assoc]

theorem addProtocolRules_eq (ctx : RewriteContext) (proto : ProtocolDecl) (b : RuleBuilder) :
    addProtocolRules ctx proto b =
      some { b with
        ProtocolMap := b.ProtocolMap.findAndConstruct proto
        PermanentRules :=
          b.PermanentRules ++ protocolPermanentRules ctx (b.ProtocolMap.get proto) proto
        RequirementRules :=
          b.RequirementRules ++ protocolRequirementRules ctx (b.ProtocolMap.get proto) proto } := by
  unfold addProtocolRules
  dsimp only
  rw [foldl_addAssociatedType, foldl_inherited_addAssociatedType]
  dsimp only
  cases hflag : b.ProtocolMap.get proto
  · simp only [Bool.false_eq_true, if_false]
    rw [foldlM_addRequirement ctx (some proto) (fun req => ctx.getCanonical req)]
    simp [protocolPermanentRules, protocolRequirementRules, protocolRequirements, selfRule,
      Symbol.forProtocol, List.append_assoc]
  · simp only [if_true]
    rw [foldlM_addRequirement ctx (some proto)
      (fun req : StructuralRequirement => ctx.getCanonical req.req)]
    simp [protocolPermanentRules, protocolRequirementRules, protocolRequirements, selfRule,
      Symbol.forProtocol, List.append_assoc]

theorem foldlM_addProtocolRules (ctx : RewriteContext) (l : List ProtocolDecl) :
    ∀ b : RuleBuilder,
      l.foldlM (fun b proto => addProtocolRules ctx proto b) b =
        some { b with
          ProtocolMap := l.foldl DenseMap.findAndConstruct b.ProtocolMap
          PermanentRules := b.PermanentRules ++
            l.flatMap (fun p => protocolPermanentRules ctx (b.ProtocolMap.get p) p)
          RequirementRules := b.RequirementRules ++
            l.flatMap (fun p => protocolRequirementRules ctx (b.ProtocolMap.get p) p) } := by
  induction l with
  | nil => intro b; simp
  | cons x rest ih =>
    intro b
    rw [List.foldlM_cons, addProtocolRules_eq]
    simp only [Option.bind_eq_bind, Option.some_bind, ih]
    simp [List.flatMap_cons, List.append_assoc, DenseMap.get_findAndConstruct]

theorem foldl_findAndConstruct_of_registered (l : List ProtocolDecl) (m : DenseMap)
    (h : ∀ p ∈ l, (m.find p).isSome = true) : l.foldl DenseMap.findAndConstruct m = m := by
  induction l with
  | nil => rfl
  | cons x rest ih =>
    rw [List.foldl_cons, DenseMap.findAndConstruct_of_isSome m x (h x (List.mem_cons_self _ _))]
    exact ih (fun p hp => h p (List.mem_cons_of_mem _ hp))

/-- The rule emission of `collectRulesFromReferencedProtocols` on a well-formed
builder: the map and the list stay, the rules of the listed protocols are
appended in order. -/
theorem emit_eq (ctx : RewriteContext) (b : RuleBuilder) (hb : b.WellFormed) :
    b.Protocols.foldlM (fun b proto => addProtocolRules ctx proto b) b =
      some { b with
        PermanentRules := b.PermanentRules ++
          b.Protocols.flatMap (fun p => protocolPermanentRules ctx (b.ProtocolMap.get p) p)
        RequirementRules := b.RequirementRules ++
          b.Protocols.flatMap (fun p => protocolRequirementRules ctx (b.ProtocolMap.get p) p) } := by
  rw [foldlM_addProtocolRules,
    foldl_findAndConstruct_of_registered b.Protocols b.ProtocolMap (fun p hp => (hb.2 p).1 hp)]

end RuleBuilder

/-! ## Lemmas on the entry points -/

theorem flatMap_congr_mem {α β : Type} (l : List α) (f g : α → List β)
    (h : ∀ x ∈ l, f x = g x) : l.flatMap f = l.flatMap g := by
  induction l with
  | nil => rfl
  | cons x rest ih =>
    rw [List.flatMap_cons, List.flatMap_cons, h x (List.mem_cons_self _ _),
      ih (fun y hy => h y (List.mem_cons_of_mem _ hy))]

namespace RuleBuilder

theorem collect_of_discover (ctx : RewriteContext) (fuel : Nat) (b b1 : RuleBuilder)
    (hwf : b.WellFormed) (hd : discoverProtocols ctx fuel 0 b = some b1) :
    collectRulesFromReferencedProtocols ctx fuel b =
      some { b1 with
        PermanentRules := b.PermanentRules ++
          b1.Protocols.flatMap (fun p => protocolPermanentRules ctx (b1.ProtocolMap.get p) p)
        RequirementRules := b.RequirementRules ++
          b1.Protocols.flatMap (fun p => protocolRequirementRules ctx (b1.ProtocolMap.get p) p) } := by
  obtain ⟨hwf1, hp, hr, _, _, _⟩ := discoverProtocols_frame ctx fuel 0 b b1 hwf hd
  unfold collectRulesFromReferencedProtocols
  rw [hd]
  dsimp only
  rw [emit_eq ctx b1 hwf1, hp, hr]

theorem collect_inv (ctx : RewriteContext) (fuel : Nat) (b b2 : RuleBuilder)
    (hwf : b.WellFormed) (h : collectRulesFromReferencedProtocols ctx fuel b = some b2) :
    ∃ b1, discoverProtocols ctx fuel 0 b = some b1 ∧ b1.WellFormed ∧
      b2 = { b1 with
        PermanentRules := b.PermanentRules ++
          b1.Protocols.flatMap (fun p => protocolPermanentRules ctx (b1.ProtocolMap.get p) p)
        RequirementRules := b.RequirementRules ++
          b1.Protocols.flatMap (fun p => protocolRequirementRules ctx (b1.ProtocolMap.get p) p) } := by
  cases hd : discoverProtocols ctx fuel 0 b with
  | none =>
    unfold collectRulesFromReferencedProtocols at h
    rw [hd] at h
    cases h
  | some b1 =>
    rw [collect_of_discover ctx fuel b b1 hwf hd] at h
    exact ⟨b1, rfl, (discoverProtocols_frame ctx fuel 0 b b1 hwf hd).1, (Option.some.inj h).symm⟩

theorem register_conformances (reqs : List Requirement) :
    ∀ b : RuleBuilder,
      registerConformanceProtocols reqs b =
        ((conformanceProtocols reqs).map (fun d => (d, false))).foldl
          (fun b s => addProtocol s.1 s.2 b) b := by
  induction reqs with
  | nil => intro b; rfl
  | cons r rest ih =>
    intro b
    have hstep : ∀ r0 : Requirement, registerConformanceProtocols (r0 :: rest) b =
        registerConformanceProtocols rest (registerConformanceProtocols [r0] b) := by
      intro r0
      simp [registerConformanceProtocols]
    rw [hstep, ih]
    cases r <;> simp [conformanceProtocols, registerConformanceProtocols]

/-- The builder after the registration of seeds on a fresh builder satisfies
the invariant of the discovery loop at index 0. -/
theorem discoveryInvariant_seeds (ctx : RewriteContext) (dump : Bool)
    (seeds : List (ProtocolDecl × Bool)) :
    DiscoveryInvariant ctx (seeds.map Prod.fst) 0
      (seeds.foldl (fun b s => addProtocol s.1 s.2 b) (init dump)) := by
  have hwf := init_wellFormed dump
  have hm := foldl_addProtocol_mem seeds (init dump) hwf
  refine ⟨foldl_addProtocol_wellFormed seeds _ hwf, Nat.zero_le _, ?_, ?_, ?_⟩
  · intro p hp
    rcases (hm p).1 hp with h | h
    · simp [init] at h
    · exact reachable_seed ctx _ p h
  · intro s hs
    exact (hm s).2 (Or.inr hs)
  · intro p hp
    simp at hp

/-- Discovery from the seeds registered on a fresh builder, in a finite graph:
the loop returns for every fuel above the size of the graph, the list holds the
reachable protocols, and the flags are those of the first registrations. -/
theorem discover_seeds (ctx : RewriteContext) (dump : Bool)
    (seeds : List (ProtocolDecl × Bool)) (univ : List ProtocolDecl)
    (hseeds : ∀ s ∈ seeds, s.1 ∈ univ)
    (hclosed : ∀ p ∈ univ, ∀ d ∈ ctx.getProtocolDependencies p, d ∈ univ) :
    ∃ b1,
      (∀ fuel, univ.length + 1 ≤ fuel →
        discoverProtocols ctx fuel 0
          (seeds.foldl (fun b s => addProtocol s.1 s.2 b) (init dump)) = some b1) ∧
      b1.WellFormed ∧
      (∀ p, p ∈ b1.Protocols ↔ Reachable ctx (seeds.map Prod.fst) p) ∧
      (∃ rest, b1.Protocols = firstOccurrences (seeds.map Prod.fst) ++ rest) ∧
      (∀ p ∈ b1.Protocols, b1.ProtocolMap.find p = some ((DenseMap.find seeds p).getD false)) ∧
      b1.PermanentRules = [] ∧ b1.RequirementRules = [] := by
  have hinv := discoveryInvariant_seeds ctx dump seeds
  have hs : ∀ s ∈ seeds.map Prod.fst, s ∈ univ := by
    intro s hs
    obtain ⟨x, hx, rfl⟩ := List.mem_map.1 hs
    exact hseeds x hx
  obtain ⟨b1, hd, hfin⟩ := discoverProtocols_terminates ctx (seeds.map Prod.fst) univ hs hclosed
    (univ.length + 1) 0 _ hinv (by omega)
  have hfr := discoverProtocols_frame ctx _ 0 _ b1 hinv.1 hd
  have hr := foldl_addProtocol_rules seeds (init dump)
  have hp := foldl_addProtocol_protocols seeds (init dump) (init_wellFormed dump)
  have hf := foldl_addProtocol_find seeds (init dump)
  refine ⟨b1, ?_, hfr.1, discoveryInvariant_final ctx _ b1 hfin, ?_, ?_, ?_, ?_⟩
  · intro fuel hfuel
    exact discoverProtocols_fuel_le ctx _ fuel 0 _ b1 hfuel hd
  · obtain ⟨rest, hrest⟩ := hfr.2.2.2.2.1
    refine ⟨rest, ?_⟩
    rw [hrest, hp]
    simp [init]
  · intro p hp1
    rw [hfr.2.2.2.2.2 p, hf p]
    simp only [init, DenseMap.find_nil]
    cases hfs : DenseMap.find seeds p with
    | none => simp [hp1]
    | some x => simp
  · rw [hfr.2.1, hr.1]
    rfl
  · rw [hfr.2.2.1, hr.2.1]
    rfl

end RuleBuilder

/-! ## Lemmas on the self-reflexivity rule -/

namespace RuleBuilder

theorem selfRule_not_mem_associatedTypeRules (P q : ProtocolDecl) (l : List AssociatedTypeDecl) :
    selfRule P ∉ l.map (associatedTypeRule q) := by
  intro h
  obtain ⟨a, _, ha⟩ := List.mem_map.1 h
  simp [selfRule, associatedTypeRule] at ha

theorem selfRule_not_mem_requirementPermanentRules (ctx : RewriteContext)
    (proto : Option ProtocolDecl) (P : ProtocolDecl) (reqs : List Requirement) :
    selfRule P ∉ reqs.flatMap (requirementPermanentRules ctx proto) := by
  intro h
  obtain ⟨r, _, hr⟩ := List.mem_flatMap.1 h
  cases r <;> simp [requirementPermanentRules, selfRule] at hr

theorem count_selfRule_protocolPermanentRules (ctx : RewriteContext) (flag : Bool)
    (P q : ProtocolDecl) :
    (protocolPermanentRules ctx flag q).count (selfRule P) = if q = P then 1 else 0 := by
  have h0 : List.count (selfRule P)
      ((ctx.getAssociatedTypeMembers q).map (associatedTypeRule q) ++
        (ctx.getInheritedProtocols q).flatMap
          (fun r => (ctx.getAssociatedTypeMembers r).map (associatedTypeRule q)) ++
        (protocolRequirements ctx flag q).flatMap (requirementPermanentRules ctx (some q))) = 0 := by
    rw [List.count_eq_zero]
    intro h
    simp only [List.mem_append] at h
    rcases h with (h | h) | h
    · exact selfRule_not_mem_associatedTypeRules P q _ h
    · obtain ⟨r, _, hr⟩ := List.mem_flatMap.1 h
      exact selfRule_not_mem_associatedTypeRules P q _ hr
    · exact selfRule_not_mem_requirementPermanentRules ctx _ P _ h
  unfold protocolPermanentRules
  rw [List.count_cons, h0]
  by_cases hq : q = P
  · simp [hq]
  · have : ¬ selfRule q = selfRule P := by
      intro e
      simp [selfRule] at e
      exact hq e
    simp [hq, this]

theorem count_selfRule_flatMap (ctx : RewriteContext) (g : ProtocolDecl → Bool)
    (P : ProtocolDecl) (l : List ProtocolDecl) (hl : l.Nodup) :
    (l.flatMap (fun p => protocolPermanentRules ctx (g p) p)).count (selfRule P) ≤ 1 := by
  have key : ∀ l : List ProtocolDecl,
      (l.flatMap (fun p => protocolPermanentRules ctx (g p) p)).count (selfRule P) =
        l.count P := by
    intro l
    induction l with
    | nil => rfl
    | cons q rest ih =>
      rw [List.flatMap_cons, List.count_append, ih, count_selfRule_protocolPermanentRules,
        List.count_cons]
      by_cases hq : q = P <;> simp [hq]
      omega
  rw [key]
  exact List.nodup_iff_count_le_one.1 hl P

theorem collect_count_selfRule (ctx : RewriteContext) (fuel : Nat) (b b2 : RuleBuilder)
    (P : ProtocolDecl) (hwf : b.WellFormed) (hperm : b.PermanentRules = [])
    (h : collectRulesFromReferencedProtocols ctx fuel b = some b2) :
    b2.PermanentRules.count (selfRule P) ≤ 1 := by
  obtain ⟨b1, _, hwf1, rfl⟩ := collect_inv ctx fuel b b2 hwf h
  simp only [hperm, List.nil_append]
  exact count_selfRule_flatMap ctx _ P _ hwf1.1

theorem run_collecting_count_selfRule (ctx : RewriteContext) (fuel : Nat) (op : Operation)
    (b b2 : RuleBuilder) (P : ProtocolDecl) (hop : op.collects = true) (hwf : b.WellFormed)
    (hperm : b.PermanentRules = []) (h : op.run ctx fuel b = some b2) :
    b2.PermanentRules.count (selfRule P) ≤ 1 := by
  cases op with
  | addProtocol p f => simp [Operation.collects] at hop
  | collectRulesFromReferencedProtocols =>
    exact collect_count_selfRule ctx fuel b b2 P hwf hperm h
  | addProtocols protos =>
    simp only [Operation.run, addProtocols] at h
    rw [foldl_addProtocol_const] at h
    refine collect_count_selfRule ctx fuel _ b2 P
      (foldl_addProtocol_wellFormed _ b hwf) ?_ h
    rw [(foldl_addProtocol_rules _ b).1, hperm]
  | addRequirements reqs =>
    simp only [Operation.run, addRequirements] at h
    rw [register_conformances] at h
    cases hc : collectRulesFromReferencedProtocols ctx fuel
        (((conformanceProtocols reqs).map (fun d => (d, false))).foldl
          (fun b s => addProtocol s.1 s.2 b) b) with
    | none =>
      rw [hc] at h
      cases h
    | some b1 =>
      rw [hc] at h
      dsimp only at h
      rw [foldlM_addRequirement ctx none (fun r => r)] at h
      have hb1 := collect_count_selfRule ctx fuel _ b1 P
        (foldl_addProtocol_wellFormed _ b hwf)
        (by rw [(foldl_addProtocol_rules _ b).1, hperm]) hc
      cases h
      simp only [List.map_id_fun', id_eq, List.count_append]
      have h0 := List.count_eq_zero.2
        (selfRule_not_mem_requirementPermanentRules ctx none P reqs)
      omega

theorem runOperations_cons (ctx : RewriteContext) (fuel : Nat) (op : Operation)
    (ops : List Operation) (b : RuleBuilder) :
    runOperations ctx fuel (op :: ops) b =
      (op.run ctx fuel b).bind (runOperations ctx fuel ops) := by
  simp [runOperations, List.foldlM_cons]

theorem runOperations_not_collecting (ctx : RewriteContext) (fuel : Nat) (ops : List Operation) :
    ∀ b b2 : RuleBuilder, (∀ op ∈ ops, op.collects = false) →
      runOperations ctx fuel ops b = some b2 → b2.PermanentRules = b.PermanentRules := by
  induction ops with
  | nil =>
    intro b b2 _ h
    simp [runOperations] at h
    rw [h]
  | cons op rest ih =>
    intro b b2 hall h
    rw [runOperations_cons] at h
    cases op with
    | addProtocol p f =>
      simp only [Operation.run, Option.some_bind] at h
      rw [ih _ b2 (fun o ho => hall o (List.mem_cons_of_mem _ ho)) h]
      exact (addProtocol_rules p f b).1
    | addRequirements reqs => simpa [Operation.collects] using hall _ (List.mem_cons_self _ _)
    | addProtocols protos => simpa [Operation.collects] using hall _ (List.mem_cons_self _ _)
    | collectRulesFromReferencedProtocols =>
      simpa [Operation.collects] using hall _ (List.mem_cons_self _ _)

theorem runOperations_count_selfRule (ctx : RewriteContext) (fuel : Nat) (P : ProtocolDecl)
    (ops : List Operation) :
    ∀ b b2 : RuleBuilder, b.WellFormed → b.PermanentRules = [] →
      (ops.filter Operation.collects).length ≤ 1 →
      runOperations ctx fuel ops b = some b2 → b2.PermanentRules.count (selfRule P) ≤ 1 := by
  induction ops with
  | nil =>
    intro b b2 _ hperm _ h
    simp [runOperations] at h
    rw [← h, hperm]
    simp
  | cons op rest ih =>
    intro b b2 hwf hperm hlen h
    rw [runOperations_cons] at h
    cases hop : op.collects
    · rw [List.filter_cons_of_neg (by simp [hop])] at hlen
      cases op with
      | addProtocol p f =>
        simp only [Operation.run, Option.some_bind] at h
        exact ih _ b2 (addProtocol_wellFormed p f b hwf)
          ((addProtocol_rules p f b).1.trans hperm) hlen h
      | addRequirements reqs => simp [Operation.collects] at hop
      | addProtocols protos => simp [Operation.collects] at hop
      | collectRulesFromReferencedProtocols => simp [Operation.collects] at hop
    · rw [List.filter_cons_of_pos (by simp [hop])] at hlen
      have hrest : ∀ o ∈ rest, o.collects = false := by
        intro o ho
        cases hc : o.collects
        · rfl
        · have hmem : o ∈ rest.filter Operation.collects := List.mem_filter.2 ⟨ho, hc⟩
          have hpos := List.length_pos_of_mem hmem
          simp only [List.length_cons] at hlen
          omega
      cases hrun : op.run ctx fuel b with
      | none =>
        rw [hrun] at h
        cases h
      | some b1 =>
        rw [hrun, Option.some_bind] at h
        rw [runOperations_not_collecting ctx fuel rest b1 b2 hrest h]
        exact run_collecting_count_selfRule ctx fuel op b b1 P hop hwf hperm hrun

end RuleBuilder

/-! ## Lemmas on appended rules -/

namespace RuleBuilder

theorem discoverProtocols_rules (ctx : RewriteContext) :
    ∀ (fuel i : Nat) (b b1 : RuleBuilder), discoverProtocols ctx fuel i b = some b1 →
      b1.PermanentRules = b.PermanentRules ∧ b1.RequirementRules = b.RequirementRules := by
  intro fuel
  induction fuel with
  | zero => intro i b b1 h; simp [discoverProtocols] at h
  | succ n ih =>
    intro i b b1 h
    rw [discoverProtocols] at h
    by_cases hi : i < b.Protocols.length
    · rw [dif_pos hi] at h
      dsimp only at h
      rw [foldl_addProtocol_const] at h
      have hr := foldl_addProtocol_rules
        ((ctx.getProtocolDependencies b.Protocols[i]).map (fun d => (d, false))) b
      obtain ⟨h1, h2⟩ := ih _ _ _ h
      exact ⟨h1.trans hr.1, h2.trans hr.2.1⟩
    · rw [dif_neg hi] at h
      cases h
      exact ⟨rfl, rfl⟩

/-- The result of `collectRulesFromReferencedProtocols` in terms of the builder
that the discovery loop leaves, without any assumption on the builder. -/
theorem collect_eq_general (ctx : RewriteContext) (fuel : Nat) (b b1 : RuleBuilder)
    (hd : discoverProtocols ctx fuel 0 b = some b1) :
    collectRulesFromReferencedProtocols ctx fuel b =
      some { b1 with
        ProtocolMap := b1.Protocols.foldl DenseMap.findAndConstruct b1.ProtocolMap
        PermanentRules := b.PermanentRules ++
          b1.Protocols.flatMap (fun p => protocolPermanentRules ctx (b1.ProtocolMap.get p) p)
        RequirementRules := b.RequirementRules ++
          b1.Protocols.flatMap (fun p => protocolRequirementRules ctx (b1.ProtocolMap.get p) p) } := by
  obtain ⟨hp, hr⟩ := discoverProtocols_rules ctx fuel 0 b b1 hd
  unfold collectRulesFromReferencedProtocols
  rw [hd]
  dsimp only
  rw [foldlM_addProtocolRules, hp, hr]

theorem collect_appends (ctx : RewriteContext) (fuel : Nat) (b b2 : RuleBuilder)
    (h : collectRulesFromReferencedProtocols ctx fuel b = some b2) :
    (∃ added, b2.PermanentRules = b.PermanentRules ++ added) ∧
      ∃ added, b2.RequirementRules = b.RequirementRules ++ added := by
  cases hd : discoverProtocols ctx fuel 0 b with
  | none =>
    unfold collectRulesFromReferencedProtocols at h
    rw [hd] at h
    cases h
  | some b1 =>
    rw [collect_eq_general ctx fuel b b1 hd] at h
    cases h
    exact ⟨⟨_, rfl⟩, ⟨_, rfl⟩⟩

end RuleBuilder

/-! ## Lemmas on the dependency distance -/

theorem pairwise_of_forall_mem {α : Type} (R : α → α → Prop) (l : List α)
    (h : ∀ x ∈ l, ∀ y ∈ l, R x y) : l.Pairwise R := by
  induction l with
  | nil => exact List.Pairwise.nil
  | cons a rest ih =>
    rw [List.pairwise_cons]
    exact ⟨fun y hy => h a (List.mem_cons_self _ _) y (List.mem_cons_of_mem _ hy),
      ih (fun x hx y hy => h x (List.mem_cons_of_mem _ hx) y (List.mem_cons_of_mem _ hy))⟩

theorem pathFromSeeds_reachable (ctx : RewriteContext) (seeds : List ProtocolDecl) (n : Nat)
    (p : ProtocolDecl) (h : PathFromSeeds ctx seeds n p) : Reachable ctx seeds p := by
  induction h with
  | seed hs => exact RuleBuilder.reachable_seed ctx seeds _ hs
  | step _ hq ih => exact RuleBuilder.reachable_step ctx seeds _ _ ih hq

theorem reachable_pathFromSeeds (ctx : RewriteContext) (seeds : List ProtocolDecl)
    (p : ProtocolDecl) (h : Reachable ctx seeds p) : ∃ n, PathFromSeeds ctx seeds n p := by
  obtain ⟨s, hs, hr⟩ := h
  induction hr with
  | refl => exact ⟨0, PathFromSeeds.seed hs⟩
  | tail _ hd ih =>
    obtain ⟨n, hn⟩ := ih
    exact ⟨n + 1, PathFromSeeds.step hn hd⟩

theorem isDistance_of_path (ctx : RewriteContext) (seeds : List ProtocolDecl)
    (p : ProtocolDecl) :
    ∀ n, PathFromSeeds ctx seeds n p → ∃ d, d ≤ n ∧ IsDistance ctx seeds p d := by
  intro n
  induction n using Nat.strong_induction_on with
  | _ n ih =>
    intro hp
    by_cases h : ∃ m, m < n ∧ PathFromSeeds ctx seeds m p
    · obtain ⟨m, hm, hpm⟩ := h
      obtain ⟨d, hd, hdist⟩ := ih m hm hpm
      exact ⟨d, by omega, hdist⟩
    · refine ⟨n, le_refl n, hp, ?_⟩
      intro m hm hpm
      exact h ⟨m, hm, hpm⟩

theorem isDistance_unique (ctx : RewriteContext) (seeds : List ProtocolDecl)
    (p : ProtocolDecl) (a c : Nat) (ha : IsDistance ctx seeds p a)
    (hc : IsDistance ctx seeds p c) : a = c := by
  rcases Nat.lt_trichotomy a c with h | h | h
  · exact absurd ha.1 (hc.2 a h)
  · exact h
  · exact absurd hc.1 (ha.2 c h)

theorem path_zero_iff (ctx : RewriteContext) (seeds : List ProtocolDecl) (p : ProtocolDecl) :
    PathFromSeeds ctx seeds 0 p ↔ p ∈ seeds := by
  constructor
  · intro h
    cases h with
    | seed hs => exact hs
  · intro h
    exact PathFromSeeds.seed h

theorem isDistance_seed (ctx : RewriteContext) (seeds : List ProtocolDecl) (p : ProtocolDecl)
    (hp : p ∈ seeds) : IsDistance ctx seeds p 0 :=
  ⟨PathFromSeeds.seed hp, fun m hm => absurd hm (Nat.not_lt_zero m)⟩

theorem isDistance_dependency (ctx : RewriteContext) (seeds : List ProtocolDecl)
    (p q : ProtocolDecl) (a : Nat) (ha : IsDistance ctx seeds p a)
    (hq : q ∈ ctx.getProtocolDependencies p) :
    ∃ c, c ≤ a + 1 ∧ IsDistance ctx seeds q c :=
  isDistance_of_path ctx seeds q (a + 1) (PathFromSeeds.step ha.1 hq)

theorem isDistance_parent (ctx : RewriteContext) (seeds : List ProtocolDecl)
    (q : ProtocolDecl) (a : Nat) (hq : IsDistance ctx seeds q (a + 1)) :
    ∃ u, IsDistance ctx seeds u a ∧ q ∈ ctx.getProtocolDependencies u := by
  obtain ⟨hpath, hmin⟩ := hq
  cases hpath with
  | step hu hdep =>
    rename_i u
    obtain ⟨d, hd, hdist⟩ := isDistance_of_path ctx seeds u a hu
    have hda : d = a := by
      by_contra hne
      have hlt : d + 1 < a + 1 := by omega
      exact hmin (d + 1) hlt (PathFromSeeds.step hdist.1 hdep)
    exact ⟨u, hda ▸ hdist, hdep⟩

theorem isDistance_of_reachable (ctx : RewriteContext) (seeds : List ProtocolDecl)
    (p : ProtocolDecl) (h : Reachable ctx seeds p) : ∃ d, IsDistance ctx seeds p d := by
  obtain ⟨n, hn⟩ := reachable_pathFromSeeds ctx seeds p h
  obtain ⟨d, _, hd⟩ := isDistance_of_path ctx seeds p n hn
  exact ⟨d, hd⟩

/-! ## Lemmas on the breadth-first order -/

/-- One step of the discovery loop on the visitation list: the protocol at the
index is processed and its dependencies that are not listed are appended. -/
theorem breadthFirstInvariant_append (ctx : RewriteContext) (seeds : List ProtocolDecl)
    (i : Nat) (l new : List ProtocolDecl) (hi : i < l.length)
    (hreach : ∀ p ∈ l, Reachable ctx seeds p)
    (hnew : ∀ q ∈ new, q ∈ ctx.getProtocolDependencies l[i] ∧ q ∉ l)
    (hclosed : ∀ p ∈ (l ++ new).take (i + 1), ∀ d ∈ ctx.getProtocolDependencies p, d ∈ l ++ new)
    (hbfs : BreadthFirstInvariant ctx seeds i l) :
    BreadthFirstInvariant ctx seeds (i + 1) (l ++ new) := by
  obtain ⟨m, hm⟩ := isDistance_of_reachable ctx seeds l[i] (hreach _ (List.getElem_mem hi))
  obtain ⟨he, hf⟩ := hbfs.2 hi m hm
  have hnewdist : ∀ q ∈ new, ∀ a, IsDistance ctx seeds q a → a = m + 1 := by
    intro q hq a ha
    obtain ⟨hdep, hnl⟩ := hnew q hq
    obtain ⟨c, hc, hcd⟩ := isDistance_dependency ctx seeds l[i] q m hm hdep
    have hac : a = c := isDistance_unique ctx seeds q a c ha hcd
    have hgt : ¬ a ≤ m := fun hle => hnl (hf q a ha hle)
    omega
  have hall : ∀ x ∈ l ++ new, ∀ a, IsDistance ctx seeds x a → a ≤ m + 1 := by
    intro x hx a ha
    rcases List.mem_append.1 hx with h | h
    · exact he x h a ha
    · exact le_of_eq (hnewdist x h a ha)
  have hpw : (l ++ new).Pairwise (DistanceLe ctx seeds) := by
    rw [List.pairwise_append]
    refine ⟨hbfs.1, pairwise_of_forall_mem _ _ ?_, ?_⟩
    · intro x hx y hy a c ha hc
      rw [hnewdist x hx a ha, hnewdist y hy c hc]
    · intro x hx y hy a c ha hc
      rw [hnewdist y hy c hc]
      exact he x hx a ha
  refine ⟨hpw, ?_⟩
  intro h1 m1 hm1
  have hle : m ≤ m1 := by
    have hR := List.pairwise_iff_getElem.1 hpw i (i + 1) (by omega) h1 (by omega)
    have hli : (l ++ new)[i] = l[i] := List.getElem_append_left hi
    rw [hli] at hR
    exact hR m m1 hm hm1
  have hle1 : m1 ≤ m + 1 := hall _ (List.getElem_mem h1) m1 hm1
  constructor
  · intro x hx a ha
    have := hall x hx a ha
    omega
  · intro v a ha hav
    by_cases hvm : a ≤ m
    · exact List.mem_append_left _ (hf v a ha hvm)
    · have ham : a = m + 1 := by omega
      subst ham
      obtain ⟨u, hu, hdep⟩ := isDistance_parent ctx seeds v m ha
      have hul : u ∈ l ++ new := List.mem_append_left _ (hf u m hu (le_refl m))
      obtain ⟨k, hk, hku⟩ := List.getElem_of_mem hul
      have hki : k < i + 1 := by
        by_contra hge
        rcases Nat.lt_or_ge (i + 1) k with hlt | hge1
        · have hR := List.pairwise_iff_getElem.1 hpw (i + 1) k h1 hk hlt
          rw [hku] at hR
          have := hR m1 m hm1 hu
          omega
        · have hkeq : k = i + 1 := by omega
          subst hkeq
          rw [hku] at hm1
          have := isDistance_unique ctx seeds u m m1 hu hm1
          omega
      have hut : u ∈ (l ++ new).take (i + 1) :=
        List.mem_take_iff_getElem.2 ⟨k, lt_min hki hk, hku⟩
      exact hclosed u hut v hdep

theorem breadthFirstInvariant_seeds (ctx : RewriteContext) (seeds : List ProtocolDecl) :
    BreadthFirstInvariant ctx seeds 0 (firstOccurrences seeds) := by
  have hzero : ∀ x ∈ firstOccurrences seeds, ∀ a, IsDistance ctx seeds x a → a = 0 := by
    intro x hx a ha
    exact isDistance_unique ctx seeds x a 0 ha
      (isDistance_seed ctx seeds x ((mem_firstOccurrences seeds x).1 hx))
  refine ⟨pairwise_of_forall_mem _ _ ?_, ?_⟩
  · intro x hx y hy a c ha _
    rw [hzero x hx a ha]
    exact Nat.zero_le c
  · intro h m hm
    have hm0 := hzero _ (List.getElem_mem h) m hm
    subst hm0
    constructor
    · intro x hx a ha
      rw [hzero x hx a ha]
      exact Nat.zero_le _
    · intro v a ha hav
      have ha0 : a = 0 := by omega
      subst ha0
      exact (mem_firstOccurrences seeds v).2 ((path_zero_iff ctx seeds v).1 ha.1)

namespace RuleBuilder

theorem discoverProtocols_breadthFirst (ctx : RewriteContext) (seeds : List ProtocolDecl) :
    ∀ (fuel i : Nat) (b b1 : RuleBuilder), DiscoveryInvariant ctx seeds i b →
      BreadthFirstInvariant ctx seeds i b.Protocols →
      discoverProtocols ctx fuel i b = some b1 →
      b1.Protocols.Pairwise (DistanceLe ctx seeds) := by
  intro fuel
  induction fuel with
  | zero => intro i b b1 _ _ h; simp [discoverProtocols] at h
  | succ n ih =>
    intro i b b1 hinv hbfs h
    rw [discoverProtocols] at h
    by_cases hi : i < b.Protocols.length
    · rw [dif_pos hi] at h
      dsimp only at h
      have hinv1 := discoveryInvariant_step ctx seeds i b hinv hi
      refine ih (i + 1) _ b1 hinv1 ?_ h
      have hprot := foldl_addProtocol_protocols
        ((ctx.getProtocolDependencies b.Protocols[i]).map (fun d => (d, false))) b hinv.1
      have hclosed := hinv1.2.2.2.2
      rw [foldl_addProtocol_const] at hclosed ⊢
      simp only [List.map_map, Function.comp_def, List.map_id_fun', id_eq] at hprot
      rw [hprot] at hclosed ⊢
      refine breadthFirstInvariant_append ctx seeds i b.Protocols _ hi hinv.2.2.1 ?_ hclosed hbfs
      intro q hq
      simp only [List.mem_filter, mem_firstOccurrences, decide_eq_true_eq] at hq
      exact hq
    · rw [dif_neg hi] at h
      cases h
      exact hbfs.1

end RuleBuilder

/-! ## Lemmas on the completion loop -/

theorem checkCompletionResult_eq_true (r : CompletionResult) :
    RequirementMachine.checkCompletionResult r = true ↔ r = CompletionResult.Success := by
  cases r <;> simp [RequirementMachine.checkCompletionResult]

theorem systemAfter_succ {σ : Type} (E : RewriteEngine σ) (policy : ValidityPolicy)
    (sl dl k : Nat) (s : σ) :
    systemAfter E policy sl dl (k + 1) s =
      systemAfter E policy sl dl k (roundSystem E policy sl dl s) := by
  simp [systemAfter, Function.iterate_succ_apply]

theorem systemAfter_succ_outer {σ : Type} (E : RewriteEngine σ) (policy : ValidityPolicy)
    (sl dl k : Nat) (s : σ) :
    systemAfter E policy sl dl (k + 1) s =
      roundSystem E policy sl dl (systemAfter E policy sl dl k s) := by
  simp [systemAfter, Function.iterate_succ_apply']

namespace RequirementMachine

/-- The assertion of `dump` fails exactly on a machine that has neither a
signature nor generic parameters nor protocols. -/
theorem dump_eq {σ : Type} (m : RequirementMachine σ) :
    dump m =
      if m.Sig = none ∧ m.Params = [] ∧ m.Protos = [] then Outcome.violated ()
      else Outcome.returned () := by
  unfold dump
  cases hs : m.Sig <;> cases hp : m.Params <;> cases hq : m.Protos <;> simp

/-- A call of `dump` followed by `abort()` does not return. -/
theorem dumpAndAbort_isReturned {σ : Type} (m : RequirementMachine σ) :
    (dumpAndAbort m).isReturned = false := by
  unfold dumpAndAbort
  rw [dump_eq]
  by_cases h : m.Sig = none ∧ m.Params = [] ∧ m.Protos = []
  · rw [if_pos h]
    rfl
  · rw [if_neg h]
    rfl

/-- A round of the loop changes neither the `Dump` flag nor what `dump` reads. -/
theorem completionRound_dump {σ : Type} (E : RewriteEngine σ) (policy : ValidityPolicy)
    (m : RequirementMachine σ) :
    (completionRound E policy m).value.Dump = m.Dump ∧
      (completionRound E policy m).value.Sig = m.Sig ∧
      (completionRound E policy m).value.Params = m.Params ∧
      (completionRound E policy m).value.Protos = m.Protos := by
  unfold completionRound
  dsimp only
  split
  · exact ⟨rfl, rfl, rfl, rfl⟩
  · split
    · exact ⟨rfl, rfl, rfl, rfl⟩
    · split <;> exact ⟨rfl, rfl, rfl, rfl⟩

/-- A round whose confluence completion does not report `Success` calls
`abort()` right after it. -/
theorem completionRound_completion_failed {σ : Type} (E : RewriteEngine σ)
    (policy : ValidityPolicy) (m : RequirementMachine σ)
    (h : completionStatus E m.RequirementMachineStepLimit m.RequirementMachineDepthLimit
      m.System ≠ CompletionResult.Success) :
    ∃ m1, completionRound E policy m = RoundResult.abort m1 ∧
      m1.System = completedSystem E m.RequirementMachineStepLimit
        m.RequirementMachineDepthLimit m.System ∧
      m1.Complete = m.Complete := by
  have hc : checkCompletionResult
      (E.computeConfluentCompletion m.RequirementMachineStepLimit
        m.RequirementMachineDepthLimit m.System).1.1 = false := by
    cases hq : checkCompletionResult
      (E.computeConfluentCompletion m.RequirementMachineStepLimit
        m.RequirementMachineDepthLimit m.System).1.1
    · rfl
    · exact absurd ((checkCompletionResult_eq_true _).1 hq) h
  refine ⟨{ m with
      System := (E.computeConfluentCompletion m.RequirementMachineStepLimit
        m.RequirementMachineDepthLimit m.System).2
      Stats := m.Stats.map (fun c =>
        { c with NumRequirementMachineCompletionSteps :=
            c.NumRequirementMachineCompletionSteps +
              (E.computeConfluentCompletion m.RequirementMachineStepLimit
                m.RequirementMachineDepthLimit m.System).1.2 }) }, ?_, rfl, rfl⟩
  simp only [completionRound, hc]
  rfl

/-- A round whose confluence completion reports `Success` runs the three phases
and ends as the result of the property-map build says. -/
theorem completionRound_completion_ok {σ : Type} (E : RewriteEngine σ)
    (policy : ValidityPolicy) (m : RequirementMachine σ)
    (h : completionStatus E m.RequirementMachineStepLimit m.RequirementMachineDepthLimit
      m.System = CompletionResult.Success) :
    ∃ m1,
      m1.System = roundSystem E policy m.RequirementMachineStepLimit
        m.RequirementMachineDepthLimit m.System ∧
      m1.Complete = m.Complete ∧
      m1.RequirementMachineStepLimit = m.RequirementMachineStepLimit ∧
      m1.RequirementMachineDepthLimit = m.RequirementMachineDepthLimit ∧
      completionRound E policy m =
        if propertyMapStatus E policy m.RequirementMachineStepLimit
            m.RequirementMachineDepthLimit m.System = CompletionResult.Success then
          if roundAdded E policy m.RequirementMachineStepLimit
              m.RequirementMachineDepthLimit m.System = 0 then RoundResult.exit m1
          else RoundResult.again m1
        else RoundResult.abort m1 := by
  have hc : checkCompletionResult
      (E.computeConfluentCompletion m.RequirementMachineStepLimit
        m.RequirementMachineDepthLimit m.System).1.1 = true :=
    (checkCompletionResult_eq_true _).2 h
  refine ⟨{ m with
      System := (propertyMapResult E policy m.RequirementMachineStepLimit
        m.RequirementMachineDepthLimit m.System).2
      Stats := (m.Stats.map (fun c =>
        { c with NumRequirementMachineCompletionSteps :=
            c.NumRequirementMachineCompletionSteps +
              (E.computeConfluentCompletion m.RequirementMachineStepLimit
                m.RequirementMachineDepthLimit m.System).1.2 })).map (fun c =>
        { c with NumRequirementMachineUnifiedConcreteTerms :=
            c.NumRequirementMachineUnifiedConcreteTerms +
              (propertyMapResult E policy m.RequirementMachineStepLimit
                m.RequirementMachineDepthLimit m.System).1.2 }) }, rfl, rfl, rfl, rfl, ?_⟩
  simp only [completionRound, hc, Bool.not_true, Bool.false_eq_true, if_false]
  by_cases hp : propertyMapStatus E policy m.RequirementMachineStepLimit
      m.RequirementMachineDepthLimit m.System = CompletionResult.Success
  · have hp1 : checkCompletionResult
        (E.buildPropertyMap m.RequirementMachineStepLimit m.RequirementMachineDepthLimit
          (E.verifyRewriteRules policy
            (E.computeConfluentCompletion m.RequirementMachineStepLimit
              m.RequirementMachineDepthLimit m.System).2)).1.1 = true :=
      (checkCompletionResult_eq_true _).2 hp
    rw [if_pos hp]
    simp only [hp1, Bool.not_true, Bool.false_eq_true, if_false, beq_iff_eq]
    rfl
  · have hp1 : checkCompletionResult
        (E.buildPropertyMap m.RequirementMachineStepLimit m.RequirementMachineDepthLimit
          (E.verifyRewriteRules policy
            (E.computeConfluentCompletion m.RequirementMachineStepLimit
              m.RequirementMachineDepthLimit m.System).2)).1.1 = false := by
      cases hq : checkCompletionResult
        (E.buildPropertyMap m.RequirementMachineStepLimit m.RequirementMachineDepthLimit
          (E.verifyRewriteRules policy
            (E.computeConfluentCompletion m.RequirementMachineStepLimit
              m.RequirementMachineDepthLimit m.System).2)).1.1
      · rfl
      · exact absurd ((checkCompletionResult_eq_true _).1 hq) hp
    rw [if_neg hp]
    simp only [hp1, Bool.not_false, if_true]
    rfl

/-- The rounds that ask for another one are peeled off the loop. -/
theorem computeCompletion_peel {σ : Type} (E : RewriteEngine σ) (policy : ValidityPolicy) :
    ∀ (k : Nat) (m : RequirementMachine σ),
      (∀ j, j < k → RoundContinues E policy m.RequirementMachineStepLimit
        m.RequirementMachineDepthLimit
        (systemAfter E policy m.RequirementMachineStepLimit m.RequirementMachineDepthLimit j
          m.System)) →
      ∃ mk,
        (∀ fuel, computeCompletion E policy (fuel + k) m = computeCompletion E policy fuel mk) ∧
        mk.System = systemAfter E policy m.RequirementMachineStepLimit
          m.RequirementMachineDepthLimit k m.System ∧
        mk.Complete = m.Complete ∧
        mk.RequirementMachineStepLimit = m.RequirementMachineStepLimit ∧
        mk.RequirementMachineDepthLimit = m.RequirementMachineDepthLimit ∧
        (mk.Dump = m.Dump ∧ mk.Sig = m.Sig ∧ mk.Params = m.Params ∧ mk.Protos = m.Protos) := by
  intro k
  induction k with
  | zero =>
    intro m _
    exact ⟨m, fun fuel => rfl, rfl, rfl, rfl, rfl, rfl, rfl, rfl, rfl⟩
  | succ k ih =>
    intro m hgood
    have h0 := hgood 0 (Nat.succ_pos k)
    simp only [systemAfter, Function.iterate_zero, id_eq] at h0
    obtain ⟨m1, hsys, hcomp, hsl, hdl, hround⟩ := completionRound_completion_ok E policy m h0.1
    rw [if_pos h0.2.1, if_neg h0.2.2] at hround
    have hgood1 : ∀ j, j < k → RoundContinues E policy m1.RequirementMachineStepLimit
        m1.RequirementMachineDepthLimit
        (systemAfter E policy m1.RequirementMachineStepLimit m1.RequirementMachineDepthLimit j
          m1.System) := by
      intro j hj
      rw [hsl, hdl, hsys, ← systemAfter_succ]
      exact hgood (j + 1) (by omega)
    obtain ⟨mk, hrun, hksys, hkcomp, hksl, hkdl, hkd, hks, hkp, hkq⟩ := ih m1 hgood1
    have hframe := completionRound_dump E policy m
    rw [hround] at hframe
    refine ⟨mk, ?_, ?_, hkcomp.trans hcomp, hksl.trans hsl, hkdl.trans hdl,
      hkd.trans hframe.1, hks.trans hframe.2.1, hkp.trans hframe.2.2.1,
      hkq.trans hframe.2.2.2⟩
    · intro fuel
      rw [← hrun fuel]
      show computeCompletion E policy ((fuel + k) + 1) m = _
      rw [computeCompletion, hround]
    · rw [hksys, hsl, hdl, hsys, ← systemAfter_succ]

end RequirementMachine

namespace RequirementMachine

theorem completionRound_complete {σ : Type} (E : RewriteEngine σ) (policy : ValidityPolicy)
    (m : RequirementMachine σ) : (completionRound E policy m).value.Complete = m.Complete := by
  by_cases h : completionStatus E m.RequirementMachineStepLimit m.RequirementMachineDepthLimit
      m.System = CompletionResult.Success
  · obtain ⟨m1, _, hcomp, _, _, hround⟩ := completionRound_completion_ok E policy m h
    rw [hround]
    split
    · split <;> exact hcomp
    · exact hcomp
  · obtain ⟨m1, hround, _, hcomp⟩ := completionRound_completion_failed E policy m h
    rw [hround]
    exact hcomp

/-- A machine that is complete stays complete through `computeCompletion`, and
the function does not return on it. -/
theorem computeCompletion_complete {σ : Type} (E : RewriteEngine σ) (policy : ValidityPolicy) :
    ∀ (fuel : Nat) (m : RequirementMachine σ), m.Complete = true →
      (computeCompletion E policy fuel m).value.Complete = true ∧
        (computeCompletion E policy fuel m).isReturned = false := by
  intro fuel
  induction fuel with
  | zero =>
    intro m hm
    exact ⟨hm, rfl⟩
  | succ n ih =>
    intro m hm
    have hc := completionRound_complete E policy m
    rw [computeCompletion]
    cases hr : completionRound E policy m with
    | again m1 =>
      rw [hr] at hc
      exact ih m1 (hc.trans hm)
    | abort m1 =>
      rw [hr] at hc
      exact ⟨hc.trans hm, rfl⟩
    | exit m1 =>
      rw [hr] at hc
      have hm1 : m1.Complete = true := hc.trans hm
      simp only [hm1, if_true]
      split <;> exact ⟨hm1, rfl⟩

/-- The last round of the loop, entered with fuel. -/
theorem computeCompletion_last {σ : Type} (E : RewriteEngine σ) (policy : ValidityPolicy)
    (fuel : Nat) (m : RequirementMachine σ)
    (hc : completionStatus E m.RequirementMachineStepLimit m.RequirementMachineDepthLimit
      m.System = CompletionResult.Success)
    (hp : propertyMapStatus E policy m.RequirementMachineStepLimit
      m.RequirementMachineDepthLimit m.System = CompletionResult.Success)
    (hz : roundAdded E policy m.RequirementMachineStepLimit m.RequirementMachineDepthLimit
      m.System = 0) :
    ∃ m1,
      m1.System = roundSystem E policy m.RequirementMachineStepLimit
        m.RequirementMachineDepthLimit m.System ∧
      m1.Complete = m.Complete ∧
      computeCompletion E policy (fuel + 1) m =
        if m.Dump = true ∧ m.Sig = none ∧ m.Params = [] ∧ m.Protos = [] then
          Outcome.violated m1
        else if m.Complete then Outcome.violated m1
        else Outcome.returned { m1 with Complete := true } := by
  obtain ⟨m1, hsys, hcomp, _, _, hround⟩ := completionRound_completion_ok E policy m hc
  rw [if_pos hp, if_pos hz] at hround
  have hframe := completionRound_dump E policy m
  rw [hround] at hframe
  obtain ⟨hd, hs, hq, hr⟩ := hframe
  change m1.Dump = m.Dump at hd
  change m1.Sig = m.Sig at hs
  change m1.Params = m.Params at hq
  change m1.Protos = m.Protos at hr
  refine ⟨m1, hsys, hcomp, ?_⟩
  rw [computeCompletion, hround]
  simp only [hcomp, dump_eq, hd, hs, hq, hr]
  by_cases hdump : m.Dump = true
  · by_cases hempty : m.Sig = none ∧ m.Params = [] ∧ m.Protos = []
    · simp [hdump, hempty]
    · simp [hdump, hempty]
  · simp [hdump]

end RequirementMachine

/-! ## Lemmas on term verification -/

namespace RequirementMachine

theorem eraseInterior_of_interior (symbol : Symbol) (erased : MutableTerm)
    (he : erased ≠ []) (hs : isInteriorSymbol symbol = true) :
    eraseInterior symbol erased = Outcome.returned (erased ++ [eraseInteriorSymbol symbol]) := by
  have hne : erased.isEmpty = false := by
    cases erased with
    | nil => exact absurd rfl he
    | cons a l => rfl
  cases symbol <;>
    simp [isInteriorSymbol] at hs <;>
    simp [eraseInterior, eraseInteriorSymbol, hne, Symbol.forName]

theorem eraseInterior_of_not_interior (symbol : Symbol) (erased : MutableTerm)
    (hs : isInteriorSymbol symbol = false) :
    eraseInterior symbol erased = Outcome.aborted erased := by
  cases symbol <;> simp [isInteriorSymbol] at hs <;> simp [eraseInterior]

/-- The loop of `verify` on the symbols after the root. -/
theorem eraseTerm_interior :
    ∀ (rest : List Symbol) (erased : MutableTerm), erased ≠ [] →
      ((∀ s ∈ rest, isInteriorSymbol s = true) →
        eraseTerm rest erased = Outcome.returned (erased ++ rest.map eraseInteriorSymbol)) ∧
      ((∃ s ∈ rest, isInteriorSymbol s = false) →
        ∃ e, eraseTerm rest erased = Outcome.aborted e) := by
  intro rest
  induction rest with
  | nil =>
    intro erased _
    constructor
    · intro _
      simp [eraseTerm]
    · rintro ⟨s, hs, _⟩
      simp at hs
  | cons a rest ih =>
    intro erased he
    have hne : erased.isEmpty = false := by
      cases erased with
      | nil => exact absurd rfl he
      | cons x l => rfl
    cases ha : isInteriorSymbol a
    · have hstep : eraseTerm (a :: rest) erased = Outcome.aborted erased := by
        simp [eraseTerm, eraseSymbol, hne, eraseInterior_of_not_interior a erased ha]
      constructor
      · intro hall
        have := hall a (List.mem_cons_self _ _)
        rw [ha] at this
        exact absurd this (by decide)
      · intro _
        exact ⟨erased, hstep⟩
    · have hstep : eraseTerm (a :: rest) erased =
          eraseTerm rest (erased ++ [eraseInteriorSymbol a]) := by
        simp [eraseTerm, eraseSymbol, hne, eraseInterior_of_interior a erased he ha]
      obtain ⟨ih1, ih2⟩ := ih (erased ++ [eraseInteriorSymbol a]) (by simp)
      rw [hstep]
      constructor
      · intro hall
        rw [ih1 (fun s hs => hall s (List.mem_cons_of_mem _ hs))]
        simp
      · rintro ⟨s, hs, hsi⟩
        rcases List.mem_cons.1 hs with h | h
        · rw [h, ha] at hsi
          exact absurd hsi (by decide)
        · exact ih2 ⟨s, h, hsi⟩

/-- The loop of `verify` on a term, by the kind of its root. -/
theorem eraseTerm_root (first : Symbol) (rest : List Symbol) :
    eraseTerm (first :: rest) [] =
      match first with
      | .Protocol p => eraseTerm rest [Symbol.Protocol p]
      | .GenericParam d i => eraseTerm rest [Symbol.GenericParam d i]
      | .AssociatedType (p :: _) name => eraseTerm rest [Symbol.Protocol p, Symbol.Name name]
      | .AssociatedType [] _ => Outcome.violated []
      | _ => Outcome.aborted [] := by
  cases first with
  | AssociatedType protos name =>
    cases protos <;>
      simp [eraseTerm, eraseSymbol, eraseInterior, Symbol.forProtocol, Symbol.forName]
  | _ => simp [eraseTerm, eraseSymbol]

/-- What the loop of `verify` returns, and when. -/
theorem eraseTerm_eq (first : Symbol) (rest : List Symbol) :
    (isErasableRoot first = true → (∀ s ∈ rest, isInteriorSymbol s = true) →
      eraseTerm (first :: rest) [] = Outcome.returned (erasedForm (first :: rest))) ∧
    (∀ e, eraseTerm (first :: rest) [] = Outcome.returned e →
      isErasableRoot first = true ∧ (∀ s ∈ rest, isInteriorSymbol s = true)) := by
  have hall : ∀ erased : MutableTerm, erased ≠ [] → ∀ e,
      eraseTerm rest erased = Outcome.returned e → ∀ s ∈ rest, isInteriorSymbol s = true := by
    intro erased he e hret s hs
    cases hsi : isInteriorSymbol s
    · obtain ⟨e1, habort⟩ := (eraseTerm_interior rest erased he).2 ⟨s, hs, hsi⟩
      rw [habort] at hret
      cases hret
    · rfl
  rw [eraseTerm_root]
  cases first with
  | Protocol p =>
    exact ⟨fun _ h => by simpa [erasedForm] using (eraseTerm_interior rest _ (by simp)).1 h,
      fun e he => ⟨rfl, hall _ (by simp) e he⟩⟩
  | GenericParam d i =>
    exact ⟨fun _ h => by simpa [erasedForm] using (eraseTerm_interior rest _ (by simp)).1 h,
      fun e he => ⟨rfl, hall _ (by simp) e he⟩⟩
  | AssociatedType protos name =>
    cases protos with
    | nil =>
      exact ⟨fun h _ => by simp [isErasableRoot] at h, fun e he => by cases he⟩
    | cons p ps =>
      exact ⟨fun _ h => by simpa [erasedForm] using (eraseTerm_interior rest _ (by simp)).1 h,
        fun e he => ⟨rfl, hall _ (by simp) e he⟩⟩
  | Name n =>
    exact ⟨fun h _ => by simp [isErasableRoot] at h, fun e he => by cases he⟩
  | Layout l =>
    exact ⟨fun h _ => by simp [isErasableRoot] at h, fun e he => by cases he⟩
  | Superclass t subs =>
    exact ⟨fun h _ => by simp [isErasableRoot] at h, fun e he => by cases he⟩
  | ConcreteType t subs =>
    exact ⟨fun h _ => by simp [isErasableRoot] at h, fun e he => by cases he⟩

end RequirementMachine

/-! ## Lemmas on substitution into a schema -/

namespace CanType

mutual
theorem isTypeParameter_replaceTypeParameters :
    ∀ (k : Nat) (t : CanType), isTypeParameter t = false →
      isTypeParameter (replaceTypeParameters k t) = false
  | _, .genericTypeParam _ _, h => by simp [isTypeParameter] at h
  | k, .dependentMember b n, h => by
    simp only [isTypeParameter] at h
    simp [replaceTypeParameters, h, isTypeParameter, isTypeParameter_replaceTypeParameters k b h]
  | _, .classType _ _, _ => by simp [replaceTypeParameters, isTypeParameter]
  | _, .structural _ _, _ => by simp [replaceTypeParameters, isTypeParameter]
end

theorem getD_append_cons (pre post : List CanType) (a d : CanType) :
    (pre ++ a :: post).getD pre.length d = a := by
  induction pre with
  | nil => rfl
  | cons x rest ih => simpa using ih

mutual
/-- Substituting the collected subterms for the placeholders gives the type
back, wherever the collected subterms stand in the list. -/
theorem substitute_replace :
    ∀ (t : CanType) (pre post : List CanType),
      substitutePlaceholders (pre ++ maximalTypeParameters t ++ post)
        (replaceTypeParameters pre.length t) = t
  | .genericTypeParam d i, pre, post => by
    simp only [replaceTypeParameters, maximalTypeParameters, substitutePlaceholders, if_true,
      List.append_assoc, List.singleton_append]
    exact getD_append_cons pre post _ _
  | .dependentMember b n, pre, post => by
    cases hb : isTypeParameter b
    · simp only [replaceTypeParameters, maximalTypeParameters, substitutePlaceholders, hb,
        Bool.false_eq_true, if_false, substitute_replace b pre post]
    · simp only [replaceTypeParameters, maximalTypeParameters, substitutePlaceholders, hb,
        if_true, List.append_assoc, List.singleton_append]
      exact getD_append_cons pre post _ _
  | .classType d xs, pre, post => by
    simp only [replaceTypeParameters, maximalTypeParameters, substitutePlaceholders,
      substituteList_replace xs pre post]
  | .structural d xs, pre, post => by
    simp only [replaceTypeParameters, maximalTypeParameters, substitutePlaceholders,
      substituteList_replace xs pre post]
theorem substituteList_replace :
    ∀ (ts : List CanType) (pre post : List CanType),
      substitutePlaceholdersList (pre ++ maximalTypeParametersList ts ++ post)
        (replaceTypeParametersList pre.length ts) = ts
  | [], _, _ => by simp [replaceTypeParametersList, substitutePlaceholdersList]
  | x :: xs, pre, post => by
    have h1 := substitute_replace x pre (maximalTypeParametersList xs ++ post)
    have h2 := substituteList_replace xs (pre ++ maximalTypeParameters x) post
    simp only [List.length_append, List.append_assoc] at h1 h2
    simp only [replaceTypeParametersList, maximalTypeParametersList, substitutePlaceholdersList,
      List.append_assoc, h1, h2]
end

mutual
/-- Every type-parameter subterm of a replaced type is a placeholder numbered
within the range that the type uses. -/
theorem subterms_replace :
    ∀ (t : CanType) (k : Nat) (s : CanType), s ∈ subterms (replaceTypeParameters k t) →
      isTypeParameter s = true →
      ∃ i, k ≤ i ∧ i < k + (maximalTypeParameters t).length ∧ s = .genericTypeParam 0 i
  | .genericTypeParam d i, k, s, hs, _ => by
    simp only [replaceTypeParameters, subterms, List.mem_singleton] at hs
    exact ⟨k, le_refl k, by simp [maximalTypeParameters], hs⟩
  | .dependentMember b n, k, s, hs, hp => by
    cases hb : isTypeParameter b
    · simp only [replaceTypeParameters, hb, Bool.false_eq_true, if_false, subterms,
        List.mem_cons] at hs
      rcases hs with hs | hs
      · rw [hs] at hp
        simp only [isTypeParameter] at hp
        rw [isTypeParameter_replaceTypeParameters k b hb] at hp
        exact absurd hp (by decide)
      · obtain ⟨i, h1, h2, h3⟩ := subterms_replace b k s hs hp
        exact ⟨i, h1, by simpa [maximalTypeParameters, hb] using h2, h3⟩
    · simp only [replaceTypeParameters, hb, if_true, subterms, List.mem_singleton] at hs
      exact ⟨k, le_refl k, by simp [maximalTypeParameters, hb], hs⟩
  | .classType d xs, k, s, hs, hp => by
    simp only [replaceTypeParameters, subterms, List.mem_cons] at hs
    rcases hs with hs | hs
    · rw [hs] at hp
      simp [isTypeParameter] at hp
    · simpa [maximalTypeParameters] using subtermsList_replace xs k s hs hp
  | .structural d xs, k, s, hs, hp => by
    simp only [replaceTypeParameters, subterms, List.mem_cons] at hs
    rcases hs with hs | hs
    · rw [hs] at hp
      simp [isTypeParameter] at hp
    · simpa [maximalTypeParameters] using subtermsList_replace xs k s hs hp
theorem subtermsList_replace :
    ∀ (ts : List CanType) (k : Nat) (s : CanType),
      s ∈ subtermsList (replaceTypeParametersList k ts) → isTypeParameter s = true →
      ∃ i, k ≤ i ∧ i < k + (maximalTypeParametersList ts).length ∧ s = .genericTypeParam 0 i
  | [], _, _, hs, _ => by simp [replaceTypeParametersList, subtermsList] at hs
  | x :: xs, k, s, hs, hp => by
    simp only [replaceTypeParametersList, subtermsList, List.mem_append] at hs
    rcases hs with hs | hs
    · obtain ⟨i, h1, h2, h3⟩ := subterms_replace x k s hs hp
      exact ⟨i, h1, by simp [maximalTypeParametersList]; omega, h3⟩
    · obtain ⟨i, h1, h2, h3⟩ :=
        subtermsList_replace xs (k + (maximalTypeParameters x).length) s hs hp
      exact ⟨i, by omega, by simp [maximalTypeParametersList]; omega, h3⟩
end

end CanType

/-! ## Lemmas on the keys of the protocol map -/

theorem DenseMap.find_isSome_iff_mem_keys (m : DenseMap) (p : ProtocolDecl) :
    (DenseMap.find m p).isSome = true ↔ p ∈ DenseMap.keys m := by
  induction m with
  | nil => simp [DenseMap.find_nil, DenseMap.keys]
  | cons e rest ih =>
    obtain ⟨k, v⟩ := e
    rw [DenseMap.find_cons]
    simp only [DenseMap.keys, List.map_cons, List.mem_cons]
    by_cases h : p = k
    · simp [h]
    · simp only [h, if_false, false_or]
      exact ih

namespace RuleBuilder

theorem protocolsAreKeys_iff_wellFormed (b : RuleBuilder) :
    b.ProtocolsAreKeys ↔ b.WellFormed := by
  unfold ProtocolsAreKeys WellFormed
  constructor
  · rintro ⟨h1, h2⟩
    exact ⟨h1, fun p => (h2 p).trans (DenseMap.find_isSome_iff_mem_keys _ p).symm⟩
  · rintro ⟨h1, h2⟩
    exact ⟨h1, fun p => (h2 p).trans (DenseMap.find_isSome_iff_mem_keys _ p)⟩

theorem addRequirements_wellFormed (ctx : RewriteContext) (fuel : Nat)
    (reqs : List Requirement) (b b1 : RuleBuilder) (hb : b.WellFormed)
    (h : addRequirements ctx fuel reqs b = some b1) : b1.WellFormed := by
  unfold addRequirements at h
  dsimp only at h
  rw [register_conformances] at h
  cases hc : collectRulesFromReferencedProtocols ctx fuel
      (((conformanceProtocols reqs).map (fun d => (d, false))).foldl
        (fun b s => addProtocol s.1 s.2 b) b) with
  | none =>
    rw [hc] at h
    cases h
  | some b2 =>
    rw [hc] at h
    dsimp only at h
    rw [foldlM_addRequirement ctx none (fun r => r)] at h
    obtain ⟨b3, _, hwf3, rfl⟩ := collect_inv ctx fuel _ b2
      (foldl_addProtocol_wellFormed _ b hb) hc
    cases h
    exact hwf3

theorem addProtocols_wellFormed (ctx : RewriteContext) (fuel : Nat)
    (protos : List ProtocolDecl) (b b1 : RuleBuilder) (hb : b.WellFormed)
    (h : addProtocols ctx fuel protos b = some b1) : b1.WellFormed := by
  unfold addProtocols at h
  dsimp only at h
  rw [foldl_addProtocol_const] at h
  obtain ⟨b3, _, hwf3, rfl⟩ := collect_inv ctx fuel _ b1
    (foldl_addProtocol_wellFormed _ b hb) h
  exact hwf3

end RuleBuilder

/-! ## Claims -/

namespace RuleBuilder

open CanType

/-- C1: for every requirement and every `proto`, `addRequirement` succeeds and
appends exactly one requirement-derived rule, the pair of the subject term `T`
and a constraint term: `T.[P]` for a conformance, `T.[layout:L]` for a layout,
`T.[superclass:C']` for a superclass and `T.[concrete:U']` for a same-type
requirement with a concrete second type, where the schema and its substitution
list come from `getConcreteSubstitutionSchema` on an empty list, and the term of
`U` for a same-type requirement with a type parameter `U`. -/
theorem addRequirement_requirement_rule (ctx : RewriteContext) (req : Requirement)
    (proto : Option ProtocolDecl) (b : RuleBuilder) :
    ∃ b1 constraintTerm,
      addRequirement ctx req proto b = some b1 ∧
      b1.RequirementRules =
        b.RequirementRules ++ [(ctx.getMutableTermForType req.getFirstType proto, constraintTerm)] ∧
      (match req with
        | .Conformance t p =>
          constraintTerm = ctx.getMutableTermForType t proto ++ [Symbol.Protocol p]
        | .Layout t l =>
          constraintTerm = ctx.getMutableTermForType t proto ++ [Symbol.Layout l]
        | .Superclass t d args =>
          ∃ schema substitutions,
            getConcreteSubstitutionSchema ctx (.classType d args) proto [] =
              some (schema, substitutions) ∧
            constraintTerm =
              ctx.getMutableTermForType t proto ++ [Symbol.Superclass schema substitutions]
        | .SameType t u =>
          if u.isTypeParameter then constraintTerm = ctx.getMutableTermForType u proto
          else
            ∃ schema substitutions,
              getConcreteSubstitutionSchema ctx u proto [] = some (schema, substitutions) ∧
              constraintTerm =
                ctx.getMutableTermForType t proto ++ [Symbol.ConcreteType schema substitutions]) := by
  cases req with
  | Conformance t p =>
    exact ⟨_, _, rfl, rfl, rfl⟩
  | Layout t l =>
    exact ⟨_, _, rfl, rfl, rfl⟩
  | Superclass t d args =>
    have hs := getConcreteSubstitutionSchema_eq ctx (.classType d args) proto []
      (by simp [isTypeParameter])
    simp only [addRequirement, hs, replaceTypeParameters, getClassOrBoundGenericClass]
    exact ⟨_, _, rfl, rfl, _, _, rfl, rfl⟩
  | SameType t u =>
    cases hu : u.isTypeParameter
    · have hs := getConcreteSubstitutionSchema_eq ctx u proto [] hu
      simp only [addRequirement, hu, hs]
      exact ⟨_, _, rfl, rfl, by simp [Symbol.forConcreteType, Requirement.getFirstType]⟩
    · simp only [addRequirement, hu]
      exact ⟨_, _, rfl, rfl, by simp⟩

/-- C3: for a superclass requirement `T : C`, `addRequirement` appends exactly
one permanent rule, the pair of `[superclass:C'].[layout:L]` and
`[superclass:C']`, with the superclass symbol of the requirement-derived rule
and `L` the `Class` layout when the class of `C` uses the foreign object model
and the `NativeClass` layout otherwise; for a requirement of another kind the
permanent rules are unchanged. -/
theorem addRequirement_permanent_rule (ctx : RewriteContext) (req : Requirement)
    (proto : Option ProtocolDecl) (b : RuleBuilder) :
    ∃ b1,
      addRequirement ctx req proto b = some b1 ∧
      (match req with
        | .Superclass t d args =>
          ∃ schema substitutions,
            getConcreteSubstitutionSchema ctx (.classType d args) proto [] =
              some (schema, substitutions) ∧
            b1.PermanentRules =
              b.PermanentRules ++
                [([Symbol.Superclass schema substitutions,
                    Symbol.Layout (LayoutConstraint.getLayoutConstraint
                      (if ctx.usesObjCObjectModel d then LayoutConstraintKind.Class
                       else LayoutConstraintKind.NativeClass))],
                  [Symbol.Superclass schema substitutions])] ∧
            b1.RequirementRules =
              b.RequirementRules ++
                [(ctx.getMutableTermForType t proto,
                  ctx.getMutableTermForType t proto ++ [Symbol.Superclass schema substitutions])]
        | _ => b1.PermanentRules = b.PermanentRules) := by
  cases req with
  | Conformance t p =>
    exact ⟨_, rfl, rfl⟩
  | Layout t l =>
    exact ⟨_, rfl, rfl⟩
  | Superclass t d args =>
    have hs := getConcreteSubstitutionSchema_eq ctx (.classType d args) proto []
      (by simp [isTypeParameter])
    simp only [addRequirement, hs, replaceTypeParameters, getClassOrBoundGenericClass]
    exact ⟨_, rfl, _, _, rfl, rfl, rfl⟩
  | SameType t u =>
    cases hu : u.isTypeParameter
    · have hs := getConcreteSubstitutionSchema_eq ctx u proto [] hu
      simp only [addRequirement, hu, hs]
      exact ⟨_, rfl, rfl⟩
    · simp only [addRequirement, hu]
      exact ⟨_, rfl, rfl⟩

/-- C4: for a concrete type `c` (not a type parameter) and an empty output list,
`getConcreteSubstitutionSchema` returns `c` with its maximal type-parameter
subterms replaced, in traversal order, by the depth-0 placeholders of indices
0, 1, ..., and the list of the terms of those subterms in the same order; the
subterms collected are type parameters, as many as the list is long; and when
`c` contains no type parameter, `c` and the empty list are returned. -/
theorem getConcreteSubstitutionSchema_spec (ctx : RewriteContext) (c : CanType)
    (proto : Option ProtocolDecl) (hc : c.isTypeParameter = false) :
    getConcreteSubstitutionSchema ctx c proto [] =
        some (replaceTypeParameters 0 c,
          (maximalTypeParameters c).map (fun p => ctx.getTermForType p proto)) ∧
      (∀ p ∈ maximalTypeParameters c, p.isTypeParameter = true) ∧
      (c.hasTypeParameter = false → getConcreteSubstitutionSchema ctx c proto [] = some (c, [])) := by
  have hs := getConcreteSubstitutionSchema_eq ctx c proto [] hc
  refine ⟨by simpa using hs, fun p hp => isTypeParameter_of_mem_maximal c p hp, ?_⟩
  intro hp
  rw [hs, replaceTypeParameters_eq_self _ c hp, maximalTypeParameters_eq_nil c hp]
  rfl

/-- C4, worked examples: `Foo<X.Y, Array<Z>>` gives `Foo<τ_0_0, Array<τ_0_1>>`
with the list `[X.Y, Z]`, and `Array<U>` gives `Array<τ_0_0>` with `[U]`. Here
`Foo` is class 7, `Array` the constructor 9, and `X`, `Z`, `U` the generic
parameters `τ_0_0`, `τ_0_1`, `τ_1_3`, `Y` the name 5. -/
theorem getConcreteSubstitutionSchema_spec_witness :
    (CanType.classType 7 [.dependentMember (.genericTypeParam 0 0) 5,
        .structural 9 [.genericTypeParam 0 1]]).isTypeParameter = false ∧
      getConcreteSubstitutionSchema exampleContext
          (.classType 7 [.dependentMember (.genericTypeParam 0 0) 5,
            .structural 9 [.genericTypeParam 0 1]]) none [] =
        some (.classType 7 [.genericTypeParam 0 0, .structural 9 [.genericTypeParam 0 1]],
          [[Symbol.GenericParam 0 0, Symbol.Name 5], [Symbol.GenericParam 0 1]]) ∧
      getConcreteSubstitutionSchema exampleContext
          (.structural 9 [.genericTypeParam 1 3]) none [] =
        some (.structural 9 [.genericTypeParam 0 0], [[Symbol.GenericParam 1 3]]) :=
  ⟨by decide,
    (getConcreteSubstitutionSchema_spec exampleContext
      (.classType 7 [.dependentMember (.genericTypeParam 0 0) 5,
        .structural 9 [.genericTypeParam 0 1]]) none (by decide)).1.trans (by decide),
    (getConcreteSubstitutionSchema_spec exampleContext
      (.structural 9 [.genericTypeParam 1 3]) none (by decide)).1.trans (by decide)⟩

/-- C5: two concrete types that are structurally identical except for which
type parameters fill their maximal type-parameter positions have the same
schema type and substitution lists of the same length. -/
theorem getConcreteSubstitutionSchema_stable (ctx : RewriteContext) (c1 c2 : CanType)
    (proto1 proto2 : Option ProtocolDecl) (h1 : c1.isTypeParameter = false)
    (h2 : c2.isTypeParameter = false) (hs : sameShape c1 c2 = true) :
    ∃ schema list1 list2,
      getConcreteSubstitutionSchema ctx c1 proto1 [] = some (schema, list1) ∧
      getConcreteSubstitutionSchema ctx c2 proto2 [] = some (schema, list2) ∧
      list1.length = list2.length := by
  have e1 := getConcreteSubstitutionSchema_eq ctx c1 proto1 [] h1
  have e2 := getConcreteSubstitutionSchema_eq ctx c2 proto2 [] h2
  have hsh := sameShape_schema c1 c2 hs
  refine ⟨_, _, (maximalTypeParameters c2).map (fun p => ctx.getTermForType p proto2),
    e1, ?_, ?_⟩
  · rw [e2, hsh.2]
    simp
  · simp [hsh.1]

/-- C5, worked example: `Foo<X.Y, Array<Z>>` and `Foo<W, Array<V.A.B>>` have the
schema `Foo<τ_0_0, Array<τ_0_1>>` and lists of length 2. -/
theorem getConcreteSubstitutionSchema_stable_witness :
    ∃ schema list1 list2,
      getConcreteSubstitutionSchema exampleContext
          (.classType 7 [.dependentMember (.genericTypeParam 0 0) 5,
            .structural 9 [.genericTypeParam 0 1]]) none [] = some (schema, list1) ∧
      getConcreteSubstitutionSchema exampleContext
          (.classType 7 [.genericTypeParam 2 2,
            .structural 9 [.dependentMember (.dependentMember (.genericTypeParam 0 4) 1) 2]])
          (some 3) [] = some (schema, list2) ∧
      list1.length = list2.length :=
  getConcreteSubstitutionSchema_stable exampleContext _ _ none (some 3)
    (by decide) (by decide) (by decide)

/-- C2 (as the code has it): on a fresh builder, for a generic parameter `T`
and a protocol `P` without associated types (own or inherited), dependencies
and requirement signature, `addRequirements([T : P])` returns with exactly one
permanent rule, the pair of `[P].[P]` and `[P]`, and exactly one
requirement-derived rule, the pair whose first component is the subject term
`T` and whose second component is the constraint term `T.[P]`. -/
theorem addRequirements_single_conformance (ctx : RewriteContext) (dump : Bool) (fuel : Nat)
    (depth index : Nat) (P : ProtocolDecl) (hfuel : 2 ≤ fuel)
    (hassoc : ctx.getAssociatedTypeMembers P = [])
    (hinherited : ∀ q ∈ ctx.getInheritedProtocols P, ctx.getAssociatedTypeMembers q = [])
    (hdeps : ctx.getProtocolDependencies P = [])
    (hsig : ctx.getRequirementSignature P = []) :
    ∃ b,
      addRequirements ctx fuel [.Conformance (.genericTypeParam depth index) P] (init dump) =
        some b ∧
      b.PermanentRules = [([Symbol.Protocol P, Symbol.Protocol P], [Symbol.Protocol P])] ∧
      b.RequirementRules =
        [(ctx.getMutableTermForType (.genericTypeParam depth index) none,
          ctx.getMutableTermForType (.genericTypeParam depth index) none ++
            [Symbol.Protocol P])] := by
  obtain ⟨n, rfl⟩ : ∃ n, fuel = n + 2 := ⟨fuel - 2, by omega⟩
  have hflat : (ctx.getInheritedProtocols P).flatMap
      (fun q => (ctx.getAssociatedTypeMembers q).map (associatedTypeRule P)) = [] := by
    rw [List.flatMap_eq_nil_iff]
    intro q hq
    rw [hinherited q hq]
    rfl
  have hreg : addProtocol P false (init dump) =
      { Dump := dump, ProtocolMap := [(P, false)], Protocols := [P], PermanentRules := [],
        RequirementRules := [] } := by
    simp [addProtocol, init, DenseMap.count, DenseMap.find, DenseMap.set,
      DenseMap.findAndConstruct]
  simp only [addRequirements, registerConformanceProtocols, List.foldl_cons, List.foldl_nil, hreg,
    collectRulesFromReferencedProtocols, discoverProtocols, List.length_singleton,
    Nat.lt_one_iff, zero_add, dite_true, List.getElem_cons_zero, hdeps,
    List.foldlM_cons, List.foldlM_nil, addProtocolRules_eq, addRequirement_eq]
  simp [protocolPermanentRules, protocolRequirementRules, protocolRequirements, hassoc, hflat,
    hsig, DenseMap.get_eq, DenseMap.find_cons, selfRule, requirementRule,
    requirementPermanentRules]

/-- C2, worked example: generic parameter `τ_0_0` and protocol 0 of the example
context. -/
theorem addRequirements_single_conformance_witness :
    ∃ b,
      addRequirements exampleContext 2 [.Conformance (.genericTypeParam 0 0) 0] (init false) =
        some b ∧
      b.PermanentRules = [([Symbol.Protocol 0, Symbol.Protocol 0], [Symbol.Protocol 0])] ∧
      b.RequirementRules =
        [([Symbol.GenericParam 0 0], [Symbol.GenericParam 0 0, Symbol.Protocol 0])] :=
  addRequirements_single_conformance exampleContext false 2 0 0 0 (by decide) (by decide)
    (by decide) (by decide) (by decide)

/-- C2, as stated, fails: for the generic parameter `τ_0_0` and protocol 0 of
the example context the requirement-derived rule that `addRequirements` stores
is the pair `(T, T.[P])`, not the pair `(T.[P], T)`. -/
theorem addRequirements_single_conformance_counterexample :
    (addRequirements exampleContext 2 [.Conformance (.genericTypeParam 0 0) 0]
        (init false)).map RuleBuilder.RequirementRules =
      some [([Symbol.GenericParam 0 0], [Symbol.GenericParam 0 0, Symbol.Protocol 0])] ∧
    ¬ ((addRequirements exampleContext 2 [.Conformance (.genericTypeParam 0 0) 0]
        (init false)).map RuleBuilder.RequirementRules =
      some [([Symbol.GenericParam 0 0, Symbol.Protocol 0], [Symbol.GenericParam 0 0])]) := by
  decide

/-- C6: in a finite protocol dependency graph (all seeds lie in a finite list of
protocols closed under `getProtocolDependencies`), on a fresh builder in which
seed protocols have been registered, the discovery loop of
`collectRulesFromReferencedProtocols` returns for every fuel above the size of
the graph, and the visitation list it leaves has no protocol twice and holds
exactly the protocols reachable from the seeds by zero or more
`getProtocolDependencies` steps. -/
theorem discoverProtocols_reachable (ctx : RewriteContext) (dump : Bool)
    (seeds : List (ProtocolDecl × Bool)) (univ : List ProtocolDecl)
    (hseeds : ∀ s ∈ seeds, s.1 ∈ univ)
    (hclosed : ∀ p ∈ univ, ∀ d ∈ ctx.getProtocolDependencies p, d ∈ univ) :
    ∃ b1,
      (∀ fuel, univ.length + 1 ≤ fuel →
        discoverProtocols ctx fuel 0
          (seeds.foldl (fun b s => addProtocol s.1 s.2 b) (init dump)) = some b1) ∧
      b1.Protocols.Nodup ∧
      ∀ p, p ∈ b1.Protocols ↔ Reachable ctx (seeds.map Prod.fst) p := by
  obtain ⟨b1, hrun, hwf, hreach, _⟩ := discover_seeds ctx dump seeds univ hseeds hclosed
  exact ⟨b1, hrun, hwf.1, hreach⟩

/-- C6, worked example: in the example context, from the seed protocol 1 the
loop leaves the list `[1, 2]`. -/
theorem discoverProtocols_reachable_witness :
    (∃ b1,
      (∀ fuel, [1, 2].length + 1 ≤ fuel →
        discoverProtocols exampleContext fuel 0
          ([(1, true)].foldl (fun b s => addProtocol s.1 s.2 b) (init false)) = some b1) ∧
      b1.Protocols.Nodup ∧
      ∀ p, p ∈ b1.Protocols ↔ Reachable exampleContext ([(1, true)].map Prod.fst) p) ∧
    (discoverProtocols exampleContext 3 0
        ([(1, true)].foldl (fun b s => addProtocol s.1 s.2 b) (init false))).map
      RuleBuilder.Protocols = some [1, 2] :=
  ⟨discoverProtocols_reachable exampleContext false [(1, true)] [1, 2] (by decide) (by decide),
    by decide⟩

/-- C7: in a finite protocol dependency graph, on a fresh builder,
`addProtocols(protos)` returns with every registered protocol marked initial
exactly when it is an element of `protos`, and with the requirement-derived
rules of every registered protocol, in list order, taken from its structural
requirements when it is an element of `protos` and from its requirement
signature otherwise; a dependency `Q` of an input protocol that is not itself
in the input is registered as non-initial. `addRequirements(reqs)` returns with
every registered protocol marked non-initial and the requirement-derived rules
of every registered protocol taken from its requirement signature, followed by
the rules of the top-level requirements. -/
theorem initial_flag_selects_requirements (ctx : RewriteContext) (dump : Bool)
    (protos : List ProtocolDecl) (reqs : List Requirement) (univ : List ProtocolDecl)
    (hprotos : ∀ p ∈ protos, p ∈ univ)
    (hreqs : ∀ p ∈ conformanceProtocols reqs, p ∈ univ)
    (hclosed : ∀ p ∈ univ, ∀ d ∈ ctx.getProtocolDependencies p, d ∈ univ) :
    (∃ b1,
      (∀ fuel, univ.length + 1 ≤ fuel → addProtocols ctx fuel protos (init dump) = some b1) ∧
      (∀ p ∈ b1.Protocols, b1.ProtocolMap.find p = some (decide (p ∈ protos))) ∧
      b1.RequirementRules =
        b1.Protocols.flatMap (fun p =>
          if p ∈ protos then
            (ctx.getStructuralRequirements p).map
              (fun r => requirementRule ctx (some p) (ctx.getCanonical r.req))
          else
            (ctx.getRequirementSignature p).map
              (fun r => requirementRule ctx (some p) (ctx.getCanonical r))) ∧
      (∀ P Q, P ∈ protos → Q ∈ ctx.getProtocolDependencies P → Q ∉ protos →
        Q ∈ b1.Protocols ∧ b1.ProtocolMap.find Q = some false)) ∧
    (∃ b2,
      (∀ fuel, univ.length + 1 ≤ fuel → addRequirements ctx fuel reqs (init dump) = some b2) ∧
      (∀ p ∈ b2.Protocols, b2.ProtocolMap.find p = some false) ∧
      b2.RequirementRules =
        b2.Protocols.flatMap (fun p =>
          (ctx.getRequirementSignature p).map
            (fun r => requirementRule ctx (some p) (ctx.getCanonical r))) ++
          reqs.map (requirementRule ctx none) ∧
      (∀ P Q, P ∈ conformanceProtocols reqs → Q ∈ ctx.getProtocolDependencies P →
        Q ∈ b2.Protocols ∧ b2.ProtocolMap.find Q = some false)) := by
  constructor
  · obtain ⟨b1, hrun, hwf, hreach, _, hflags, hperm, hreq⟩ :=
      discover_seeds ctx dump (protos.map (fun d => (d, true))) univ
        (by simpa using hprotos) hclosed
    simp only [List.map_map, Function.comp_def, List.map_id_fun', id_eq,
      DenseMap.find_map_const] at hreach hflags
    have hflags1 : ∀ p ∈ b1.Protocols, b1.ProtocolMap.find p = some (decide (p ∈ protos)) := by
      intro p hp
      rw [hflags p hp]
      by_cases h : p ∈ protos <;> simp [h]
    have hwfseed := foldl_addProtocol_wellFormed (protos.map (fun d => (d, true))) _
      (init_wellFormed dump)
    have hrules := foldl_addProtocol_rules (protos.map (fun d => (d, true))) (init dump)
    refine ⟨{ b1 with
        PermanentRules := b1.Protocols.flatMap
          (fun p => protocolPermanentRules ctx (b1.ProtocolMap.get p) p)
        RequirementRules := b1.Protocols.flatMap
          (fun p => protocolRequirementRules ctx (b1.ProtocolMap.get p) p) }, ?_, hflags1, ?_, ?_⟩
    · intro fuel hfuel
      unfold addProtocols
      dsimp only
      rw [foldl_addProtocol_const, collect_of_discover ctx fuel _ b1 hwfseed (hrun fuel hfuel),
        hrules.1, hrules.2.1]
      rfl
    · apply flatMap_congr_mem
      intro p hp
      rw [DenseMap.get_eq, hflags1 p hp]
      by_cases h : p ∈ protos <;>
        simp [h, protocolRequirementRules, protocolRequirements, List.map_map,
          Function.comp_def]
    · intro P Q hP hQ hQn
      have hQmem : Q ∈ b1.Protocols :=
        (hreach Q).2 (reachable_step ctx protos P Q (reachable_seed ctx protos P hP) hQ)
      refine ⟨hQmem, ?_⟩
      rw [hflags1 Q hQmem]
      simp [hQn]
  · obtain ⟨b1, hrun, hwf, hreach, _, hflags, hperm, hreq⟩ :=
      discover_seeds ctx dump ((conformanceProtocols reqs).map (fun d => (d, false))) univ
        (by simpa using hreqs) hclosed
    simp only [List.map_map, Function.comp_def, List.map_id_fun', id_eq,
      DenseMap.find_map_const] at hreach hflags
    have hflags1 : ∀ p ∈ b1.Protocols, b1.ProtocolMap.find p = some false := by
      intro p hp
      rw [hflags p hp]
      by_cases h : p ∈ conformanceProtocols reqs <;> simp [h]
    have hwfseed := foldl_addProtocol_wellFormed
      ((conformanceProtocols reqs).map (fun d => (d, false))) _ (init_wellFormed dump)
    have hrules := foldl_addProtocol_rules
      ((conformanceProtocols reqs).map (fun d => (d, false))) (init dump)
    refine ⟨{ b1 with
        PermanentRules := b1.Protocols.flatMap
            (fun p => protocolPermanentRules ctx (b1.ProtocolMap.get p) p) ++
          reqs.flatMap (requirementPermanentRules ctx none)
        RequirementRules := b1.Protocols.flatMap
            (fun p => protocolRequirementRules ctx (b1.ProtocolMap.get p) p) ++
          reqs.map (requirementRule ctx none) }, ?_, hflags1, ?_, ?_⟩
    · intro fuel hfuel
      unfold addRequirements
      dsimp only
      rw [register_conformances,
        collect_of_discover ctx fuel _ b1 hwfseed (hrun fuel hfuel), hrules.1, hrules.2.1]
      dsimp only
      rw [foldlM_addRequirement ctx none (fun r => r)]
      simp [init]
    · dsimp only
      congr 1
      apply flatMap_congr_mem
      intro p hp
      rw [DenseMap.get_eq, hflags1 p hp]
      simp [protocolRequirementRules, protocolRequirements, List.map_map, Function.comp_def]
    · intro P Q hP hQ
      have hQmem : Q ∈ b1.Protocols :=
        (hreach Q).2 (reachable_step ctx _ P Q (reachable_seed ctx _ P hP) hQ)
      exact ⟨hQmem, hflags1 Q hQmem⟩

/-- C7, worked example: in the example context protocol 1 depends on protocol
2; built from protocol 1 alone, protocol 2 is registered as non-initial and its
rule is the one of its requirement signature (the `Class` layout), not the one
of its structural requirements (the `NativeClass` layout). -/
theorem initial_flag_selects_requirements_witness :
    (∃ b1,
      addProtocols exampleContext 3 [1] (init false) = some b1 ∧
      2 ∈ b1.Protocols ∧ b1.ProtocolMap.find 2 = some false) ∧
    (addProtocols exampleContext 3 [1] (init false)).map RuleBuilder.RequirementRules =
      some [([Symbol.Protocol 2],
        [Symbol.Protocol 2,
          Symbol.Layout (LayoutConstraint.getLayoutConstraint LayoutConstraintKind.Class)])] ∧
    (addProtocols exampleContext 3 [2] (init false)).map RuleBuilder.RequirementRules =
      some [([Symbol.Protocol 2],
        [Symbol.Protocol 2,
          Symbol.Layout (LayoutConstraint.getLayoutConstraint LayoutConstraintKind.NativeClass)])] :=
  ⟨(match initial_flag_selects_requirements exampleContext false [1]
        [.Conformance (.genericTypeParam 0 0) 1] [1, 2] (by decide) (by decide) (by decide) with
    | ⟨⟨b1, hrun, _, _, hdep⟩, _⟩ =>
      ⟨b1, hrun 3 (by decide), (hdep 1 2 (by decide) (by decide) (by decide)).1,
        (hdep 1 2 (by decide) (by decide) (by decide)).2⟩),
    by decide, by decide⟩

/-- C8: `addProtocol(P, flag)` on a builder in which `P` is already registered
returns the builder unchanged, so `P` keeps the flag of its first registration,
the visitation list is not extended and no rule is added; after
`addProtocol(P, a)` the protocol is registered; hence `addProtocol(P, a);
addProtocol(P, b); collectRulesFromReferencedProtocols()` gives the same result,
and so the same permanent and requirement-derived rules, as `addProtocol(P, a);
collectRulesFromReferencedProtocols()`. -/
theorem addProtocol_registered_noop :
    (∀ (b : RuleBuilder) (P : ProtocolDecl) (flag : Bool),
      b.ProtocolMap.count P > 0 → addProtocol P flag b = b) ∧
    (∀ (b : RuleBuilder) (P : ProtocolDecl) (a : Bool),
      (addProtocol P a b).ProtocolMap.count P > 0) ∧
    (∀ (ctx : RewriteContext) (fuel : Nat) (b : RuleBuilder) (P : ProtocolDecl) (a c : Bool),
      collectRulesFromReferencedProtocols ctx fuel (addProtocol P c (addProtocol P a b)) =
        collectRulesFromReferencedProtocols ctx fuel (addProtocol P a b)) := by
  have h1 : ∀ (b : RuleBuilder) (P : ProtocolDecl) (flag : Bool),
      b.ProtocolMap.count P > 0 → addProtocol P flag b = b := by
    intro b P flag h
    exact addProtocol_of_registered P flag b ((DenseMap.count_pos_iff _ _).1 h)
  have h2 : ∀ (b : RuleBuilder) (P : ProtocolDecl) (a : Bool),
      (addProtocol P a b).ProtocolMap.count P > 0 := by
    intro b P a
    rw [DenseMap.count_pos_iff, addProtocol_find]
    cases hf : b.ProtocolMap.find P <;> simp
  refine ⟨h1, h2, ?_⟩
  intro ctx fuel b P a c
  rw [h1 _ P c (h2 b P a)]

/-- C8, worked example: protocol 1 registered as non-initial on a fresh builder
stays non-initial when registered again as initial, and the rules collected
are those of the single registration. -/
theorem addProtocol_registered_noop_witness :
    addProtocol 1 true (addProtocol 1 false (init false)) = addProtocol 1 false (init false) ∧
    (addProtocol 1 true (addProtocol 1 false (init false))).ProtocolMap.find 1 = some false ∧
    collectRulesFromReferencedProtocols exampleContext 3
        (addProtocol 1 true (addProtocol 1 false (init false))) =
      collectRulesFromReferencedProtocols exampleContext 3 (addProtocol 1 false (init false)) :=
  ⟨addProtocol_registered_noop.1 _ 1 true (by decide), by decide,
    addProtocol_registered_noop.2.2 exampleContext 3 (init false) 1 false true⟩

/-- C9 (as the code has it): for every sequence of builder operations applied
to the fresh builder in which `collectRulesFromReferencedProtocols` runs at most
once, directly or through `addRequirements` or `addProtocols`, and that
returns, the permanent rule `[P].[P] => [P]` of every protocol `P` occurs at
most once in `PermanentRules`. -/
theorem selfRule_at_most_once (ctx : RewriteContext) (fuel : Nat) (dump : Bool)
    (ops : List Operation) (b : RuleBuilder) (P : ProtocolDecl)
    (hops : (ops.filter Operation.collects).length ≤ 1)
    (hrun : runOperations ctx fuel ops (init dump) = some b) :
    b.PermanentRules.count
      ([Symbol.Protocol P, Symbol.Protocol P], [Symbol.Protocol P]) ≤ 1 :=
  runOperations_count_selfRule ctx fuel P ops (init dump) b (init_wellFormed dump) rfl hops hrun

/-- C9, worked example: registering protocols 1 and 2, then `addRequirements`
with a conformance to protocol 1, then registering protocol 0. -/
theorem selfRule_at_most_once_witness :
    (([Operation.addProtocol 1 true, Operation.addProtocol 2 false,
        Operation.addRequirements [.Conformance (.genericTypeParam 0 0) 1],
        Operation.addProtocol 0 false].filter Operation.collects).length ≤ 1) ∧
    (runOperations exampleContext 3
        [Operation.addProtocol 1 true, Operation.addProtocol 2 false,
          Operation.addRequirements [.Conformance (.genericTypeParam 0 0) 1],
          Operation.addProtocol 0 false] (init false)).isSome = true ∧
    ∀ b, runOperations exampleContext 3
        [Operation.addProtocol 1 true, Operation.addProtocol 2 false,
          Operation.addRequirements [.Conformance (.genericTypeParam 0 0) 1],
          Operation.addProtocol 0 false] (init false) = some b →
      b.PermanentRules.count
        ([Symbol.Protocol 2, Symbol.Protocol 2], [Symbol.Protocol 2]) ≤ 1 :=
  ⟨by decide, by decide, fun b hb =>
    selfRule_at_most_once exampleContext 3 false _ b 2 (by decide) hb⟩

/-- C9, as stated, fails: `addProtocols([0])` followed by
`collectRulesFromReferencedProtocols()` on a fresh builder returns with the rule
`[P].[P] => [P]` of protocol 0 twice in `PermanentRules`. -/
theorem selfRule_at_most_once_counterexample :
    (runOperations exampleContext 2
        [Operation.addProtocols [0], Operation.collectRulesFromReferencedProtocols]
        (init false)).map
      (fun b => b.PermanentRules.count
        ([Symbol.Protocol 0, Symbol.Protocol 0], [Symbol.Protocol 0])) = some 2 := by
  decide

/-- C10: in a finite protocol dependency graph, on a fresh builder, the first
loop of `addRequirements(reqs)` registers the protocols of the conformance
requirements of `reqs` in order of first occurrence; `addRequirements(reqs)`
returns with a visitation list that starts with these seeds, and with
`RequirementRules` made of the rules of the requirement signatures of the
listed protocols, in list order, followed by one rule per element of `reqs`, in
the order of `reqs`, each built with a null `proto`; so its last `length(reqs)`
entries are the rules of `reqs` in order. -/
theorem addRequirements_rule_order (ctx : RewriteContext) (dump : Bool)
    (reqs : List Requirement) (univ : List ProtocolDecl)
    (hreqs : ∀ p ∈ conformanceProtocols reqs, p ∈ univ)
    (hclosed : ∀ p ∈ univ, ∀ d ∈ ctx.getProtocolDependencies p, d ∈ univ) :
    (registerConformanceProtocols reqs (init dump)).Protocols =
      firstOccurrences (conformanceProtocols reqs) ∧
    ∃ b,
      (∀ fuel, univ.length + 1 ≤ fuel → addRequirements ctx fuel reqs (init dump) = some b) ∧
      (∃ rest, b.Protocols = firstOccurrences (conformanceProtocols reqs) ++ rest) ∧
      b.RequirementRules =
        b.Protocols.flatMap (fun p =>
          (ctx.getRequirementSignature p).map
            (fun r => requirementRule ctx (some p) (ctx.getCanonical r))) ++
          reqs.map (fun r =>
            (ctx.getMutableTermForType r.getFirstType none, (requirementRule ctx none r).2)) ∧
      b.RequirementRules.drop (b.RequirementRules.length - reqs.length) =
        reqs.map (requirementRule ctx none) := by
  constructor
  · rw [register_conformances,
      foldl_addProtocol_protocols _ _ (init_wellFormed dump)]
    simp [init, Function.comp_def]
  · obtain ⟨b1, hrun, hwf, hreach, hprefix, hflags, hperm, hreq⟩ :=
      discover_seeds ctx dump ((conformanceProtocols reqs).map (fun d => (d, false))) univ
        (by simpa using hreqs) hclosed
    simp only [List.map_map, Function.comp_def, List.map_id_fun', id_eq,
      DenseMap.find_map_const] at hreach hflags hprefix
    have hflags1 : ∀ p ∈ b1.Protocols, b1.ProtocolMap.find p = some false := by
      intro p hp
      rw [hflags p hp]
      by_cases h : p ∈ conformanceProtocols reqs <;> simp [h]
    have hwfseed := foldl_addProtocol_wellFormed
      ((conformanceProtocols reqs).map (fun d => (d, false))) _ (init_wellFormed dump)
    have hrules := foldl_addProtocol_rules
      ((conformanceProtocols reqs).map (fun d => (d, false))) (init dump)
    have hfirst : ∀ r : Requirement,
        (ctx.getMutableTermForType r.getFirstType none, (requirementRule ctx none r).2) =
          requirementRule ctx none r := by
      intro r
      cases r with
      | SameType t u =>
        by_cases hu : u.isTypeParameter = true <;>
          simp [requirementRule, Requirement.getFirstType, hu]
      | _ => rfl
    have hsig : b1.Protocols.flatMap
          (fun p => protocolRequirementRules ctx (b1.ProtocolMap.get p) p) =
        b1.Protocols.flatMap (fun p =>
          (ctx.getRequirementSignature p).map
            (fun r => requirementRule ctx (some p) (ctx.getCanonical r))) := by
      apply flatMap_congr_mem
      intro p hp
      rw [DenseMap.get_eq, hflags1 p hp]
      simp [protocolRequirementRules, protocolRequirements, List.map_map, Function.comp_def]
    refine ⟨{ b1 with
        PermanentRules := b1.Protocols.flatMap
            (fun p => protocolPermanentRules ctx (b1.ProtocolMap.get p) p) ++
          reqs.flatMap (requirementPermanentRules ctx none)
        RequirementRules := b1.Protocols.flatMap
            (fun p => protocolRequirementRules ctx (b1.ProtocolMap.get p) p) ++
          reqs.map (requirementRule ctx none) }, ?_, hprefix, ?_, ?_⟩
    · intro fuel hfuel
      unfold addRequirements
      dsimp only
      rw [register_conformances,
        collect_of_discover ctx fuel _ b1 hwfseed (hrun fuel hfuel), hrules.1, hrules.2.1]
      dsimp only
      rw [foldlM_addRequirement ctx none (fun r => r)]
      simp [init]
    · dsimp only
      rw [hsig]
      simp only [hfirst]
    · dsimp only
      rw [List.length_append, List.length_map, Nat.add_sub_cancel, List.drop_left']
      rfl

/-- C10, worked example: in the example context, `addRequirements` with a
layout requirement on `τ_0_1` and a conformance of `τ_0_0` to protocol 1 gives
the rule of the requirement signature of protocol 2, then the rules of the two
requirements in order. -/
theorem addRequirements_rule_order_witness :
    (∃ b,
      addRequirements exampleContext 3
          [.Layout (.genericTypeParam 0 1) (LayoutConstraint.getLayoutConstraint .Trivial),
            .Conformance (.genericTypeParam 0 0) 1] (init false) = some b ∧
      ∃ rest, b.Protocols = [1] ++ rest) ∧
    (addRequirements exampleContext 3
        [.Layout (.genericTypeParam 0 1) (LayoutConstraint.getLayoutConstraint .Trivial),
          .Conformance (.genericTypeParam 0 0) 1] (init false)).map
      RuleBuilder.RequirementRules =
      some [([Symbol.Protocol 2],
          [Symbol.Protocol 2,
            Symbol.Layout (LayoutConstraint.getLayoutConstraint LayoutConstraintKind.Class)]),
        ([Symbol.GenericParam 0 1],
          [Symbol.GenericParam 0 1,
            Symbol.Layout (LayoutConstraint.getLayoutConstraint LayoutConstraintKind.Trivial)]),
        ([Symbol.GenericParam 0 0], [Symbol.GenericParam 0 0, Symbol.Protocol 1])] :=
  ⟨(match (addRequirements_rule_order exampleContext false
        [.Layout (.genericTypeParam 0 1) (LayoutConstraint.getLayoutConstraint .Trivial),
          .Conformance (.genericTypeParam 0 0) 1] [1, 2] (by decide) (by decide)).2 with
    | ⟨b, hrun, hprefix, _, _⟩ => ⟨b, hrun 3 (by decide), hprefix⟩),
    by decide⟩

/-- C11: for every protocol `P`, the loop body of
`collectRulesFromReferencedProtocols` appends to `PermanentRules`, in this
order, the rule `[P].[P] => [P]`, one rule `[P].A => [P:A]` for each associated
type `A` that `P` declares, and one rule `[P].A => [P:A]` for each associated
type `A` of each protocol `P` inherits from, both symbols naming `P`; the layout
rules of the superclass requirements of `P` follow. The whole operation appends
these rules for the protocols of the visitation list in list order. -/
theorem collect_permanent_rules_order (ctx : RewriteContext) :
    (∀ (P : ProtocolDecl) (b : RuleBuilder),
      ∃ b1,
        addProtocolRules ctx P b = some b1 ∧
        b1.PermanentRules =
          b.PermanentRules ++
            (([Symbol.Protocol P, Symbol.Protocol P], [Symbol.Protocol P]) ::
              ((ctx.getAssociatedTypeMembers P).map
                  (fun A => ([Symbol.Protocol P, Symbol.Name A.getName],
                    [Symbol.AssociatedType [P] A.getName])) ++
                (ctx.getInheritedProtocols P).flatMap
                  (fun Q => (ctx.getAssociatedTypeMembers Q).map
                    (fun A => ([Symbol.Protocol P, Symbol.Name A.getName],
                      [Symbol.AssociatedType [P] A.getName])))) ++
              (protocolRequirements ctx (b.ProtocolMap.get P) P).flatMap
                (requirementPermanentRules ctx (some P)))) ∧
    (∀ (fuel : Nat) (b b1 : RuleBuilder), discoverProtocols ctx fuel 0 b = some b1 →
      ∃ b2,
        collectRulesFromReferencedProtocols ctx fuel b = some b2 ∧
        b2.Protocols = b1.Protocols ∧
        b2.PermanentRules =
          b.PermanentRules ++
            b1.Protocols.flatMap
              (fun P =>
                ([Symbol.Protocol P, Symbol.Protocol P], [Symbol.Protocol P]) ::
                  ((ctx.getAssociatedTypeMembers P).map
                      (fun A => ([Symbol.Protocol P, Symbol.Name A.getName],
                        [Symbol.AssociatedType [P] A.getName])) ++
                    (ctx.getInheritedProtocols P).flatMap
                      (fun Q => (ctx.getAssociatedTypeMembers Q).map
                        (fun A => ([Symbol.Protocol P, Symbol.Name A.getName],
                          [Symbol.AssociatedType [P] A.getName])))) ++
                  (protocolRequirements ctx (b1.ProtocolMap.get P) P).flatMap
                    (requirementPermanentRules ctx (some P)))) := by
  have hrules : ∀ (flag : Bool) (P : ProtocolDecl),
      protocolPermanentRules ctx flag P =
        ([Symbol.Protocol P, Symbol.Protocol P], [Symbol.Protocol P]) ::
          ((ctx.getAssociatedTypeMembers P).map
              (fun A => ([Symbol.Protocol P, Symbol.Name A.getName],
                [Symbol.AssociatedType [P] A.getName])) ++
            (ctx.getInheritedProtocols P).flatMap
              (fun Q => (ctx.getAssociatedTypeMembers Q).map
                (fun A => ([Symbol.Protocol P, Symbol.Name A.getName],
                  [Symbol.AssociatedType [P] A.getName])))) ++
          (protocolRequirements ctx flag P).flatMap
            (requirementPermanentRules ctx (some P)) := by
    intro flag P
    rfl
  constructor
  · intro P b
    refine ⟨_, addProtocolRules_eq ctx P b, ?_⟩
    dsimp only
    rw [hrules]
  · intro fuel b b1 hd
    refine ⟨_, collect_eq_general ctx fuel b b1 hd, rfl, ?_⟩
    dsimp only
    simp only [hrules]

/-- C11, worked example: in the context where protocol 1 inherits from protocol
2 and protocol 2 declares the associated type 5, building from protocol 1 gives
the rule `[1].[1] => [1]`, the inherited rule `[1].5 => [1:5]` rooted at
protocol 1, then `[2].[2] => [2]` and the rule `[2].5 => [2:5]`. -/
theorem collect_permanent_rules_order_witness :
    (addProtocols inheritingContext 3 [1] (init false)).map RuleBuilder.PermanentRules =
      some [([Symbol.Protocol 1, Symbol.Protocol 1], [Symbol.Protocol 1]),
        ([Symbol.Protocol 1, Symbol.Name 5], [Symbol.AssociatedType [1] 5]),
        ([Symbol.Protocol 2, Symbol.Protocol 2], [Symbol.Protocol 2]),
        ([Symbol.Protocol 2, Symbol.Name 5], [Symbol.AssociatedType [2] 5])] := by
  decide

/-- C18: every operation of the rule builder only appends rules: when
`addRequirements`, `addProtocols`, `addProtocol`, `addAssociatedType`,
`addRequirement` or `collectRulesFromReferencedProtocols` takes a builder to
another, the permanent rules and the requirement-derived rules of the first
are initial segments of those of the second. -/
theorem operations_append_only (ctx : RewriteContext) :
    (∀ (fuel : Nat) (reqs : List Requirement) (b b1 : RuleBuilder),
      addRequirements ctx fuel reqs b = some b1 →
        (∃ added, b1.PermanentRules = b.PermanentRules ++ added) ∧
          ∃ added, b1.RequirementRules = b.RequirementRules ++ added) ∧
    (∀ (fuel : Nat) (protos : List ProtocolDecl) (b b1 : RuleBuilder),
      addProtocols ctx fuel protos b = some b1 →
        (∃ added, b1.PermanentRules = b.PermanentRules ++ added) ∧
          ∃ added, b1.RequirementRules = b.RequirementRules ++ added) ∧
    (∀ (proto : ProtocolDecl) (flag : Bool) (b : RuleBuilder),
      (addProtocol proto flag b).PermanentRules = b.PermanentRules ∧
        (addProtocol proto flag b).RequirementRules = b.RequirementRules) ∧
    (∀ (type : AssociatedTypeDecl) (proto : ProtocolDecl) (b : RuleBuilder),
      (∃ added, (addAssociatedType type proto b).PermanentRules = b.PermanentRules ++ added) ∧
        (addAssociatedType type proto b).RequirementRules = b.RequirementRules) ∧
    (∀ (req : Requirement) (proto : Option ProtocolDecl) (b : RuleBuilder),
      ∃ b1, addRequirement ctx req proto b = some b1 ∧
        (∃ added, b1.PermanentRules = b.PermanentRules ++ added) ∧
          ∃ added, b1.RequirementRules = b.RequirementRules ++ added) ∧
    (∀ (fuel : Nat) (b b1 : RuleBuilder),
      collectRulesFromReferencedProtocols ctx fuel b = some b1 →
        (∃ added, b1.PermanentRules = b.PermanentRules ++ added) ∧
          ∃ added, b1.RequirementRules = b.RequirementRules ++ added) := by
  refine ⟨?_, ?_, ?_, ?_, ?_, ?_⟩
  · intro fuel reqs b b1 h
    unfold addRequirements at h
    dsimp only at h
    rw [register_conformances] at h
    have hr := foldl_addProtocol_rules ((conformanceProtocols reqs).map (fun d => (d, false))) b
    cases hc : collectRulesFromReferencedProtocols ctx fuel
        (((conformanceProtocols reqs).map (fun d => (d, false))).foldl
          (fun b s => addProtocol s.1 s.2 b) b) with
    | none =>
      rw [hc] at h
      cases h
    | some b2 =>
      rw [hc] at h
      dsimp only at h
      rw [foldlM_addRequirement ctx none (fun r => r)] at h
      obtain ⟨⟨p, hp⟩, ⟨r, hr2⟩⟩ := collect_appends ctx fuel _ b2 hc
      cases h
      dsimp only
      rw [hp, hr2, hr.1, hr.2.1, List.append_assoc, List.append_assoc]
      exact ⟨⟨_, rfl⟩, ⟨_, rfl⟩⟩
  · intro fuel protos b b1 h
    unfold addProtocols at h
    dsimp only at h
    rw [foldl_addProtocol_const] at h
    have hr := foldl_addProtocol_rules (protos.map (fun d => (d, true))) b
    obtain ⟨⟨p, hp⟩, ⟨r, hr2⟩⟩ := collect_appends ctx fuel _ b1 h
    rw [hp, hr2, hr.1, hr.2.1]
    exact ⟨⟨_, rfl⟩, ⟨_, rfl⟩⟩
  · intro proto flag b
    exact ⟨(addProtocol_rules proto flag b).1, (addProtocol_rules proto flag b).2.1⟩
  · intro type proto b
    exact ⟨⟨_, rfl⟩, rfl⟩
  · intro req proto b
    exact ⟨_, addRequirement_eq ctx req proto b, ⟨_, rfl⟩, ⟨_, rfl⟩⟩
  · intro fuel b b1 h
    exact collect_appends ctx fuel b b1 h

/-- C18, worked example: `addRequirements` on a builder that already holds a
permanent and a requirement-derived rule keeps both in front. -/
theorem operations_append_only_witness :
    (addRequirements exampleContext 3 [.Conformance (.genericTypeParam 0 0) 1]
        { Dump := false, ProtocolMap := [], Protocols := [],
          PermanentRules := [([Symbol.Name 7], [Symbol.Name 8])],
          RequirementRules := [([Symbol.Name 9], [])] }).map
      (fun b => (b.PermanentRules.take 1, b.RequirementRules.take 1,
        b.PermanentRules.length, b.RequirementRules.length)) =
      some ([([Symbol.Name 7], [Symbol.Name 8])], [([Symbol.Name 9], [])], 4, 3) := by
  decide

/-- C20: in a finite protocol dependency graph, on a fresh builder in which
the seed protocols have been registered, the discovery loop returns with a
visitation list that starts with the seeds in registration order (each at its
first registration), in which every protocol has a dependency distance from
the seed set, and that is in non-decreasing order of that distance;
`collectRulesFromReferencedProtocols` then returns with the same list and with
the permanent and requirement-derived rules of the listed protocols appended in
list order. -/
theorem discovery_breadth_first (ctx : RewriteContext) (dump : Bool)
    (seeds : List (ProtocolDecl × Bool)) (univ : List ProtocolDecl)
    (hseeds : ∀ s ∈ seeds, s.1 ∈ univ)
    (hclosed : ∀ p ∈ univ, ∀ d ∈ ctx.getProtocolDependencies p, d ∈ univ) :
    ∃ b1 b2,
      (∀ fuel, univ.length + 1 ≤ fuel →
        discoverProtocols ctx fuel 0
          (seeds.foldl (fun b s => addProtocol s.1 s.2 b) (init dump)) = some b1) ∧
      (∃ rest, b1.Protocols = firstOccurrences (seeds.map Prod.fst) ++ rest) ∧
      (∀ p ∈ b1.Protocols, ∃ n, IsDistance ctx (seeds.map Prod.fst) p n) ∧
      b1.Protocols.Pairwise (DistanceLe ctx (seeds.map Prod.fst)) ∧
      (∀ fuel, univ.length + 1 ≤ fuel →
        collectRulesFromReferencedProtocols ctx fuel
          (seeds.foldl (fun b s => addProtocol s.1 s.2 b) (init dump)) = some b2) ∧
      b2.Protocols = b1.Protocols ∧
      b2.PermanentRules =
        b1.Protocols.flatMap (fun p => protocolPermanentRules ctx (b1.ProtocolMap.get p) p) ∧
      b2.RequirementRules =
        b1.Protocols.flatMap (fun p => protocolRequirementRules ctx (b1.ProtocolMap.get p) p) := by
  obtain ⟨b1, hrun, hwf, hreach, hprefix, _, _, _⟩ :=
    discover_seeds ctx dump seeds univ hseeds hclosed
  have hinv := discoveryInvariant_seeds ctx dump seeds
  have hwf0 := foldl_addProtocol_wellFormed seeds (init dump) (init_wellFormed dump)
  have hrules := foldl_addProtocol_rules seeds (init dump)
  have hprot0 := foldl_addProtocol_protocols seeds (init dump) (init_wellFormed dump)
  have hbfs0 : BreadthFirstInvariant ctx (seeds.map Prod.fst) 0
      (seeds.foldl (fun b s => addProtocol s.1 s.2 b) (init dump)).Protocols := by
    rw [hprot0]
    simpa [init] using breadthFirstInvariant_seeds ctx (seeds.map Prod.fst)
  refine ⟨b1,
    { b1 with
      PermanentRules :=
        b1.Protocols.flatMap (fun p => protocolPermanentRules ctx (b1.ProtocolMap.get p) p)
      RequirementRules :=
        b1.Protocols.flatMap (fun p => protocolRequirementRules ctx (b1.ProtocolMap.get p) p) },
    hrun, hprefix, ?_, ?_, ?_, rfl, rfl, rfl⟩
  · intro p hp
    exact isDistance_of_reachable ctx _ p ((hreach p).1 hp)
  · exact discoverProtocols_breadthFirst ctx _ _ 0 _ b1 hinv hbfs0 (hrun _ (le_refl _))
  · intro fuel hfuel
    rw [collect_of_discover ctx fuel _ b1 hwf0 (hrun fuel hfuel), hrules.1, hrules.2.1]
    rfl

/-- C20, worked example: in the branching graph, from the seed protocol 10 the
list is `[10, 11, 12, 13, 14]`: both protocols at distance 1 come before the
protocols at distance 2, and the self-reflexivity rules follow the list. -/
theorem discovery_breadth_first_witness :
    (∃ b1 b2,
      discoverProtocols branchingContext 6 0
        ([(10, false)].foldl (fun b s => addProtocol s.1 s.2 b) (init false)) = some b1 ∧
      b1.Protocols.Pairwise (DistanceLe branchingContext ([(10, false)].map Prod.fst)) ∧
      collectRulesFromReferencedProtocols branchingContext 6
        ([(10, false)].foldl (fun b s => addProtocol s.1 s.2 b) (init false)) = some b2 ∧
      b2.Protocols = b1.Protocols) ∧
    (discoverProtocols branchingContext 6 0
        ([(10, false)].foldl (fun b s => addProtocol s.1 s.2 b) (init false))).map
      RuleBuilder.Protocols = some [10, 11, 12, 13, 14] ∧
    (collectRulesFromReferencedProtocols branchingContext 6
        ([(10, false)].foldl (fun b s => addProtocol s.1 s.2 b) (init false))).map
      RuleBuilder.PermanentRules =
      some [([Symbol.Protocol 10, Symbol.Protocol 10], [Symbol.Protocol 10]),
        ([Symbol.Protocol 11, Symbol.Protocol 11], [Symbol.Protocol 11]),
        ([Symbol.Protocol 12, Symbol.Protocol 12], [Symbol.Protocol 12]),
        ([Symbol.Protocol 13, Symbol.Protocol 13], [Symbol.Protocol 13]),
        ([Symbol.Protocol 14, Symbol.Protocol 14], [Symbol.Protocol 14])] :=
  ⟨(match discovery_breadth_first branchingContext false [(10, false)] [10, 11, 12, 13, 14]
        (by decide) (by decide) with
    | ⟨b1, b2, hrun, _, _, hsorted, hcollect, hsame, _⟩ =>
      ⟨b1, b2, hrun 6 (by decide), hsorted, hcollect 6 (by decide), hsame⟩),
    by decide, by decide⟩

/-- C21: the fresh builder has its visitation list free of duplicates and equal
as a set to the keys of `ProtocolMap`, and every operation of the rule builder
(`addProtocol`, `addAssociatedType`, `addRequirement`,
`collectRulesFromReferencedProtocols`, `addRequirements`, `addProtocols`) that
starts from a builder with this invariant ends in one. On such a builder the
lookup `ProtocolMap[proto]` made for a listed protocol inserts no key, the loop
body that emits the rules of a listed protocol changes neither `ProtocolMap` nor
`Protocols`, and neither does the whole rule-emission loop. -/
theorem protocols_invariant_preserved (ctx : RewriteContext) (fuel : Nat) :
    (∀ dump, (init dump).ProtocolsAreKeys) ∧
    ∀ b : RuleBuilder, b.ProtocolsAreKeys →
      (∀ proto flag, (addProtocol proto flag b).ProtocolsAreKeys) ∧
      (∀ type proto, (addAssociatedType type proto b).ProtocolsAreKeys) ∧
      (∀ req proto, ∃ b1, addRequirement ctx req proto b = some b1 ∧ b1.ProtocolsAreKeys) ∧
      (∀ b1, collectRulesFromReferencedProtocols ctx fuel b = some b1 → b1.ProtocolsAreKeys) ∧
      (∀ reqs b1, addRequirements ctx fuel reqs b = some b1 → b1.ProtocolsAreKeys) ∧
      (∀ protos b1, addProtocols ctx fuel protos b = some b1 → b1.ProtocolsAreKeys) ∧
      (∀ proto ∈ b.Protocols,
        b.ProtocolMap.findAndConstruct proto = b.ProtocolMap ∧
        ∃ b1, addProtocolRules ctx proto b = some b1 ∧
          b1.ProtocolMap = b.ProtocolMap ∧ b1.Protocols = b.Protocols) ∧
      ∃ b1, b.Protocols.foldlM (fun b proto => addProtocolRules ctx proto b) b = some b1 ∧
        b1.ProtocolMap = b.ProtocolMap ∧ b1.Protocols = b.Protocols := by
  constructor
  · intro dump
    exact (protocolsAreKeys_iff_wellFormed _).2 (init_wellFormed dump)
  · intro b hb
    have hwf := (protocolsAreKeys_iff_wellFormed b).1 hb
    refine ⟨?_, ?_, ?_, ?_, ?_, ?_, ?_, ?_⟩
    · intro proto flag
      exact (protocolsAreKeys_iff_wellFormed _).2 (addProtocol_wellFormed proto flag b hwf)
    · intro type proto
      exact hb
    · intro req proto
      exact ⟨_, addRequirement_eq ctx req proto b, hb⟩
    · intro b1 h
      obtain ⟨b2, _, hwf2, rfl⟩ := collect_inv ctx fuel b b1 hwf h
      exact (protocolsAreKeys_iff_wellFormed _).2 hwf2
    · intro reqs b1 h
      exact (protocolsAreKeys_iff_wellFormed _).2
        (addRequirements_wellFormed ctx fuel reqs b b1 hwf h)
    · intro protos b1 h
      exact (protocolsAreKeys_iff_wellFormed _).2
        (addProtocols_wellFormed ctx fuel protos b b1 hwf h)
    · intro proto hp
      have hkey := DenseMap.findAndConstruct_of_isSome b.ProtocolMap proto ((hwf.2 proto).1 hp)
      refine ⟨hkey, _, addProtocolRules_eq ctx proto b, ?_, rfl⟩
      exact hkey
    · exact ⟨_, emit_eq ctx b hwf, rfl, rfl⟩

/-- C21, worked example: in the example context, the builder left by
`addProtocols([1])` lists the protocols 1 and 2, the keys of its map, and the
rule emission run on it again keeps the map and the list. -/
theorem protocols_invariant_preserved_witness :
    (∀ b1, addProtocols exampleContext 3 [1] (init false) = some b1 → b1.ProtocolsAreKeys) ∧
    (addProtocols exampleContext 3 [1] (init false)).map
        (fun b => (b.Protocols, b.ProtocolMap.keys)) = some ([1, 2], [1, 2]) ∧
    ((addProtocols exampleContext 3 [1] (init false)).bind
        (fun b => (b.Protocols.foldlM (fun b proto => addProtocolRules exampleContext proto b) b).map
          (fun b1 => decide (b1.ProtocolMap = b.ProtocolMap ∧ b1.Protocols = b.Protocols)))) =
      some true :=
  ⟨((protocols_invariant_preserved exampleContext 3).2 (init false)
      ((protocols_invariant_preserved exampleContext 3).1 false)).2.2.2.2.2.1 [1],
    by decide, by decide⟩

/-- C22: for a concrete type `c` (not a type parameter) and an empty output
list, `getConcreteSubstitutionSchema` returns a schema and the list of the
terms of the collected type-parameter subterms such that substituting, for each
placeholder of depth 0 and index `i` of the schema, the `i`-th collected
subterm gives back `c`, and every type-parameter subterm of the schema is a
placeholder of depth 0 with an index smaller than the length of the list. -/
theorem getConcreteSubstitutionSchema_lossless (ctx : RewriteContext) (c : CanType)
    (proto : Option ProtocolDecl) (hc : c.isTypeParameter = false) :
    ∃ schema result,
      getConcreteSubstitutionSchema ctx c proto [] = some (schema, result) ∧
      result = (maximalTypeParameters c).map (fun p => ctx.getTermForType p proto) ∧
      substitutePlaceholders (maximalTypeParameters c) schema = c ∧
      ∀ s ∈ subterms schema, s.isTypeParameter = true →
        ∃ i, i < result.length ∧ s = CanType.genericTypeParam 0 i := by
  have hs := getConcreteSubstitutionSchema_eq ctx c proto [] hc
  refine ⟨_, _, hs, by simp, ?_, ?_⟩
  · have h := substitute_replace c [] []
    simpa using h
  · intro s hmem hp
    obtain ⟨i, _, hi, hsi⟩ := subterms_replace c 0 s (by simpa using hmem) hp
    exact ⟨i, by simpa using hi, hsi⟩

/-- C22, worked example: for `Foo<X.Y, Array<Z>>` the schema is
`Foo<τ_0_0, Array<τ_0_1>>`, and substituting `X.Y` and `Z` for the placeholders
gives the type back. -/
theorem getConcreteSubstitutionSchema_lossless_witness :
    (CanType.classType 7 [.dependentMember (.genericTypeParam 0 0) 5,
        .structural 9 [.genericTypeParam 0 1]]).isTypeParameter = false ∧
    (∃ schema result,
      getConcreteSubstitutionSchema exampleContext
          (.classType 7 [.dependentMember (.genericTypeParam 0 0) 5,
            .structural 9 [.genericTypeParam 0 1]]) none [] = some (schema, result) ∧
      substitutePlaceholders
          (maximalTypeParameters
            (.classType 7 [.dependentMember (.genericTypeParam 0 0) 5,
              .structural 9 [.genericTypeParam 0 1]])) schema =
        .classType 7 [.dependentMember (.genericTypeParam 0 0) 5,
          .structural 9 [.genericTypeParam 0 1]]) ∧
    substitutePlaceholders [.dependentMember (.genericTypeParam 0 0) 5, .genericTypeParam 0 1]
        (.classType 7 [.genericTypeParam 0 0, .structural 9 [.genericTypeParam 0 1]]) =
      .classType 7 [.dependentMember (.genericTypeParam 0 0) 5,
        .structural 9 [.genericTypeParam 0 1]] :=
  ⟨by decide,
    (match getConcreteSubstitutionSchema_lossless exampleContext
        (.classType 7 [.dependentMember (.genericTypeParam 0 0) 5,
          .structural 9 [.genericTypeParam 0 1]]) none (by decide) with
    | ⟨schema, result, hrun, _, hsub, _⟩ => ⟨schema, result, hrun, hsub⟩),
    by decide⟩

end RuleBuilder

namespace RequirementMachine

/-- C13: if the rounds before round `k` all ask for another round and, in
round `k`, confluence completion reports `MaxIterations` or `MaxDepth`, then
`computeCompletion` calls `abort()` right after that completion: the system is
the one completion left, so `verifyRewriteRules` and `buildPropertyMap` are not
run, and `Complete` is unchanged. If in round `k` completion reports `Success`
and the property-map build reports `MaxIterations` or `MaxDepth`, the function
calls `abort()` after the build, whatever the number of added rules it
reported, and `Complete` is unchanged. -/
theorem computeCompletion_fatal {σ : Type} (E : RewriteEngine σ) (policy : ValidityPolicy)
    (m : RequirementMachine σ) (k : Nat)
    (hprev : ∀ j, j < k → RoundContinues E policy m.RequirementMachineStepLimit
      m.RequirementMachineDepthLimit
      (systemAfter E policy m.RequirementMachineStepLimit m.RequirementMachineDepthLimit j
        m.System)) :
    (completionStatus E m.RequirementMachineStepLimit m.RequirementMachineDepthLimit
        (systemAfter E policy m.RequirementMachineStepLimit m.RequirementMachineDepthLimit k
          m.System) ≠ CompletionResult.Success →
      ∀ fuel, k < fuel →
        ∃ m1, computeCompletion E policy fuel m = Outcome.aborted m1 ∧
          m1.System = completedSystem E m.RequirementMachineStepLimit
            m.RequirementMachineDepthLimit
            (systemAfter E policy m.RequirementMachineStepLimit
              m.RequirementMachineDepthLimit k m.System) ∧
          m1.Complete = m.Complete) ∧
    (completionStatus E m.RequirementMachineStepLimit m.RequirementMachineDepthLimit
        (systemAfter E policy m.RequirementMachineStepLimit m.RequirementMachineDepthLimit k
          m.System) = CompletionResult.Success →
      propertyMapStatus E policy m.RequirementMachineStepLimit m.RequirementMachineDepthLimit
        (systemAfter E policy m.RequirementMachineStepLimit m.RequirementMachineDepthLimit k
          m.System) ≠ CompletionResult.Success →
      ∀ fuel, k < fuel →
        ∃ m1, computeCompletion E policy fuel m = Outcome.aborted m1 ∧
          m1.System = systemAfter E policy m.RequirementMachineStepLimit
            m.RequirementMachineDepthLimit (k + 1) m.System ∧
          m1.Complete = m.Complete) := by
  obtain ⟨mk, hrun, hsys, hcomp, hsl, hdl, _⟩ := computeCompletion_peel E policy k m hprev
  constructor
  · intro hc fuel hfuel
    obtain ⟨n, rfl⟩ : ∃ n, fuel = (n + 1) + k := ⟨fuel - k - 1, by omega⟩
    rw [hrun]
    rw [← hsys, ← hsl, ← hdl] at hc
    obtain ⟨m1, hround, h1sys, h1comp⟩ := completionRound_completion_failed E policy mk hc
    refine ⟨m1, ?_, ?_, h1comp.trans hcomp⟩
    · rw [computeCompletion, hround]
    · rw [h1sys, hsl, hdl, hsys]
  · intro hc hp fuel hfuel
    obtain ⟨n, rfl⟩ : ∃ n, fuel = (n + 1) + k := ⟨fuel - k - 1, by omega⟩
    rw [hrun]
    rw [← hsys, ← hsl, ← hdl] at hc hp
    obtain ⟨m1, h1sys, h1comp, _, _, hround⟩ := completionRound_completion_ok E policy mk hc
    rw [if_neg hp] at hround
    refine ⟨m1, ?_, ?_, h1comp.trans hcomp⟩
    · rw [computeCompletion, hround]
    · rw [h1sys, hsl, hdl, hsys, ← systemAfter_succ_outer]

/-- C13, worked examples: a completion that reports `MaxIterations` in the first
round is the only call made; a property-map build that reports `MaxDepth` with
zero added rules in the second round still ends in `abort()`; in both cases the
machine is not complete. -/
theorem computeCompletion_fatal_witness :
    (∃ m1,
      computeCompletion scriptedEngine ValidityPolicy.AllowInvalidRequirements 3
          (scriptedMachine [(.Success, 1), (.Success, 2), (.Success, 1), (.MaxDepth, 0)]) =
        Outcome.aborted m1 ∧ m1.Complete = false) ∧
    (computeCompletion scriptedEngine ValidityPolicy.AllowInvalidRequirements 3
        (scriptedMachine
          [(.Success, 1), (.Success, 2), (.Success, 1), (.MaxDepth, 0)])).value.System.calls =
      [EngineCall.computeConfluentCompletion 100 10,
        EngineCall.verifyRewriteRules ValidityPolicy.AllowInvalidRequirements,
        EngineCall.buildPropertyMap 100 10,
        EngineCall.computeConfluentCompletion 100 10,
        EngineCall.verifyRewriteRules ValidityPolicy.AllowInvalidRequirements,
        EngineCall.buildPropertyMap 100 10] ∧
    (computeCompletion scriptedEngine ValidityPolicy.AllowInvalidRequirements 3
        (scriptedMachine [(.MaxIterations, 7), (.Success, 0)])).isAborted = true ∧
    (computeCompletion scriptedEngine ValidityPolicy.AllowInvalidRequirements 3
        (scriptedMachine [(.MaxIterations, 7), (.Success, 0)])).value.System.calls =
      [EngineCall.computeConfluentCompletion 100 10] ∧
    (computeCompletion scriptedEngine ValidityPolicy.AllowInvalidRequirements 3
        (scriptedMachine [(.MaxIterations, 7), (.Success, 0)])).value.Complete = false :=
  ⟨(match (computeCompletion_fatal scriptedEngine ValidityPolicy.AllowInvalidRequirements
        (scriptedMachine [(.Success, 1), (.Success, 2), (.Success, 1), (.MaxDepth, 0)]) 1
        (fun j hj => by
          have hj0 : j = 0 := by omega
          subst hj0
          exact ⟨by decide, by decide, by decide⟩)).2 (by decide) (by decide) 3 (by decide) with
    | ⟨m1, hrun, _, hcomp⟩ => ⟨m1, hrun, hcomp⟩),
    by decide, by decide, by decide, by decide⟩

/-- C14 (as the code has it): on a machine whose `Complete` flag is already
true, `computeCompletion` never returns normally and leaves the flag true
whatever the fuel; it runs its rounds of confluence completion,
`verifyRewriteRules` and `buildPropertyMap` as on any machine, and the
assertion that the machine is not complete fails only once the loop is left:
after the first round `k` that reports no added rule, with the system that
`k + 1` full rounds leave. -/
theorem computeCompletion_on_complete {σ : Type} (E : RewriteEngine σ)
    (policy : ValidityPolicy) (m : RequirementMachine σ) (hcomplete : m.Complete = true) :
    (∀ fuel,
      (computeCompletion E policy fuel m).isReturned = false ∧
        (computeCompletion E policy fuel m).value.Complete = true) ∧
    (∀ k : Nat,
      (∀ j, j < k → RoundContinues E policy m.RequirementMachineStepLimit
        m.RequirementMachineDepthLimit
        (systemAfter E policy m.RequirementMachineStepLimit m.RequirementMachineDepthLimit j
          m.System)) →
      completionStatus E m.RequirementMachineStepLimit m.RequirementMachineDepthLimit
        (systemAfter E policy m.RequirementMachineStepLimit m.RequirementMachineDepthLimit k
          m.System) = CompletionResult.Success →
      propertyMapStatus E policy m.RequirementMachineStepLimit m.RequirementMachineDepthLimit
        (systemAfter E policy m.RequirementMachineStepLimit m.RequirementMachineDepthLimit k
          m.System) = CompletionResult.Success →
      roundAdded E policy m.RequirementMachineStepLimit m.RequirementMachineDepthLimit
        (systemAfter E policy m.RequirementMachineStepLimit m.RequirementMachineDepthLimit k
          m.System) = 0 →
      ∀ fuel, k < fuel →
        ∃ m1, computeCompletion E policy fuel m = Outcome.violated m1 ∧
          m1.Complete = true ∧
          m1.System = systemAfter E policy m.RequirementMachineStepLimit
            m.RequirementMachineDepthLimit (k + 1) m.System) := by
  constructor
  · intro fuel
    exact ⟨(computeCompletion_complete E policy fuel m hcomplete).2,
      (computeCompletion_complete E policy fuel m hcomplete).1⟩
  · intro k hgood hc hp hz fuel hfuel
    obtain ⟨mk, hrun, hsys, hcomp, hsl, hdl, _⟩ := computeCompletion_peel E policy k m hgood
    obtain ⟨n, rfl⟩ : ∃ n, fuel = (n + 1) + k := ⟨fuel - k - 1, by omega⟩
    rw [hrun]
    rw [← hsys, ← hsl, ← hdl] at hc hp hz
    obtain ⟨m1, h1sys, h1comp, hlast⟩ := computeCompletion_last E policy n mk hc hp hz
    rw [hlast, hcomp, hcomplete]
    refine ⟨m1, by simp, h1comp.trans (hcomp.trans hcomplete), ?_⟩
    rw [h1sys, hsl, hdl, hsys, ← systemAfter_succ_outer]

/-- C14, worked example: a complete machine on the example engine whose first
round reports no added rule. -/
theorem computeCompletion_on_complete_witness :
    ({ scriptedMachine [(.Success, 1), (.Success, 0)] with Complete := true } :
        RequirementMachine ScriptedSystem).Complete = true ∧
    ∃ m1,
      computeCompletion scriptedEngine ValidityPolicy.AllowInvalidRequirements 1
          { scriptedMachine [(.Success, 1), (.Success, 0)] with Complete := true } =
        Outcome.violated m1 ∧ m1.Complete = true :=
  ⟨rfl,
    (match (computeCompletion_on_complete scriptedEngine
        ValidityPolicy.AllowInvalidRequirements
        { scriptedMachine [(.Success, 1), (.Success, 0)] with Complete := true } rfl).2 0
        (fun j hj => absurd hj (Nat.not_lt_zero j))
        (by decide) (by decide) (by decide) 1 (by decide) with
    | ⟨m1, hrun, hcomp, _⟩ => ⟨m1, hrun, hcomp⟩)⟩

/-- C14, as stated, fails: on a complete machine `computeCompletion` runs
confluence completion, `verifyRewriteRules` and the property-map build on the
system before the assertion rejects the call. -/
theorem computeCompletion_on_complete_counterexample :
    (computeCompletion scriptedEngine ValidityPolicy.AllowInvalidRequirements 1
        { scriptedMachine [(.Success, 1), (.Success, 0)] with Complete := true }).isViolated =
      true ∧
    (computeCompletion scriptedEngine ValidityPolicy.AllowInvalidRequirements 1
        { scriptedMachine [(.Success, 1), (.Success, 0)] with
          Complete := true }).value.System.calls =
      [EngineCall.computeConfluentCompletion 100 10,
        EngineCall.verifyRewriteRules ValidityPolicy.AllowInvalidRequirements,
        EngineCall.buildPropertyMap 100 10] := by
  decide

/-- C17 (as the code has it): two of the three entry points seed the rewrite
system with loop recording enabled. When the rule builder returns,
`initWithGenericSignature` calls `initialize` with `recordLoops = false`, and
`initWithProtocols` and `initWithAbstractRequirements` call it with
`recordLoops = true`, each on the rules of the builder and before the
completion loop. -/
theorem entry_points_recordLoops {σ : Type} (E : RewriteEngine σ) (ctx : RewriteContext)
    (builderFuel fuel : Nat) (m : RequirementMachine σ) :
    (∀ (sig : GenericSignature) (builder : RuleBuilder),
      RuleBuilder.addRequirements ctx builderFuel sig.getRequirements
          (RuleBuilder.init m.Dump) = some builder →
        initWithGenericSignature E ctx builderFuel fuel sig m =
          computeCompletion E ValidityPolicy.DisallowInvalidRequirements fuel
            { m with
              Sig := some sig
              Params := m.Params ++ sig.getGenericParams
              Stats := countMachine m.Stats
              System := E.initializeSystem false builder.PermanentRules
                builder.RequirementRules m.System }) ∧
    (∀ (protos : List ProtocolDecl) (builder : RuleBuilder),
      RuleBuilder.addProtocols ctx builderFuel protos (RuleBuilder.init m.Dump) =
          some builder →
        initWithProtocols E ctx builderFuel fuel protos m =
          computeCompletion E ValidityPolicy.AllowInvalidRequirements fuel
            { m with
              Protos := protos
              Stats := countMachine m.Stats
              System := E.initializeSystem true builder.PermanentRules
                builder.RequirementRules m.System }) ∧
    (∀ (genericParams : List GenericTypeParamType) (requirements : List Requirement)
        (builder : RuleBuilder),
      RuleBuilder.addRequirements ctx builderFuel requirements (RuleBuilder.init m.Dump) =
          some builder →
        initWithAbstractRequirements E ctx builderFuel fuel genericParams requirements m =
          computeCompletion E ValidityPolicy.AllowInvalidRequirements fuel
            { m with
              Params := m.Params ++ genericParams
              Stats := countMachine m.Stats
              System := E.initializeSystem true builder.PermanentRules
                builder.RequirementRules m.System }) := by
  refine ⟨?_, ?_, ?_⟩
  · intro sig builder h
    simp only [initWithGenericSignature, h]
  · intro protos builder h
    simp only [initWithProtocols, h]
  · intro genericParams requirements builder h
    simp only [initWithAbstractRequirements, h]

/-- C17, worked example: the first call that each entry point makes on the
example engine, for the generic parameter `τ_0_0` with a conformance to
protocol 0, and for the protocol 0. -/
theorem entry_points_recordLoops_witness :
    (initWithGenericSignature scriptedEngine exampleContext 3 3
        { getGenericParams := [{ depth := 0, index := 0 }]
          getRequirements := [.Conformance (.genericTypeParam 0 0) 0] }
        (scriptedMachine [(.Success, 1), (.Success, 0)])).value.System.calls.head? =
      some (EngineCall.initializeSystem false
        [([Symbol.Protocol 0, Symbol.Protocol 0], [Symbol.Protocol 0])]
        [([Symbol.GenericParam 0 0], [Symbol.GenericParam 0 0, Symbol.Protocol 0])]) ∧
    (initWithProtocols scriptedEngine exampleContext 3 3 [0]
        (scriptedMachine [(.Success, 1), (.Success, 0)])).value.System.calls.head? =
      some (EngineCall.initializeSystem true
        [([Symbol.Protocol 0, Symbol.Protocol 0], [Symbol.Protocol 0])] []) ∧
    (initWithAbstractRequirements scriptedEngine exampleContext 3 3
        [{ depth := 0, index := 0 }] [.Conformance (.genericTypeParam 0 0) 0]
        (scriptedMachine [(.Success, 1), (.Success, 0)])).value.System.calls.head? =
      some (EngineCall.initializeSystem true
        [([Symbol.Protocol 0, Symbol.Protocol 0], [Symbol.Protocol 0])]
        [([Symbol.GenericParam 0 0], [Symbol.GenericParam 0 0, Symbol.Protocol 0])]) := by
  decide

/-- C17, as stated, fails: `initWithAbstractRequirements` calls `initialize`
with `recordLoops = true`, not `false`. -/
theorem entry_points_recordLoops_counterexample :
    (initWithAbstractRequirements scriptedEngine exampleContext 3 3
        [{ depth := 0, index := 0 }] [.Conformance (.genericTypeParam 0 0) 0]
        (scriptedMachine [(.Success, 1), (.Success, 0)])).value.System.calls =
      [EngineCall.initializeSystem true
          [([Symbol.Protocol 0, Symbol.Protocol 0], [Symbol.Protocol 0])]
          [([Symbol.GenericParam 0 0], [Symbol.GenericParam 0 0, Symbol.Protocol 0])],
        EngineCall.computeConfluentCompletion 100 10,
        EngineCall.verifyRewriteRules ValidityPolicy.AllowInvalidRequirements,
        EngineCall.buildPropertyMap 100 10] := by
  decide

/-- C15: for every term whose first symbol is a protocol symbol or a generic
parameter symbol of one of the generic parameters of the machine, `verify`
returns if and only if every symbol after the first is a name or an associated
type symbol and simplifying the erased form of the term (the first symbol, then
the other symbols with every associated type replaced by its name) gives back
the term. -/
theorem verify_returns_iff {σ : Type} (E : RewriteEngine σ) (m : RequirementMachine σ)
    (first : Symbol) (rest : List Symbol)
    (hroot : (∃ p, first = Symbol.Protocol p) ∨
      ∃ d i, first = Symbol.GenericParam d i ∧
        ({ depth := d, index := i } : GenericTypeParamType) ∈ m.getGenericParams) :
    (verify E m (first :: rest)).isReturned = true ↔
      (∀ s ∈ rest, isInteriorSymbol s = true) ∧
        E.simplify m.System (first :: rest.map eraseInteriorSymbol) = first :: rest := by
  have hroot1 : isErasableRoot first = true := by
    rcases hroot with ⟨p, rfl⟩ | ⟨d, i, rfl, _⟩ <;> rfl
  have hform : erasedForm (first :: rest) = first :: rest.map eraseInteriorSymbol := by
    rcases hroot with ⟨p, rfl⟩ | ⟨d, i, rfl, _⟩ <;> rfl
  have hbad : isBadGenericParam m first = false := by
    rcases hroot with ⟨p, rfl⟩ | ⟨d, i, rfl, hmem⟩
    · rfl
    · simp [isBadGenericParam, hmem]
  obtain ⟨hret, hinv⟩ := eraseTerm_eq first rest
  simp only [verify, hbad, Bool.false_eq_true, if_false]
  constructor
  · intro h
    cases he : eraseTerm (first :: rest) [] with
    | returned e =>
      have hall := (hinv e he).2
      have he2 := hret hroot1 hall
      rw [he] at he2
      cases he2
      rw [he] at h
      refine ⟨hall, ?_⟩
      rw [← hform]
      by_contra hne
      simp only [bne_iff_ne, ne_eq, hne, not_false_eq_true, if_true,
        dumpAndAbort_isReturned] at h
      exact absurd h (by decide)
    | aborted e => rw [he] at h; simp [Outcome.isReturned] at h
    | violated e => rw [he] at h; simp [Outcome.isReturned] at h
    | outOfFuel e => rw [he] at h; simp [Outcome.isReturned] at h
  · rintro ⟨hall, hsimp⟩
    rw [hret hroot1 hall, hform]
    simp [hsimp, Outcome.isReturned]

/-- C15, worked example: on the example engine, for a machine with the generic
parameter `τ_0_0`, the term `τ_0_0.3` passes. -/
theorem verify_returns_iff_witness :
    ((∃ p, Symbol.GenericParam 0 0 = Symbol.Protocol p) ∨
      ∃ d i, Symbol.GenericParam 0 0 = Symbol.GenericParam d i ∧
        ({ depth := d, index := i } : GenericTypeParamType) ∈
          ({ scriptedMachine [] with Params := [{ depth := 0, index := 0 }] } :
            RequirementMachine ScriptedSystem).getGenericParams) ∧
    (verify scriptedEngine
        { scriptedMachine [] with Params := [{ depth := 0, index := 0 }] }
        [Symbol.GenericParam 0 0, Symbol.Name 3]).isReturned = true :=
  ⟨Or.inr ⟨0, 0, rfl, by decide⟩,
    (verify_returns_iff scriptedEngine
      { scriptedMachine [] with Params := [{ depth := 0, index := 0 }] }
      (Symbol.GenericParam 0 0) [Symbol.Name 3]
      (Or.inr ⟨0, 0, rfl, by decide⟩)).2 ⟨by decide, by decide⟩⟩

/-- C16 (as the code has it): every term that `verify` accepts is not empty and
has a root that is a protocol symbol, a generic parameter symbol of one of the
generic parameters of the machine, or an associated type symbol with a
protocol; `verify` does not return on a term with any other first symbol. -/
theorem verify_accepted_root {σ : Type} (E : RewriteEngine σ) (m : RequirementMachine σ)
    (term : MutableTerm) (h : (verify E m term).isReturned = true) :
    ∃ first rest, term = first :: rest ∧
      ((∃ p, first = Symbol.Protocol p) ∨
        (∃ d i, first = Symbol.GenericParam d i ∧
          ({ depth := d, index := i } : GenericTypeParamType) ∈ m.getGenericParams) ∨
        ∃ p ps name, first = Symbol.AssociatedType (p :: ps) name) := by
  cases term with
  | nil => simp [verify, Outcome.isReturned] at h
  | cons first rest =>
    refine ⟨first, rest, rfl, ?_⟩
    have hinv := (eraseTerm_eq first rest).2
    cases first with
    | Protocol p => exact Or.inl ⟨p, rfl⟩
    | GenericParam d i =>
      refine Or.inr (Or.inl ⟨d, i, rfl, ?_⟩)
      by_contra hmem
      simp [verify, isBadGenericParam, hmem, dumpAndAbort_isReturned] at h
    | AssociatedType protos name =>
      cases protos with
      | nil =>
        simp [verify, isBadGenericParam, eraseTerm_root, Outcome.isReturned] at h
      | cons p ps => exact Or.inr (Or.inr ⟨p, ps, name, rfl⟩)
    | Name n => simp [verify, isBadGenericParam, eraseTerm_root, Outcome.isReturned] at h
    | Layout l => simp [verify, isBadGenericParam, eraseTerm_root, Outcome.isReturned] at h
    | Superclass t subs => simp [verify, isBadGenericParam, eraseTerm_root, Outcome.isReturned] at h
    | ConcreteType t subs => simp [verify, isBadGenericParam, eraseTerm_root, Outcome.isReturned] at h

/-- C16, worked example: the accepted term `[2:5].7`, whose root is an
associated type symbol. -/
theorem verify_accepted_root_witness :
    (verify scriptedEngine (scriptedMachine [])
        [Symbol.AssociatedType [2] 5, Symbol.Name 7]).isReturned = true ∧
    ∃ first rest, [Symbol.AssociatedType [2] 5, Symbol.Name 7] = first :: rest ∧
      ((∃ p, first = Symbol.Protocol p) ∨
        (∃ d i, first = Symbol.GenericParam d i ∧
          ({ depth := d, index := i } : GenericTypeParamType) ∈
            (scriptedMachine []).getGenericParams) ∨
        ∃ p ps name, first = Symbol.AssociatedType (p :: ps) name) :=
  ⟨by decide,
    verify_accepted_root scriptedEngine (scriptedMachine [])
      [Symbol.AssociatedType [2] 5, Symbol.Name 7] (by decide)⟩

/-- C16, as stated, fails: `verify` accepts the term `[2:5]`, whose first
symbol is an associated type symbol, neither a generic parameter symbol nor a
protocol symbol; its erased form `[2].5` simplifies back to it. -/
theorem verify_accepted_root_counterexample :
    (verify scriptedEngine (scriptedMachine []) [Symbol.AssociatedType [2] 5]).isReturned =
      true ∧
    (eraseTerm [Symbol.AssociatedType [2] 5] []).value = [Symbol.Protocol 2, Symbol.Name 5] ∧
    scriptedEngine.simplify (scriptedMachine []).System [Symbol.Protocol 2, Symbol.Name 5] =
      [Symbol.AssociatedType [2] 5] := by
  decide

/-- C19 (as the code has it): the loop of `verify` returns an erased form
exactly when the root is a protocol symbol, a generic parameter symbol or an
associated type symbol with a protocol and every other symbol is a name or an
associated type symbol. A root protocol or generic parameter symbol is kept and
the erased form has the length of the term; a root associated type symbol is
replaced by two symbols, the protocol symbol of its first protocol and the name
symbol of its name, and the erased form is one symbol longer than the term; in
both cases every interior associated type symbol is replaced by the name symbol
of its name and every interior name symbol is kept. -/
theorem erased_form_shape (first : Symbol) (rest : List Symbol) :
    (isErasableRoot first = true → (∀ s ∈ rest, isInteriorSymbol s = true) →
      ∃ e, eraseTerm (first :: rest) [] = Outcome.returned e) ∧
    (∀ e, eraseTerm (first :: rest) [] = Outcome.returned e →
      (∀ s ∈ rest, isInteriorSymbol s = true) ∧
      match first with
      | .AssociatedType protos name =>
        ∃ p ps, protos = p :: ps ∧
          e = Symbol.Protocol p :: Symbol.Name name :: rest.map eraseInteriorSymbol ∧
          e.length = (first :: rest).length + 1
      | _ =>
        ((∃ p, first = Symbol.Protocol p) ∨ ∃ d i, first = Symbol.GenericParam d i) ∧
          e = first :: rest.map eraseInteriorSymbol ∧
          e.length = (first :: rest).length) := by
  obtain ⟨hret, hinv⟩ := eraseTerm_eq first rest
  constructor
  · intro hr hall
    exact ⟨_, hret hr hall⟩
  · intro e he
    obtain ⟨hr, hall⟩ := hinv e he
    have he2 := hret hr hall
    rw [he] at he2
    cases he2
    refine ⟨hall, ?_⟩
    cases first with
    | Protocol p => exact ⟨Or.inl ⟨p, rfl⟩, rfl, by simp [erasedForm]⟩
    | GenericParam d i => exact ⟨Or.inr ⟨d, i, rfl⟩, rfl, by simp [erasedForm]⟩
    | AssociatedType protos name =>
      cases protos with
      | nil => simp [isErasableRoot] at hr
      | cons p ps => exact ⟨p, ps, rfl, rfl, by simp [erasedForm]⟩
    | Name n => simp [isErasableRoot] at hr
    | Layout l => simp [isErasableRoot] at hr
    | Superclass t subs => simp [isErasableRoot] at hr
    | ConcreteType t subs => simp [isErasableRoot] at hr

/-- C19, worked examples: the erased form of `[1].[1:4].6` is `[1].4.6`, of the
same length; the erased form of `[2:5].[3:6]` is `[2].5.6`, one symbol
longer. -/
theorem erased_form_shape_witness :
    (eraseTerm [Symbol.Protocol 1, Symbol.AssociatedType [1] 4, Symbol.Name 6] []).isReturned =
      true ∧
    (eraseTerm [Symbol.Protocol 1, Symbol.AssociatedType [1] 4, Symbol.Name 6] []).value =
      [Symbol.Protocol 1, Symbol.Name 4, Symbol.Name 6] ∧
    (eraseTerm [Symbol.AssociatedType [2] 5, Symbol.AssociatedType [3] 6] []).isReturned =
      true ∧
    (eraseTerm [Symbol.AssociatedType [2] 5, Symbol.AssociatedType [3] 6] []).value =
      [Symbol.Protocol 2, Symbol.Name 5, Symbol.Name 6] := by
  decide

/-- C19, as stated, fails: the erased form of the term `[2:5]`, of length 1, is
`[2].5`, of length 2: the root associated type symbol gives two symbols. -/
theorem erased_form_shape_counterexample :
    (eraseTerm [Symbol.AssociatedType [2] 5] []).isReturned = true ∧
    (eraseTerm [Symbol.AssociatedType [2] 5] []).value = [Symbol.Protocol 2, Symbol.Name 5] ∧
    (eraseTerm [Symbol.AssociatedType [2] 5] []).value.length = 2 ∧
    [Symbol.AssociatedType [2] 5].length = 1 := by
  decide

end RequirementMachine

end RequirementMachine
